import Mathlib

/-!
Verification of the openclaw-mesh node core against its specification.

The Rust sources under `src/` are shallowly embedded as Lean definitions:

* `src/util.rs`    → `Mesh.tokenizeWith`, ASCII helpers (the SHA-256 based
  hashes `sha256_hex` / `hash_to_u64` are external library functions and are
  treated as parameters `H : String → String` / `h64 : String → Nat`);
* `src/store.rs`   → `Mesh.StoreSt` and the operations `transfer`,
  `lockEscrow`, `releaseEscrow`, `storeCapsule`, `ensureGenesisAccount`,
  `appendLedger`, …;
* `src/p2p.rs`     → `Mesh.NodeSt`, `processMessage`, `broadcast`,
  `storeDhtValue`, `selectPeersStatic`, `shouldProcessMessage`;
* `src/task_bazaar.rs` → `Mesh.BazaarSt`, `submitSolution`,
  `validateSolution`.

`serde_json::Value` is modelled by `Mesh.Json` with JSON numbers restricted
to integers (no value relevant to the claims depends on float semantics) and
objects represented, as in `serde_json`'s `BTreeMap`, by their key-sorted
field list.  sled trees are modelled as association lists keyed by strings;
the ledger tree, whose keys are big-endian indices, is kept in ascending
index order so that `sled::Tree::last` is `List.getLast?`.  Randomness
(`random_hex`, `random_token`) is modelled by an explicit stream of fresh
identifiers carried in the state, and the clock by explicit numeric or
string timestamps.  Disk mirroring (`persist_account_json`) and socket I/O
are outside the model; only the data they carry is represented.
-/

namespace Mesh

/-! ## Association list maps (model of sled trees and HashMaps) -/

/-- Look up a key in an association list (first match). -/
def alookup (k : String) : List (String × α) → Option α
  | [] => none
  | (k', v) :: rest => if k' = k then some v else alookup k rest

/-- Insert-or-replace a binding, keeping the position of an existing key. -/
def aset (k : String) (v : α) : List (String × α) → List (String × α)
  | [] => [(k, v)]
  | (k', v') :: rest => if k' = k then (k, v) :: rest else (k', v') :: aset k v rest

/-- Remove a binding. -/
def aremove (k : String) : List (String × α) → List (String × α)
  | [] => []
  | (k', v') :: rest => if k' = k then rest else (k', v') :: aremove k rest

/-- The keys of an association list. -/
def akeys (m : List (String × α)) : List String := m.map Prod.fst

/-- Insert into a list sorted by `le`, before the first element not below
the inserted one (the stable position). -/
def insertSorted (le : α → α → Bool) (x : α) : List α → List α
  | [] => [x]
  | y :: ys => if le x y then x :: y :: ys else y :: insertSorted le x ys

/-- Stable sort by a Boolean total preorder — extensionally the behavior
of Rust's stable `sort_by` / `sort_by_key`. -/
def stableSortBy (le : α → α → Bool) : List α → List α
  | [] => []
  | x :: xs => insertSorted le x (stableSortBy le xs)

/-- Rust `str::starts_with` for plain string patterns. -/
def strStartsWith (s pat : String) : Bool := pat.data.isPrefixOf s.data

/-! ## ASCII helpers (model of `to_ascii_lowercase`) -/

/-- Model of Rust `char::to_ascii_lowercase`. -/
def asciiLowerChar (c : Char) : Char :=
  if 'A' ≤ c ∧ c ≤ 'Z' then Char.ofNat (c.toNat + 32) else c

/-- Model of Rust `str::to_ascii_lowercase`. -/
def asciiLower (s : String) : String := String.mk (s.data.map asciiLowerChar)

/-! ## Tokenizer (`src/util.rs`, `tokenize`)

Rust's `char::is_alphanumeric` is a Unicode property from the standard
library; the tokenizer is therefore embedded parametrically in the
classifier `isAlnum`.  `rustIsAlphanumericL1` below gives the concrete
value of that classifier on the Latin-1 range, which is all the concrete
inputs used here need. -/

/-- The character class accepted by the tokenizer loop:
`ch.is_alphanumeric() || ch == '_' || ch == '-'`. -/
def wordChar (isAlnum : Char → Bool) (c : Char) : Bool :=
  isAlnum c || c = '_' || c = '-'

/-- The tokenizer loop of `tokenize`: `current` is the accumulator string,
pushed to the output when a non-word character is met (and once at the end)
if non-empty. -/
def tokenizeGo (p : Char → Bool) (cur : List Char) : List Char → List String
  | [] => if cur = [] then [] else [String.mk cur]
  | c :: rest =>
    if p c then tokenizeGo p (cur ++ [asciiLowerChar c]) rest
    else if cur = [] then tokenizeGo p [] rest
    else String.mk cur :: tokenizeGo p [] rest

/-- Model of `tokenize`, parameterized by the `is_alphanumeric` classifier. -/
def tokenizeWith (isAlnum : Char → Bool) (text : String) : List String :=
  tokenizeGo (wordChar isAlnum) [] text.data

/-- Rust `char::is_alphanumeric` (Unicode `Alphabetic` or `Number`)
restricted to the Latin-1 range; code points at or above `0x100` are not
needed by any concrete input in this file and are mapped to `false`. -/
def rustIsAlphanumericL1 (c : Char) : Bool :=
  let n := c.toNat
  (48 ≤ n ∧ n ≤ 57) ∨ (65 ≤ n ∧ n ≤ 90) ∨ (97 ≤ n ∧ n ≤ 122) ∨
  n = 0xAA ∨ n = 0xB2 ∨ n = 0xB3 ∨ n = 0xB5 ∨ n = 0xB9 ∨ n = 0xBA ∨
  n = 0xBC ∨ n = 0xBD ∨ n = 0xBE ∨
  (0xC0 ≤ n ∧ n ≤ 0xD6) ∨ (0xD8 ≤ n ∧ n ≤ 0xF6) ∨ (0xF8 ≤ n ∧ n ≤ 0xFF)

/-- The ASCII-only classifier the specification describes:
`[A-Za-z0-9_-]`. -/
def asciiWordChar (c : Char) : Bool :=
  ('0' ≤ c ∧ c ≤ '9') ∨ ('A' ≤ c ∧ c ≤ 'Z') ∨ ('a' ≤ c ∧ c ≤ 'z') ∨
  c = '_' ∨ c = '-'

/-- Specification-side description of the tokenizer: the maximal runs of
`p`-characters, in source order, empties dropped (each run still to be
lowercased). -/
def maximalRuns (p : Char → Bool) : List Char → List (List Char)
  | [] => []
  | c :: rest =>
    if p c then (c :: rest.takeWhile p) :: maximalRuns p (rest.dropWhile p)
    else maximalRuns p rest
termination_by l => l.length
decreasing_by
  all_goals simp_wf
  all_goals exact Nat.lt_succ_of_le (List.dropWhile_suffix p).length_le

/-- Specification-side tokenizer: maximal `p`-runs, each lowercased with
`to_ascii_lowercase`, in source order. -/
def runTokens (p : Char → Bool) (text : String) : List String :=
  (maximalRuns p text.data).map (fun run => String.mk (run.map asciiLowerChar))

/-! ## JSON values (model of `serde_json::Value`)

Numbers are restricted to integers (`i64`/`u64`; none of the claims depend
on float semantics).  Objects carry their fields in the key-sorted order
maintained by `serde_json`'s `BTreeMap`, so Lean equality of `Json` values
is the structural equality of `serde_json::Value`. -/

inductive Json where
  | null
  | bool (b : Bool)
  | num (n : Int)
  | str (s : String)
  | arr (elems : List Json)
  | obj (fields : List (String × Json))

mutual

/-- Structural equality of JSON values (Boolean form; proved equivalent to
Lean equality in the theorem section). -/
def Json.beq : Json → Json → Bool
  | .null, .null => true
  | .bool a, .bool b => a = b
  | .num a, .num b => a = b
  | .str a, .str b => a = b
  | .arr a, .arr b => Json.beqItems a b
  | .obj a, .obj b => Json.beqFields a b
  | _, _ => false

/-- Structural equality on element lists. -/
def Json.beqItems : List Json → List Json → Bool
  | [], [] => true
  | a :: as, b :: bs => Json.beq a b && Json.beqItems as bs
  | _, _ => false

/-- Structural equality on field lists. -/
def Json.beqFields : List (String × Json) → List (String × Json) → Bool
  | [], [] => true
  | (ka, va) :: as, (kb, vb) :: bs => ka = kb && Json.beq va vb && Json.beqFields as bs
  | _, _ => false

end

/-- `serde_json::Value::get` with a string key. -/
def Json.get (j : Json) (key : String) : Option Json :=
  match j with
  | .obj kvs => alookup key kvs
  | _ => none

/-- `serde_json::Value::as_str`. -/
def Json.asStr (j : Json) : Option String :=
  match j with
  | .str s => some s
  | _ => none

/-- `serde_json::Value::as_array`. -/
def Json.asArray (j : Json) : Option (List Json) :=
  match j with
  | .arr xs => some xs
  | _ => none

/-- The decimal digit characters. -/
def digitCh (n : Nat) : Char := Char.ofNat (48 + n)

/-- Lowercase hex digit characters. -/
def hexDigitCh (n : Nat) : Char :=
  if n < 10 then digitCh n else Char.ofNat (97 + (n - 10))

/-- Decimal rendering worker; the fuel argument only drives the
recursion (any fuel at least the input is enough, see
`natCharsGo_fuel`). -/
def natCharsGo : Nat → Nat → List Char
  | 0, n => [digitCh (n % 10)]
  | fuel + 1, n =>
    if n < 10 then [digitCh n]
    else natCharsGo fuel (n / 10) ++ [digitCh (n % 10)]

/-- Decimal rendering of a natural number, most significant digit first. -/
def natChars (n : Nat) : List Char := natCharsGo n n

/-- Decimal rendering of an integer, as `serde_json` serializes `i64`. -/
def intChars (n : Int) : List Char :=
  if n < 0 then '-' :: natChars n.natAbs else natChars n.natAbs

/-- String escaping of one character, as in `serde_json`'s serializer:
quote and backslash get a two-character escape, the five short control
escapes are used where they exist, remaining control characters get a
`\u00XX` escape, and everything else is emitted verbatim. -/
def escChar (c : Char) : List Char :=
  if c = '"' then ['\\', '"']
  else if c = '\\' then ['\\', '\\']
  else if c.toNat = 8 then ['\\', 'b']
  else if c.toNat = 9 then ['\\', 't']
  else if c.toNat = 10 then ['\\', 'n']
  else if c.toNat = 12 then ['\\', 'f']
  else if c.toNat = 13 then ['\\', 'r']
  else if c.toNat < 32 then ['\\', 'u', '0', '0', hexDigitCh (c.toNat / 16), hexDigitCh (c.toNat % 16)]
  else [c]

/-- Escape every character of a string body. -/
def escapeChars : List Char → List Char
  | [] => []
  | c :: rest => escChar c ++ escapeChars rest

/-- A serialized JSON string: quote, escaped body, quote. -/
def strChars (s : String) : List Char := '"' :: (escapeChars s.data ++ ['"'])

mutual

/-- `serde_json::Value::to_string`: the compact serialization, object keys
in stored (sorted) order. -/
def encode : Json → List Char
  | .bool false => ['f', 'a', 'l', 's', 'e']
  | .bool true => ['t', 'r', 'u', 'e']
  | .num n => intChars n
  | .null => ['n', 'u', 'l', 'l']
  | .str s => strChars s
  | .arr xs => '[' :: (encodeItems xs ++ [']'])
  | .obj kvs => Char.ofNat 123 :: (encodeFields kvs ++ [Char.ofNat 125])

/-- Comma-separated serialization of array elements. -/
def encodeItems : List Json → List Char
  | [] => []
  | [x] => encode x
  | x :: y :: rest => encode x ++ ',' :: encodeItems (y :: rest)

/-- Comma-separated serialization of object fields. -/
def encodeFields : List (String × Json) → List Char
  | [] => []
  | [(k, v)] => strChars k ++ ':' :: encode v
  | (k, v) :: p :: rest => strChars k ++ ':' :: encode v ++ ',' :: encodeFields (p :: rest)

end

/-- `serde_json::to_string` of a value. -/
def jsonToString (j : Json) : String := String.mk (encode j)

/-! ## Store (`src/store.rs`)

The six sled trees are association lists.  The ledger tree is keyed by the
big-endian entry index, so iteration order is index order and
`sled::Tree::last` is the last list element; the model keeps the list in
ascending index order.  `persist_account_json` only mirrors data to plain
files and has no further effect on the store, so it is not represented.
The hash `sha256_hex` is the parameter `H`; `rand`-based identifiers come
from the `freshIds` stream; `chrono` clocks are the `nowMs` / `nowIso`
fields. -/

structure Account where
  accountId : String
  nodeId : String
  algorithm : String
  seedHash : String
  createdAt : String
  importedAt : Option String
  balance : Int
deriving DecidableEq

structure LedgerEntry where
  index : Nat
  prevHash : String
  hash : String
  timestamp : Int
  entryType : String
  accountId : Option String
  nodeId : Option String
  fromA : Option String
  toA : Option String
  amount : Int
  meta : Json

structure Escrow where
  taskId : String
  fromAccountId : String
  amount : Int
  token : String
  createdAt : String
deriving DecidableEq

structure StoreSt where
  genesisOperator : Option String
  accounts : List (String × Account)
  accountIndex : List (String × String)
  ledger : List LedgerEntry
  capsules : List (String × String)
  capsuleIndex : List (String × List String)
  escrows : List (String × Escrow)
  genesisSupply : Int
  nowMs : Int
  nowIso : String
  freshIds : List String

/-- A JSON string for `Some`, JSON null for `None`, as `serde_json` turns
an `Option<&str>` into a `Value`. -/
def optStr : Option String → Json
  | some s => Json.str s
  | none => Json.null

/-- The canonical payload hashed by `append_ledger`: the entry without its
`hash` field, serialized with the keys in `BTreeMap` (alphabetical)
order. -/
def ledgerPayload (index : Nat) (prevHash : String) (timestamp : Int)
    (entryType : String) (fromA toA : Option String) (amount : Int) (meta : Json) : Json :=
  Json.obj [("amount", Json.num amount), ("entry_type", Json.str entryType),
    ("from", optStr fromA), ("index", Json.num (Int.ofNat index)), ("meta", meta),
    ("prev_hash", Json.str prevHash), ("timestamp", Json.num timestamp),
    ("to", optStr toA)]

/-- The hashed payload reconstructed from a stored entry (its fields other
than `hash`, `account_id` and `node_id`, which the hashed payload never
contains). -/
def entryPayload (e : LedgerEntry) : Json :=
  ledgerPayload e.index e.prevHash e.timestamp e.entryType e.fromA e.toA e.amount e.meta

section StoreOps

variable (H : String → String) (isAlnum : Char → Bool)

/-- `Store::ledger_head`: next index and previous hash. -/
def ledgerHead (st : StoreSt) : Nat × String :=
  match st.ledger.getLast? with
  | some e => (e.index + 1, e.hash)
  | none => (0, "")

/-- `Store::append_ledger`. -/
def appendLedger (st : StoreSt) (entryType : String) (fromA toA : Option String)
    (amount : Int) (meta : Json) : StoreSt × LedgerEntry :=
  let ip := ledgerHead st
  let payload := ledgerPayload ip.1 ip.2 st.nowMs entryType fromA toA amount meta
  let h := H (jsonToString payload)
  let entry : LedgerEntry :=
    ⟨ip.1, ip.2, h, st.nowMs, entryType, none, none, fromA, toA, amount, meta⟩
  ({ st with ledger := st.ledger ++ [entry] }, entry)

/-- `Store::get_account`. -/
def getAccount (st : StoreSt) (accountId : String) : Except String Account :=
  match alookup accountId st.accounts with
  | some a => Except.ok a
  | none => Except.error "Account not found"

/-- `Store::put_account` (the on-disk JSON mirrors are outside the
model). -/
def putAccount (st : StoreSt) (a : Account) : StoreSt :=
  { st with accounts := aset a.accountId a st.accounts }

/-- `Store::get_account_id_by_node`. -/
def getAccountIdByNode (st : StoreSt) (nodeId : String) : Option String :=
  alookup nodeId st.accountIndex

/-- `Store::ensure_genesis_account`. -/
def ensureGenesisAccount (st : StoreSt) : StoreSt × Except String Account :=
  match getAccountIdByNode st "node_genesis" with
  | some accountId => (st, getAccount st accountId)
  | none =>
    let account : Account := ⟨"acct_genesis", "node_genesis", "genesis", H "genesis", st.nowIso, none, 0⟩
    let st1 := putAccount st account
    let st2 := { st1 with accountIndex := aset "node_genesis" account.accountId st1.accountIndex }
    if st2.ledger.isEmpty then
      let ae := appendLedger H st2 "mint" none (some account.accountId) st2.genesisSupply (Json.obj [])
      let entry2 := { ae.2 with accountId := some account.accountId }
      let st4 := { ae.1 with ledger := ae.1.ledger.dropLast ++ [entry2] }
      let updated := { account with balance := account.balance + st4.genesisSupply }
      (putAccount st4 updated, Except.ok updated)
    else
      (st2, Except.ok account)

/-- `Store::ensure_account`. -/
def ensureAccount (st : StoreSt) (nodeId algorithm : String) : StoreSt × Except String Account :=
  match getAccountIdByNode st nodeId with
  | some accountId => (st, getAccount st accountId)
  | none =>
    let accountId := "acct_" ++ st.freshIds.headD ""
    let st1 := { st with freshIds := st.freshIds.tail }
    let account : Account :=
      ⟨accountId, nodeId, algorithm, H (nodeId ++ ":" ++ accountId), st1.nowIso, none, 0⟩
    let st2 := putAccount st1 account
    ({ st2 with accountIndex := aset nodeId accountId st2.accountIndex }, Except.ok account)

/-- `Store::import_account`. -/
def importAccount (st : StoreSt) (nodeId : String) (payload : Account) : StoreSt × Account :=
  let imported := { payload with nodeId := nodeId, importedAt := some st.nowIso }
  let st1 := putAccount st imported
  ({ st1 with accountIndex := aset nodeId imported.accountId st1.accountIndex }, imported)

/-- The balance-moving second half of `Store::transfer`: account loads,
balance check, the two writes, and the ledger append. -/
def transferCore (st : StoreSt) (fromAccountId toAccountId : String) (amount : Int) :
    StoreSt × Except String Unit :=
  match getAccount st fromAccountId with
  | Except.error e => (st, Except.error e)
  | Except.ok fromAccount =>
    match getAccount st toAccountId with
    | Except.error e => (st, Except.error e)
    | Except.ok toAccount =>
      if fromAccount.balance < amount then (st, Except.error "Insufficient balance")
      else
        let fromAccount' := { fromAccount with balance := fromAccount.balance - amount }
        let toAccount' := { toAccount with balance := toAccount.balance + amount }
        let st2 := putAccount st fromAccount'
        let st3 := putAccount st2 toAccount'
        let st4 := (appendLedger H st3 "transfer" (some fromAccountId) (some toAccountId) amount (Json.obj [])).1
        (st4, Except.ok ())

/-- `Store::transfer`: amount check, genesis bootstrap, operator
authorization for transfers out of the genesis account, then
`transferCore`.  The state is returned in every branch because the Rust
method mutates through `&mut self` before some of its error returns. -/
def transfer (st : StoreSt) (fromAccountId toAccountId : String) (amount : Int)
    (operatorAccountId : Option String) : StoreSt × Except String Unit :=
  if amount ≤ 0 then (st, Except.error "Invalid amount")
  else
    match ensureGenesisAccount H st with
    | (st1, Except.error e) => (st1, Except.error e)
    | (st1, Except.ok genesisAccount) =>
      if fromAccountId = genesisAccount.accountId then
        match st1.genesisOperator with
        | none => (st1, Except.error "Genesis operator not configured")
        | some operator =>
          if some operator ≠ operatorAccountId then
            (st1, Except.error "Genesis account operator not authorized")
          else transferCore H st1 fromAccountId toAccountId amount
      else transferCore H st1 fromAccountId toAccountId amount

/-- `Store::lock_escrow`. -/
def lockEscrow (st : StoreSt) (taskId fromAccountId : String) (amount : Int)
    (token : String) : StoreSt × Except String Unit :=
  if amount ≤ 0 then (st, Except.error "Invalid escrow amount")
  else
    match getAccount st fromAccountId with
    | Except.error e => (st, Except.error e)
    | Except.ok fromAccount =>
      if fromAccount.balance < amount then (st, Except.error "Insufficient balance")
      else
        let fromAccount' := { fromAccount with balance := fromAccount.balance - amount }
        let st1 := putAccount st fromAccount'
        let escrow : Escrow := ⟨taskId, fromAccountId, amount, token, st1.nowIso⟩
        let st2 := { st1 with escrows := aset taskId escrow st1.escrows }
        let st3 := (appendLedger H st2 "escrow_locked" (some fromAccountId) none amount
          (Json.obj [("taskId", Json.str taskId), ("token", Json.str token)])).1
        (st3, Except.ok ())

/-- `Store::release_escrow`. -/
def releaseEscrow (st : StoreSt) (taskId winnerAccountId : String) : StoreSt × Except String Int :=
  match alookup taskId st.escrows with
  | none => (st, Except.ok 0)
  | some escrow =>
    match getAccount st winnerAccountId with
    | Except.error e => (st, Except.error e)
    | Except.ok winner =>
      let winner' := { winner with balance := winner.balance + escrow.amount }
      let st1 := putAccount st winner'
      let st2 := { st1 with escrows := aremove taskId st1.escrows }
      let st3 := (appendLedger H st2 "escrow_released" none (some winnerAccountId) escrow.amount
        (Json.obj [("taskId", Json.str taskId), ("token", Json.str escrow.token)])).1
      (st3, Except.ok escrow.amount)

/-- `Store::get_balance`. -/
def getBalance (st : StoreSt) (nodeId : String) : Except String Int :=
  match getAccountIdByNode st nodeId with
  | none => Except.error "Account not found"
  | some accountId => (getAccount st accountId).map (fun a => a.balance)

/-- `Store::get_indexed_ids`.  The code deserializes the stored `Vec` into
a `HashSet`; posting lists are kept duplicate-free (see the index
invariant), under which the stored list is that set. -/
def getIndexedIds (st : StoreSt) (token : String) : List String :=
  (alookup token st.capsuleIndex).getD []

/-- Adjacent deduplication, as `Vec::dedup` after `sort`. -/
def dedupAdj : List String → List String
  | [] => []
  | [x] => [x]
  | x :: y :: rest => if x = y then dedupAdj (y :: rest) else x :: dedupAdj (y :: rest)

/-- One pass of the loop in `Store::index_capsule`: add the asset id to
the posting list of the token if absent.  `HashSet::insert` on a posting list is
modelled as append-if-absent (set membership is what the claims and the
queries observe; iteration order of the Rust set is arbitrary). -/
def capIndexStep (assetId : String) (acc : StoreSt) (token : String) : StoreSt :=
  let ids := getIndexedIds acc token
  let ids2 := if assetId ∈ ids then ids else ids ++ [assetId]
  { acc with capsuleIndex := aset token ids2 acc.capsuleIndex }

/-- The token list `Store::index_capsule` walks: lowercased tags plus
content tokens, sorted and deduplicated. -/
def capsuleTokens (capsule : Json) : List String :=
  let tagTokens :=
    match (capsule.get "tags").bind Json.asArray with
    | some tags => tags.filterMap (fun t => t.asStr.map asciiLower)
    | none => []
  let contentTokens :=
    match capsule.get "content" with
    | some content => tokenizeWith isAlnum (jsonToString content)
    | none => []
  dedupAdj (stableSortBy (fun a b => decide (a ≤ b)) (tagTokens ++ contentTokens))

/-- `Store::index_capsule`. -/
def indexCapsule (st : StoreSt) (assetId : String) (capsule : Json) : StoreSt :=
  (capsuleTokens isAlnum capsule).foldl (capIndexStep assetId) st

/-- `Store::store_capsule`. -/
def storeCapsule (st : StoreSt) (capsule : Json) : StoreSt × String :=
  let serialized := jsonToString capsule
  let assetId := H serialized
  let st1 := { st with capsules := aset assetId serialized st.capsules }
  (indexCapsule isAlnum st1 assetId capsule, assetId)

/-- `Store::open`: fresh empty trees, then the genesis bootstrap when the
node is genesis-flagged. -/
def openStore (isGenesisNode : Bool) (genesisOperator : Option String)
    (genesisSupply : Int) (nowMs : Int) (nowIso : String) (freshIds : List String) : StoreSt :=
  let st : StoreSt := ⟨genesisOperator, [], [], [], [], [], [], genesisSupply, nowMs, nowIso, freshIds⟩
  if isGenesisNode then (ensureGenesisAccount H st).1 else st

/-- The store operations a client can invoke. -/
inductive StoreOp where
  | ensureAccountOp (nodeId algorithm : String)
  | importAccountOp (nodeId : String) (payload : Account)
  | transferOp (fromAccountId toAccountId : String) (amount : Int) (operatorAccountId : Option String)
  | lockEscrowOp (taskId fromAccountId : String) (amount : Int) (token : String)
  | releaseEscrowOp (taskId winnerAccountId : String)
  | storeCapsuleOp (capsule : Json)

/-- Run one store operation; the Bool records whether it returned `Ok`. -/
def applyOp (st : StoreSt) : StoreOp → StoreSt × Bool
  | .ensureAccountOp n a => let r := ensureAccount H st n a; (r.1, r.2.toBool)
  | .importAccountOp n p => ((importAccount st n p).1, true)
  | .transferOp f t amt op => let r := transfer H st f t amt op; (r.1, r.2.toBool)
  | .lockEscrowOp tid f amt tok => let r := lockEscrow H st tid f amt tok; (r.1, r.2.toBool)
  | .releaseEscrowOp tid w => let r := releaseEscrow H st tid w; (r.1, r.2.toBool)
  | .storeCapsuleOp c => ((storeCapsule H isAlnum st c).1, true)

/-- Run a list of store operations in order. -/
def runOps (st : StoreSt) (ops : List StoreOp) : StoreSt :=
  ops.foldl (fun acc op => (applyOp H isAlnum acc op).1) st

end StoreOps

/-- Sum of all account balances. -/
def totalBalances (st : StoreSt) : Int :=
  (st.accounts.map (fun p => p.2.balance)).sum

/-- Sum of all escrowed amounts. -/
def totalEscrows (st : StoreSt) : Int :=
  (st.escrows.map (fun p => p.2.amount)).sum

/-- Total supply minted so far: the sum of the amounts of the ledger's
`mint` entries. -/
def totalMinted (st : StoreSt) : Int :=
  ((st.ledger.filter (fun e => e.entryType = "mint")).map (fun e => e.amount)).sum

/-! ## MeshNode (`src/p2p.rs`)

The model follows one connection's read loop (`handle_connection`) over the
node's shared state.  Socket writes are recorded as effects: `replies` go
back on the same connection (`tx.send`), `directSends` and `relayed` go
through `send_to_peer_static`.  `hash_to_u64` is the parameter `h64`;
`Vec::shuffle` on the RTT-less peers is the parameter `σ`; `HashMap`
iteration order is the association list's order. -/

structure WireMessage where
  messageType : String
  payload : Json
  messageId : Option String
  hopsLeft : Option Int
  requestId : Option String
  nodeId : Option String
  port : Option Nat
  timestamp : Option Int

structure PeerHandle where
  rtt : Option Int
  addr : String
deriving DecidableEq

structure PendingPing where
  peerId : String
  sentAt : Int
deriving DecidableEq

structure NodeSt where
  nodeId : String
  port : Nat
  remoteKey : String
  peerId : Option String
  peers : List (String × PeerHandle)
  pendingPings : List (String × PendingPing)
  seen : List (String × Int)
  queryWaiters : List String
  dhtWaiters : List String
  dhtRoutes : List (String × String)
  dhtStoreMap : List (String × Json)
  seenTtlMs : Int
  maxSeenMessages : Nat
  defaultFanout : Nat
  taskFanout : Nat
  defaultHops : Int
  taskHops : Int
  dhtK : Nat
  dhtAlpha : Nat
  dhtMaxHops : Int

/-- `MeshNode::new`: the fan-out, hop, and dedup constants. -/
def mkNodeSt (nodeId : String) (port : Nat) (remoteKey : String)
    (dhtK dhtAlpha : Nat) (dhtMaxHops : Int) : NodeSt :=
  ⟨nodeId, port, remoteKey, none, [], [], [], [], [], [], [],
    300000, 10000, 6, 8, 3, 4, dhtK, dhtAlpha, dhtMaxHops⟩

/-- Substring test on character lists (Rust `str::contains`). -/
def hasSub (hay needle : List Char) : Bool :=
  if needle.isPrefixOf hay then true
  else
    match hay with
    | [] => false
    | _ :: t => hasSub t needle

/-- Rust `str::contains` for plain substrings. -/
def strContains (hay needle : String) : Bool := hasSub hay.data needle.data

/-- `MeshNode::cleanup_seen_messages`: drop entries older than `ttl`, then
evict (arbitrary `HashMap` order, modelled as front-first) while the table
exceeds `maxSeen`. -/
def cleanupSeenMessages (seen : List (String × Int)) (now ttl : Int) (maxSeen : Nat) :
    List (String × Int) :=
  let retained := seen.filter (fun p => now - p.2 ≤ ttl)
  retained.drop (retained.length - maxSeen)

/-- `MeshNode::should_process_message` (note the hard-coded `300_000` /
`10_000` cleanup constants in the source). -/
def shouldProcessMessage (seen : List (String × Int)) (msg : WireMessage)
    (now : Int) (defaultHops : Int) : List (String × Int) × Bool :=
  match msg.messageId with
  | none => (seen, true)
  | some id =>
    if (alookup id seen).isSome then (seen, false)
    else
      let seen2 := cleanupSeenMessages (aset id now seen) now 300000 10000
      if msg.hopsLeft.getD defaultHops < 0 then (seen2, false) else (seen2, true)

/-- `MeshNode::should_relay_message`. -/
def shouldRelayMessage (msg : WireMessage) : Bool :=
  if msg.messageType = "handshake" || msg.messageType = "ping" || msg.messageType = "pong" then false
  else if msg.messageType = "query" || msg.messageType = "query_response" then false
  else if strStartsWith msg.messageType "dht_" then false
  else true

/-- `MeshNode::select_peers_static`: peers with a known RTT sorted
ascending, then the shuffled rest, truncated to `fanout` (with the
source's `fanout == 0` special case returning only the RTT-known
peers). -/
def selectPeersStatic (σ : List String → List String) (peers : List (String × PeerHandle))
    (fanout : Nat) (excludePeer : Option String) : List String :=
  let eligible := peers.filter (fun p => ¬ excludePeer = some p.1)
  let withStats := (eligible.filter (fun p => p.2.rtt.isSome)).map (fun p => (p.1, p.2.rtt.getD 0))
  let withoutStats := (eligible.filter (fun p => p.2.rtt.isNone)).map Prod.fst
  let sorted := (stableSortBy (fun a b => decide (a.2 ≤ b.2)) withStats).map Prod.fst
  if fanout = 0 then sorted
  else
    let ordered := sorted ++ σ withoutStats
    if fanout ≥ ordered.length then ordered else ordered.take fanout

/-- `MeshNode::select_closest_peers`: `node_`-named peers ordered by XOR
distance of `hash_to_u64` values, truncated to `count`. -/
def selectClosestPeers (h64 : String → Nat) (peers : List (String × PeerHandle))
    (key : String) (count : Nat) (excludePeer : Option String) : List String :=
  let keyHash := h64 key
  let candidates := peers.filterMap (fun p =>
    if excludePeer = some p.1 then none
    else if ¬ strStartsWith p.1 "node_" then none
    else some (p.1, Nat.xor (h64 p.1) keyHash))
  ((stableSortBy (fun a b => decide (a.2 ≤ b.2)) candidates).take count).map Prod.fst

/-- The merge loop of `MeshNode::store_dht_value` on two arrays: keep the
existing elements, append each incoming element whose serialization was
not seen yet. -/
def mergeDhtArrays (existing newList : List Json) : List Json :=
  (newList.foldl (fun (acc : List Json × List String) item =>
    let marker := jsonToString item
    if acc.2.contains marker then acc
    else (acc.1 ++ [item], acc.2 ++ [marker]))
    (existing, existing.map jsonToString)).1

/-- `MeshNode::store_dht_value`. -/
def storeDhtValue (store : List (String × Json)) (key : String) (value : Json) :
    List (String × Json) :=
  match value with
  | Json.arr newList =>
    match alookup key store with
    | some (Json.arr existingList) => aset key (Json.arr (mergeDhtArrays existingList newList)) store
    | _ => aset key (Json.arr newList) store
  | other => aset key other store

/-- `MeshNode::ensure_message_id` (the fresh random token is the
parameter). -/
def ensureMessageId (freshId : String) (msg : WireMessage) : WireMessage × String :=
  match msg.messageId with
  | some id => (msg, id)
  | none => ({ msg with messageId := some freshId }, freshId)

/-- `MeshNode::mark_message_seen`. -/
def markMessageSeen (st : NodeSt) (messageId : String) (now : Int) : NodeSt :=
  { st with seen := cleanupSeenMessages (aset messageId now st.seen) now st.seenTtlMs st.maxSeenMessages }

/-- `MeshNode::broadcast`: stamp an id, mark it seen, choose the fan-out
by message class, send to the selected peers. -/
def broadcast (σ : List String → List String) (st : NodeSt) (msg : WireMessage)
    (excludePeer : Option String) (freshId : String) (now : Int) :
    NodeSt × List (String × WireMessage) :=
  let im := ensureMessageId freshId msg
  let st1 := markMessageSeen st im.2 now
  let fanout :=
    if im.1.messageType = "task" || im.1.messageType = "task_bid" ||
       im.1.messageType = "task_assigned" || im.1.messageType = "task_completed" then
      st1.taskFanout
    else st1.defaultFanout
  let targets := selectPeersStatic σ st1.peers fanout excludePeer
  (st1, targets.map (fun p => (p, im.1)))

/-- `MeshNode::broadcast_task`: a `task` message sent with
`hops_left = task_hops`. -/
def broadcastTask (σ : List String → List String) (st : NodeSt) (task : Json)
    (freshId : String) (now : Int) : NodeSt × List (String × WireMessage) :=
  broadcast σ st ⟨"task", task, none, some st.taskHops, none, none, none, some now⟩ none freshId now

/-- `MeshNode::broadcast_capsule`: a `capsule` message sent with
`hops_left = default_hops`. -/
def broadcastCapsule (σ : List String → List String) (st : NodeSt) (capsule : Json)
    (freshId : String) (now : Int) : NodeSt × List (String × WireMessage) :=
  broadcast σ st ⟨"capsule", capsule, none, some st.defaultHops, none, none, none, some now⟩ none freshId now

/-- What one loop iteration of `handle_connection` did with a message. -/
structure MsgEffect where
  dispatched : Bool
  relayed : List (String × WireMessage)
  replies : List WireMessage
  directSends : List (String × WireMessage)

/-- The dispatch-then-relay tail of the `handle_connection` loop: the
message goes to the inbound channel, then, if relayable and still within
its hop budget, to `fanout` selected peers other than the sender. -/
def dispatchRelay (σ : List String → List String) (st : NodeSt) (msg : WireMessage)
    (active : String) (replies : List WireMessage) : NodeSt × MsgEffect :=
  if shouldRelayMessage msg then
    let nextHops := msg.hopsLeft.getD st.defaultHops - 1
    if nextHops ≥ 0 then
      let relayedMsg := { msg with hopsLeft := some nextHops }
      let fanout := if msg.messageType = "task" then st.taskFanout else st.defaultFanout
      let targets := selectPeersStatic σ st.peers fanout (some active)
      (st, ⟨true, targets.map (fun p => (p, relayedMsg)), replies, []⟩)
    else (st, ⟨true, [], replies, []⟩)
  else (st, ⟨true, [], replies, []⟩)

/-- The handshake prefix of the `handle_connection` loop iteration: peer
rebinding and the handshake reply, yielding the updated state, the active
peer name, and the queued replies. -/
def handshakeStep (st : NodeSt) (msg : WireMessage) (now : Int) :
    NodeSt × String × List WireMessage :=
  if msg.messageType = "handshake" then
    match msg.nodeId with
    | some id =>
      let peers1 :=
        match alookup st.remoteKey st.peers with
        | some handle => aset id handle (aremove st.remoteKey st.peers)
        | none => st.peers
      let replies :=
        if ¬ strContains st.remoteKey st.nodeId then
          [(⟨"handshake", Json.obj [], none, none, none, some st.nodeId, some st.port, some now⟩ : WireMessage)]
        else []
      ({ st with peerId := some id, peers := peers1 }, id, replies)
    | none => (st, st.peerId.getD st.remoteKey, [])
  else (st, st.peerId.getD st.remoteKey, [])

/-- The transport-level message classes of the loop iteration (after the
dedup gate), then dispatch and relay. -/
def routeMessage (h64 : String → Nat) (σ : List String → List String)
    (st2 : NodeSt) (active : String) (replies0 : List WireMessage)
    (msg : WireMessage) (now : Int) : NodeSt × MsgEffect :=
  if msg.messageType = "ping" then
    let pong : WireMessage := ⟨"pong", Json.obj [], msg.messageId, none, none, none, none, some now⟩
    (st2, ⟨false, [], replies0 ++ [pong], []⟩)
  else if msg.messageType = "pong" then
    match msg.messageId with
    | some pingId =>
      (match alookup pingId st2.pendingPings with
       | some pending =>
         let rtt := now - pending.sentAt
         let peers2 :=
           match alookup pending.peerId st2.peers with
           | some handle => aset pending.peerId { handle with rtt := some rtt } st2.peers
           | none => st2.peers
         ({ st2 with pendingPings := aremove pingId st2.pendingPings, peers := peers2 },
          ⟨false, [], replies0, []⟩)
       | none => (st2, ⟨false, [], replies0, []⟩))
    | none => (st2, ⟨false, [], replies0, []⟩)
  else if msg.messageType = "query_response" then
    match msg.requestId with
    | some rid =>
      ({ st2 with queryWaiters := st2.queryWaiters.erase rid }, ⟨false, [], replies0, []⟩)
    | none => (st2, ⟨false, [], replies0, []⟩)
  else if msg.messageType = "dht_store" then
    match (msg.payload.get "key").bind Json.asStr with
    | some key =>
      (match msg.payload.get "value" with
       | some value =>
         ({ st2 with dhtStoreMap := storeDhtValue st2.dhtStoreMap key value },
          ⟨false, [], replies0, []⟩)
       | none => (st2, ⟨false, [], replies0, []⟩))
    | none => (st2, ⟨false, [], replies0, []⟩)
  else if msg.messageType = "dht_find" then
    let key := ((msg.payload.get "key").bind Json.asStr).getD ""
    if key = "" then (st2, ⟨false, [], replies0, []⟩)
    else
      let rr :=
        match msg.requestId with
        | some rid =>
          let st3 := { st2 with dhtRoutes := aset rid active st2.dhtRoutes }
          (match alookup key st3.dhtStoreMap with
           | some value =>
             let response : WireMessage :=
               ⟨"dht_value", Json.obj [("key", Json.str key), ("value", value)],
                none, none, some rid, none, none, some now⟩
             (st3, some response)
           | none => (st3, none))
        | none => (st2, none)
      match rr.2 with
      | some response => (rr.1, ⟨false, [], replies0, [(active, response)]⟩)
      | none =>
        let hopsLeft := msg.hopsLeft.getD rr.1.dhtMaxHops
        if hopsLeft ≤ 0 then (rr.1, ⟨false, [], replies0, []⟩)
        else
          let relayedMsg := { msg with hopsLeft := some (hopsLeft - 1) }
          let targets := selectClosestPeers h64 rr.1.peers key (max rr.1.dhtAlpha 1) (some active)
          (rr.1, ⟨false, [], replies0, targets.map (fun p => (p, relayedMsg))⟩)
  else if msg.messageType = "dht_value" then
    match msg.requestId with
    | some rid =>
      if st2.dhtWaiters.contains rid then
        ({ st2 with dhtWaiters := st2.dhtWaiters.erase rid,
                    dhtRoutes := aremove rid st2.dhtRoutes },
         ⟨false, [], replies0, []⟩)
      else
        match alookup rid st2.dhtRoutes with
        | some prev =>
          ({ st2 with dhtRoutes := aremove rid st2.dhtRoutes },
           ⟨false, [], replies0, [(prev, msg)]⟩)
        | none => dispatchRelay σ st2 msg active replies0
    | none => dispatchRelay σ st2 msg active replies0
  else dispatchRelay σ st2 msg active replies0

/-- The rest of the loop iteration after the handshake prefix: dedup gate,
then the transport-level routing. -/
def processMessageCore (h64 : String → Nat) (σ : List String → List String)
    (st1 : NodeSt) (active : String) (replies0 : List WireMessage)
    (msg : WireMessage) (now : Int) : NodeSt × MsgEffect :=
  let sp := shouldProcessMessage st1.seen msg now st1.defaultHops
  let st2 := { st1 with seen := sp.1 }
  if ¬ sp.2 then (st2, ⟨false, [], replies0, []⟩)
  else routeMessage h64 σ st2 active replies0 msg now

/-- One iteration of the read loop of `MeshNode::handle_connection` on a
parsed message: handshake rebinding, then the core. -/
def processMessage (h64 : String → Nat) (σ : List String → List String)
    (st : NodeSt) (msg : WireMessage) (now : Int) : NodeSt × MsgEffect :=
  let hs := handshakeStep st msg now
  processMessageCore h64 σ hs.1 hs.2.1 hs.2.2 msg now

/-- Run a timed message trace through the connection loop, collecting for
each message whether it was dispatched to the inbound channel. -/
def processTrace (h64 : String → Nat) (σ : List String → List String)
    (st : NodeSt) : List (WireMessage × Int) → NodeSt × List (WireMessage × Bool)
  | [] => (st, [])
  | (m, t) :: rest =>
    let r := processMessage h64 σ st m t
    let rr := processTrace h64 σ r.1 rest
    (rr.1, (m, r.2.dispatched) :: rr.2)

/-- How many messages carrying `id` were dispatched in a processed trace. -/
def dispatchCount (results : List (WireMessage × Bool)) (id : String) : Nat :=
  (results.filter (fun r => r.1.messageId = some id ∧ r.2 = true)).length

/-! ## TaskBazaar (`src/task_bazaar.rs`) -/

structure TaskBounty where
  amount : Int
  token : String
deriving DecidableEq

structure TaskBid where
  nodeId : String
  amount : Int
  timestamp : Int
deriving DecidableEq

structure Task where
  taskId : String
  description : String
  taskType : Option String
  bounty : TaskBounty
  tags : List String
  publisher : String
  status : String
  submissions : List Json
  bids : List TaskBid
  publishedAt : String
  votingStartedAt : Option Int
  assignedTo : Option String
  assignedAt : Option Int
  winner : Option String
  completedAt : Option String

structure BazaarSt where
  nodeId : String
  store : StoreSt
  tasks : List (String × Task)
  completedTasks : List String

/-- `TaskBazaar::validate_solution`: requires a `code` or `description`
key; when the task's type is `code` and the solution's `code` is a string,
that string must be longer than 10 bytes — in every other case the
solution is accepted. -/
def validateSolution (task : Task) (solution : Json) : Bool :=
  if (solution.get "code").isNone && (solution.get "description").isNone then false
  else
    match task.taskType with
    | some taskType =>
      if taskType = "code" then
        match (solution.get "code").bind Json.asStr with
        | some code => code.utf8ByteSize > 10
        | none => true
      else true
    | none => true

/-- `TaskBazaar::submit_solution`.  The task mutations happen before the
store calls, exactly as in the source, so they persist even when the store
then fails. -/
def submitSolution (H : String → String) (st : BazaarSt) (taskId : String)
    (solution : Json) (solverNodeId : String) : BazaarSt × Except String Json :=
  match alookup taskId st.tasks with
  | none => (st, Except.error "Task not found")
  | some task =>
    if task.status ≠ "open" ∧ task.status ≠ "assigned" then (st, Except.error "Task is not open")
    else if st.completedTasks.contains taskId then
      (st, Except.ok (Json.obj [("reason", Json.str "Task already completed"), ("success", Json.bool false)]))
    else if ¬ validateSolution task solution then
      (st, Except.ok (Json.obj [("reason", Json.str "Invalid solution"), ("success", Json.bool false)]))
    else
      let task' :=
        { task with
          status := "completed"
          winner := some solverNodeId
          completedAt := some st.store.nowIso }
      let st1 :=
        { st with
          completedTasks := st.completedTasks ++ [taskId]
          tasks := aset taskId task' st.tasks }
      match ensureAccount H st1.store solverNodeId "gep-lite-v1" with
      | (store1, Except.error e) => ({ st1 with store := store1 }, Except.error e)
      | (store1, Except.ok winnerAccount) =>
        match releaseEscrow H store1 taskId winnerAccount.accountId with
        | (store2, Except.error e) => ({ st1 with store := store2 }, Except.error e)
        | (store2, Except.ok reward) =>
          ({ st1 with store := store2 },
           Except.ok (Json.obj [("reward", Json.num reward), ("success", Json.bool true),
             ("winner", Json.bool true)]))

/-! ## Invariant predicates used by the claims -/

/-- The store operations named by the conservation claim. -/
def isMoneyOp : StoreOp → Bool
  | .transferOp _ _ _ _ => true
  | .lockEscrowOp _ _ _ _ => true
  | .releaseEscrowOp _ _ => true
  | _ => false

/-- The side conditions under which the conservation claim survives: no
self-transfer, and no `lock_escrow` on a task id whose escrow row still
exists. -/
def safeOp (st : StoreSt) : StoreOp → Bool
  | .transferOp fromAccountId toAccountId _ _ => fromAccountId ≠ toAccountId
  | .lockEscrowOp taskId _ _ _ => (alookup taskId st.escrows).isNone
  | _ => true

/-- A sequence of conservation-claim operations, each safe in the state it
runs in. -/
def safeOps (H : String → String) (isAlnum : Char → Bool) (st : StoreSt) : List StoreOp → Bool
  | [] => true
  | op :: rest => isMoneyOp op && safeOp st op && safeOps H isAlnum (applyOp H isAlnum st op).1 rest

/-- Well-formedness of the keyed tables: keys are unique and each account
row is stored under its own `account_id`. -/
def WFStore (st : StoreSt) : Prop :=
  (akeys st.accounts).Nodup ∧ (∀ p ∈ st.accounts, p.2.accountId = p.1) ∧
    (akeys st.escrows).Nodup

/-- Conservation of money: all balances plus all escrowed funds equal the
minted supply. -/
def conserved (st : StoreSt) : Prop :=
  totalBalances st + totalEscrows st = totalMinted st

/-- Every account row is stored under its own `account_id` (true of every
state the store can build, since `put_account` keys rows that way). -/
def accountsKeyed (st : StoreSt) : Prop :=
  ∀ p ∈ st.accounts, p.2.accountId = p.1

/-- The genesis bootstrap has happened: the account index resolves
`node_genesis` and the account row exists. -/
def genesisReady (st : StoreSt) : Prop :=
  ∃ gid a, alookup "node_genesis" st.accountIndex = some gid ∧
    alookup gid st.accounts = some a

/-- The combined invariant behind the conservation claim. -/
def moneyInv (st : StoreSt) : Prop :=
  conserved st ∧ accountsKeyed st ∧ (akeys st.escrows).Nodup ∧ genesisReady st

/-- The hash-chain predicate on a ledger segment: indices count up from
`idx`, each entry's `prev_hash` is the running hash (`prevHash` at the
head), and each entry's `hash` field is `H` of the canonical serialization
of the entry without its hash field. -/
def chainFromB (H : String → String) (idx : Nat) (prevHash : String) : List LedgerEntry → Bool
  | [] => true
  | e :: rest =>
    e.index = idx && e.prevHash = prevHash &&
    e.hash = H (jsonToString (entryPayload e)) && chainFromB H (idx + 1) e.hash rest

/-- The full ledger invariant of the claim: dense indices from 0,
`prev_hash` chaining from the empty string, hashes as recomputed. -/
def ledgerChainOk (H : String → String) (l : List LedgerEntry) : Bool :=
  chainFromB H 0 "" l

/-! ## Specification-side definitions used to state the claims -/

/-- Decimal digit test on characters, by code point. -/
def isDigitCh (c : Char) : Bool := 48 ≤ c.toNat && c.toNat ≤ 57

/-- Whether a character list starts with a decimal digit. -/
def digitHeadB : List Char → Bool
  | [] => false
  | c :: _ => isDigitCh c

/-- Numeric value of a big-endian digit string. -/
def digitsVal (l : List Char) : Nat :=
  l.foldl (fun a c => a * 10 + (c.toNat - 48)) 0

/-- Constructor tag of a JSON value. -/
def ctorTag : Json → Nat
  | .null => 0
  | .bool _ => 1
  | .num _ => 2
  | .str _ => 3
  | .arr _ => 4
  | .obj _ => 5

/-- The tag a serialization's first character determines. -/
def headTag (c : Char) : Nat :=
  if c = 'n' then 0
  else if c = 't' then 1
  else if c = 'f' then 1
  else if c = '"' then 3
  else if c = '[' then 4
  else if c = Char.ofNat 123 then 5
  else 2

/-- Characters able to start a serialized JSON value. -/
def startChar (c : Char) : Bool :=
  c = 'n' || c = 't' || c = 'f' || c = '"' || c = '[' || c = Char.ofNat 123 ||
    c = '-' || isDigitCh c

/-- A breaking continuation: empty, or starting with a separator or a
closing bracket — the only contexts in which a serialized value is read
during deserialization of a larger value. -/
def goodBreak : List Char → Bool
  | [] => true
  | c :: _ => c = ',' || c = ']' || c = Char.ofNat 125

/-- The character encoded by a two-character escape `\d`, used to analyze
the escape function. -/
def escDecode (d : Char) : Option Char :=
  if d = '"' then some '"'
  else if d = '\\' then some '\\'
  else if d = 'b' then some (Char.ofNat 8)
  else if d = 't' then some (Char.ofNat 9)
  else if d = 'n' then some (Char.ofNat 10)
  else if d = 'f' then some (Char.ofNat 12)
  else if d = 'r' then some (Char.ofNat 13)
  else none

/-- Membership in a list of JSON values by structural equality. -/
def containsJson (l : List Json) (x : Json) : Bool := l.any (fun y => Json.beq y x)

/-- Specification-side DHT array merge: the existing elements in order,
then each incoming element not already structurally present, in order of
first appearance. -/
def mergeSpecArrays (existing incoming : List Json) : List Json :=
  incoming.foldl (fun acc item => if containsJson acc item then acc else acc ++ [item]) existing

/-!
# Theorems

First the supporting lemmas, then one theorem per claim (with its witness
or counterexample where required).
-/

/-! ## Tokenizer lemmas and claim C9 -/

/-- The tokenizer loop with a non-empty accumulator emits the accumulator
extended by the next maximal word run, then restarts after that run. -/
theorem tokenizeGo_acc (p : Char → Bool) (rest : List Char) :
    ∀ acc : List Char, acc ≠ [] →
      tokenizeGo p acc rest =
        String.mk (acc ++ (rest.takeWhile p).map asciiLowerChar) ::
          tokenizeGo p [] (rest.dropWhile p) := by
  induction rest with
  | nil => intro acc hacc; simp [tokenizeGo, hacc]
  | cons c t ih =>
    intro acc hacc
    by_cases hc : p c
    · have hne : acc ++ [asciiLowerChar c] ≠ [] := by simp
      simp [tokenizeGo, hc, ih _ hne, List.takeWhile_cons, List.dropWhile_cons]
    · simp [tokenizeGo, hc, hacc, List.takeWhile_cons, List.dropWhile_cons]

/-- The tokenizer loop computes exactly the lowercased maximal word
runs. -/
theorem tokenizeGo_maximalRuns (p : Char → Bool) (l : List Char) :
    tokenizeGo p [] l =
      (maximalRuns p l).map (fun run => String.mk (run.map asciiLowerChar)) := by
  match l with
  | [] => simp [tokenizeGo, maximalRuns]
  | c :: rest =>
    by_cases hc : p c
    · have hrec := tokenizeGo_maximalRuns p (rest.dropWhile p)
      have hacc := tokenizeGo_acc p rest [asciiLowerChar c] (by simp)
      simp [tokenizeGo, hc, maximalRuns, hacc, hrec]
    · have hrec := tokenizeGo_maximalRuns p rest
      simp [tokenizeGo, hc, maximalRuns, hrec]
termination_by l.length
decreasing_by
  · simpa using Nat.lt_succ_of_le (List.dropWhile_suffix p).length_le
  · simp

/-- Claim C9, counterexample.  The claim describes ASCII-only word
characters, but the source uses Rust `char::is_alphanumeric`, a Unicode
property that also accepts letters such as `é` (U+00E9, accepted by the
`Alphabetic` property, here via the Latin-1 table of the classifier).  On
`"café x"` the code returns `["café", "x"]`, not the `["caf", "x"]` of the
claim's `[A-Za-z0-9_-]` reading. -/
theorem claimC9_counterexample :
    tokenizeWith rustIsAlphanumericL1 "café x" = ["café", "x"] ∧
    runTokens asciiWordChar "café x" = ["caf", "x"] ∧
    tokenizeWith rustIsAlphanumericL1 "café x" ≠ runTokens asciiWordChar "café x" := by
  have h1 : tokenizeWith rustIsAlphanumericL1 "café x" = ["café", "x"] := by decide
  have h2 : runTokens asciiWordChar "café x" = ["caf", "x"] := by
    rw [runTokens, ← tokenizeGo_maximalRuns asciiWordChar]
    decide
  refine ⟨h1, h2, ?_⟩
  rw [h1, h2]
  decide

/-- Claim C9 (corrected): for every input string, `tokenize` returns
exactly the maximal runs of characters accepted by
`is_alphanumeric || ch == '_' || ch == '-'` (a Unicode word class, not the
claim's `[A-Za-z0-9_-]`), each run ASCII-lowercased, in source order, with
empty runs dropped. -/
theorem claimC9 (isAlnum : Char → Bool) (s : String) :
    tokenizeWith isAlnum s = runTokens (wordChar isAlnum) s := by
  simpa [tokenizeWith, runTokens] using tokenizeGo_maximalRuns (wordChar isAlnum) s.data

/-! ## Serialization injectivity

`store_dht_value` identifies array elements by their `to_string`
serialization while the specification speaks of structural JSON equality;
the two agree because the compact serialization is injective, which this
section establishes (`jsonToString_inj`). -/

theorem digitCh_lt_inj : ∀ a < 10, ∀ b < 10, digitCh a = digitCh b → a = b := by decide

theorem isDigitCh_digitCh : ∀ d < 10, isDigitCh (digitCh d) = true := by decide

theorem toNat_digitCh : ∀ d < 10, (digitCh d).toNat = 48 + d := by decide

theorem natCharsGo_fuel : ∀ (f1 f2 n : Nat), n ≤ f1 → n ≤ f2 →
    natCharsGo f1 n = natCharsGo f2 n := by
  intro f1
  induction f1 with
  | zero =>
    intro f2 n h1 _
    have hn : n = 0 := by omega
    subst hn
    cases f2 with
    | zero => rfl
    | succ f2 => simp [natCharsGo]
  | succ f1 ih =>
    intro f2 n h1 h2
    cases f2 with
    | zero =>
      have hn : n = 0 := by omega
      subst hn
      simp [natCharsGo]
    | succ f2' =>
      by_cases hn : n < 10
      · simp [natCharsGo, hn]
      · simp only [natCharsGo, if_neg hn]
        rw [ih f2' (n / 10) (by omega) (by omega)]

theorem natChars_unfold (n : Nat) :
    natChars n = if n < 10 then [digitCh n] else natChars (n / 10) ++ [digitCh (n % 10)] := by
  unfold natChars
  by_cases hn : n < 10
  · cases n with
    | zero => simp [natCharsGo, hn]
    | succ m => simp [natCharsGo, hn]
  · obtain ⟨m, rfl⟩ : ∃ m, n = m + 1 := ⟨n - 1, by omega⟩
    simp only [natCharsGo, if_neg hn]
    rw [natCharsGo_fuel m ((m + 1) / 10) ((m + 1) / 10) (by omega) (by omega)]

theorem natChars_ne_nil (n : Nat) : natChars n ≠ [] := by
  rw [natChars_unfold]
  split <;> simp

theorem natChars_digits : ∀ n, ∀ c ∈ natChars n, isDigitCh c = true := by
  intro n
  induction n using Nat.strong_induction_on with
  | _ n ih =>
    rw [natChars_unfold]
    split
    · intro c hc
      rw [List.mem_singleton] at hc
      subst hc
      exact isDigitCh_digitCh n (by omega)
    · intro c hc
      rcases List.mem_append.mp hc with h | h
      · exact ih (n / 10) (by omega) c h
      · rw [List.mem_singleton] at h
        subst h
        exact isDigitCh_digitCh _ (Nat.mod_lt _ (by omega))

theorem digitsVal_append (l : List Char) (c : Char) :
    digitsVal (l ++ [c]) = digitsVal l * 10 + (c.toNat - 48) := by
  simp [digitsVal, List.foldl_append]

theorem digitsVal_natChars : ∀ n, digitsVal (natChars n) = n := by
  intro n
  induction n using Nat.strong_induction_on with
  | _ n ih =>
    rw [natChars_unfold]
    split
    · have := toNat_digitCh n (by omega)
      simp [digitsVal]
      omega
    · rw [digitsVal_append, ih (n / 10) (by omega)]
      have := toNat_digitCh (n % 10) (Nat.mod_lt _ (by omega))
      omega

theorem natChars_inj {a b : Nat} (h : natChars a = natChars b) : a = b := by
  have ha := digitsVal_natChars a
  rw [h, digitsVal_natChars] at ha
  omega

theorem natChars_head (n : Nat) : ∃ c r, natChars n = c :: r ∧ isDigitCh c = true := by
  induction n using Nat.strong_induction_on with
  | _ n ih =>
    rw [natChars_unfold]
    split
    · exact ⟨digitCh n, [], rfl, isDigitCh_digitCh n (by omega)⟩
    · obtain ⟨c, r, hc, hd⟩ := ih (n / 10) (by omega)
      exact ⟨c, r ++ [digitCh (n % 10)], by rw [hc]; simp, hd⟩

theorem digitRun_ext (d1 : List Char) : ∀ (d2 s t : List Char),
    (∀ c ∈ d1, isDigitCh c = true) → (∀ c ∈ d2, isDigitCh c = true) →
    d1 ≠ [] → d2 ≠ [] → d1 ++ s = d2 ++ t →
    digitHeadB s = false → digitHeadB t = false → d1 = d2 ∧ s = t := by
  induction d1 with
  | nil => intro d2 s t _ _ h1 _ _ _ _; exact absurd rfl h1
  | cons c1 r1 ih =>
    intro d2 s t hd1 hd2 _ hne2 happ hs ht
    cases d2 with
    | nil => exact absurd rfl hne2
    | cons c2 r2 =>
      simp only [List.cons_append, List.cons.injEq] at happ
      obtain ⟨rfl, happ⟩ := happ
      cases r1 with
      | nil =>
        cases r2 with
        | nil => simpa using happ
        | cons c r2' =>
          simp only [List.nil_append, List.cons_append] at happ
          rw [happ] at hs
          have hc : isDigitCh c = true := hd2 c (by simp)
          simp [digitHeadB, hc] at hs
      | cons c r1' =>
        cases r2 with
        | nil =>
          simp only [List.nil_append, List.cons_append] at happ
          rw [← happ] at ht
          have hc : isDigitCh c = true := hd1 c (by simp)
          simp [digitHeadB, hc] at ht
        | cons c2' r2' =>
          obtain ⟨h1, h2⟩ := ih (c2' :: r2') s t
            (fun x hx => hd1 x (List.mem_cons_of_mem _ hx))
            (fun x hx => hd2 x (List.mem_cons_of_mem _ hx))
            (by simp) (by simp) happ hs ht
          exact ⟨by rw [h1], h2⟩

theorem intChars_ext {n m : Int} {s t : List Char}
    (h : intChars n ++ s = intChars m ++ t)
    (hs : digitHeadB s = false) (ht : digitHeadB t = false) : n = m ∧ s = t := by
  unfold intChars at h
  by_cases hn : n < 0 <;> by_cases hm : m < 0
  · simp only [if_pos hn, if_pos hm, List.cons_append, List.cons.injEq] at h
    obtain ⟨h1, h2⟩ := digitRun_ext _ _ _ _ (natChars_digits _) (natChars_digits _)
      (natChars_ne_nil _) (natChars_ne_nil _) h.2 hs ht
    have := natChars_inj h1
    exact ⟨by omega, h2⟩
  · simp only [if_pos hn, if_neg hm, List.cons_append] at h
    obtain ⟨c, r, hc, hd⟩ := natChars_head m.natAbs
    rw [hc] at h
    simp only [List.cons_append, List.cons.injEq] at h
    rw [← h.1] at hd
    exact absurd hd (by decide)
  · simp only [if_neg hn, if_pos hm, List.cons_append] at h
    obtain ⟨c, r, hc, hd⟩ := natChars_head n.natAbs
    rw [hc] at h
    simp only [List.cons_append, List.cons.injEq] at h
    rw [h.1] at hd
    exact absurd hd (by decide)
  · simp only [if_neg hn, if_neg hm] at h
    obtain ⟨h1, h2⟩ := digitRun_ext _ _ _ _ (natChars_digits _) (natChars_digits _)
      (natChars_ne_nil _) (natChars_ne_nil _) h hs ht
    have := natChars_inj h1
    exact ⟨by omega, h2⟩

theorem hexDigitCh_inj : ∀ a < 16, ∀ b < 16, hexDigitCh a = hexDigitCh b → a = b := by decide

/-- Characters with equal code points are equal. -/
theorem charToNatInj {a b : Char} (h : a.toNat = b.toNat) : a = b := by
  apply Char.ext
  apply UInt32.toNat.inj
  exact h

/-- Every escape output has one of three shapes: the character itself (for
unescaped characters), a two-character escape decoding back to it, or a
`\u00XX` escape carrying its hex digits. -/
theorem escChar_shape (c : Char) :
    (escChar c = [c] ∧ c ≠ '"' ∧ c ≠ '\\' ∧ 32 ≤ c.toNat) ∨
    (∃ d, escChar c = ['\\', d] ∧ d ≠ 'u' ∧ escDecode d = some c) ∨
    (escChar c = ['\\', 'u', '0', '0', hexDigitCh (c.toNat / 16), hexDigitCh (c.toNat % 16)] ∧
      c.toNat < 32) := by
  unfold escChar
  split_ifs with h1 h2 h3 h4 h5 h6 h7 h8
  · exact Or.inr (Or.inl ⟨'"', rfl, by decide, by rw [h1]; rfl⟩)
  · exact Or.inr (Or.inl ⟨'\\', rfl, by decide, by rw [h2]; rfl⟩)
  · refine Or.inr (Or.inl ⟨'b', rfl, by decide, ?_⟩)
    have hc : c = Char.ofNat 8 := charToNatInj (by rw [h3]; decide)
    rw [hc]; rfl
  · refine Or.inr (Or.inl ⟨'t', rfl, by decide, ?_⟩)
    have hc : c = Char.ofNat 9 := charToNatInj (by rw [h4]; decide)
    rw [hc]; rfl
  · refine Or.inr (Or.inl ⟨'n', rfl, by decide, ?_⟩)
    have hc : c = Char.ofNat 10 := charToNatInj (by rw [h5]; decide)
    rw [hc]; rfl
  · refine Or.inr (Or.inl ⟨'f', rfl, by decide, ?_⟩)
    have hc : c = Char.ofNat 12 := charToNatInj (by rw [h6]; decide)
    rw [hc]; rfl
  · refine Or.inr (Or.inl ⟨'r', rfl, by decide, ?_⟩)
    have hc : c = Char.ofNat 13 := charToNatInj (by rw [h7]; decide)
    rw [hc]; rfl
  · exact Or.inr (Or.inr ⟨rfl, h8⟩)
  · exact Or.inl ⟨rfl, h1, h2, by omega⟩

/-- The escape of a character never starts with an unescaped quote. -/
theorem escChar_head_ne (c : Char) : ∃ e r, escChar c = e :: r ∧ e ≠ '"' := by
  rcases escChar_shape c with ⟨he, hq, -, -⟩ | ⟨d, he, -, -⟩ | ⟨he, -⟩
  · exact ⟨c, [], he, hq⟩
  · exact ⟨'\\', [d], he, by decide⟩
  · exact ⟨'\\', _, he, by decide⟩

/-- Escapes are prefix-unambiguous: equal streams starting with two
escapes force the escaped characters and the remainders to agree. -/
theorem escChar_ext {c1 c2 : Char} {u v : List Char}
    (h : escChar c1 ++ u = escChar c2 ++ v) : c1 = c2 ∧ u = v := by
  rcases escChar_shape c1 with ⟨he1, hq1, hb1, hn1⟩ | ⟨d1, he1, hu1, hd1⟩ | ⟨he1, hn1⟩ <;>
    rcases escChar_shape c2 with ⟨he2, hq2, hb2, hn2⟩ | ⟨d2, he2, hu2, hd2⟩ | ⟨he2, hn2⟩ <;>
      rw [he1, he2] at h <;>
        simp only [List.cons_append, List.nil_append] at h
  · injection h with hc hu
    exact ⟨hc, hu⟩
  · injection h with hc _
    exact absurd hc hb1
  · injection h with hc _
    exact absurd hc hb1
  · injection h with hc _
    exact absurd hc.symm hb2
  · injection h with _ h
    injection h with hd hu
    rw [hd] at hd1
    have hcc : some c1 = some c2 := hd1.symm.trans hd2
    exact ⟨Option.some.inj hcc, hu⟩
  · injection h with _ h
    injection h with hd _
    rw [hd, show escDecode 'u' = none from rfl] at hd1
    exact Option.noConfusion hd1
  · injection h with hc _
    exact absurd hc.symm hb2
  · injection h with _ h
    injection h with hd _
    rw [← hd, show escDecode 'u' = none from rfl] at hd2
    exact Option.noConfusion hd2
  · injection h with _ h
    injection h with _ h
    injection h with _ h
    injection h with _ h
    injection h with h1 h
    injection h with h2 hu
    have e1 : c1.toNat / 16 = c2.toNat / 16 :=
      hexDigitCh_inj _ (by omega) _ (by omega) h1
    have e2 : c1.toNat % 16 = c2.toNat % 16 :=
      hexDigitCh_inj _ (by omega) _ (by omega) h2
    exact ⟨charToNatInj (by omega), hu⟩

theorem escapeChars_ext (s1 : List Char) : ∀ (s2 u v : List Char),
    escapeChars s1 ++ '"' :: u = escapeChars s2 ++ '"' :: v → s1 = s2 ∧ u = v := by
  induction s1 with
  | nil =>
    intro s2 u v h
    cases s2 with
    | nil => simpa [escapeChars] using h
    | cons c2 r2 =>
      obtain ⟨e, r, he, hne⟩ := escChar_head_ne c2
      rw [escapeChars, escapeChars, he] at h
      simp only [List.nil_append, List.cons_append, List.append_assoc, List.cons.injEq] at h
      exact absurd h.1 hne.symm
  | cons c1 r1 ih =>
    intro s2 u v h
    cases s2 with
    | nil =>
      obtain ⟨e, r, he, hne⟩ := escChar_head_ne c1
      rw [escapeChars, escapeChars, he] at h
      simp only [List.nil_append, List.cons_append, List.append_assoc, List.cons.injEq] at h
      exact absurd h.1.symm hne.symm
    | cons c2 r2 =>
      rw [escapeChars, escapeChars, List.append_assoc, List.append_assoc] at h
      obtain ⟨rfl, h2⟩ := escChar_ext h
      obtain ⟨rfl, h3⟩ := ih r2 u v h2
      exact ⟨rfl, h3⟩

theorem strChars_ext {a b : String} {u v : List Char}
    (h : strChars a ++ u = strChars b ++ v) : a = b ∧ u = v := by
  unfold strChars at h
  simp only [List.cons_append, List.append_assoc, List.singleton_append,
    List.cons.injEq, true_and] at h
  obtain ⟨hd, hu⟩ := escapeChars_ext a.data b.data u v h
  refine ⟨?_, hu⟩
  cases a
  cases b
  exact congrArg String.mk hd

theorem headTag_isDigit {c : Char} (h : isDigitCh c = true) :
    headTag c = 2 ∧ startChar c = true := by
  have hn : c ≠ 'n' := fun e => by rw [e] at h; exact absurd h (by decide)
  have ht : c ≠ 't' := fun e => by rw [e] at h; exact absurd h (by decide)
  have hf : c ≠ 'f' := fun e => by rw [e] at h; exact absurd h (by decide)
  have hq : c ≠ '"' := fun e => by rw [e] at h; exact absurd h (by decide)
  have hb : c ≠ '[' := fun e => by rw [e] at h; exact absurd h (by decide)
  have hc : c ≠ Char.ofNat 123 := fun e => by rw [e] at h; exact absurd h (by decide)
  exact ⟨by simp [headTag, hn, ht, hf, hq, hb, hc], by simp [startChar, h]⟩

/-- Every serialized value is non-empty, its first character classifies the
constructor, and that character can start a value. -/
theorem encode_head (j : Json) :
    ∃ c r, encode j = c :: r ∧ headTag c = ctorTag j ∧ startChar c = true := by
  cases j with
  | null => exact ⟨'n', ['u', 'l', 'l'], rfl, by decide, by decide⟩
  | bool b =>
    cases b with
    | false => exact ⟨'f', ['a', 'l', 's', 'e'], rfl, by decide, by decide⟩
    | true => exact ⟨'t', ['r', 'u', 'e'], rfl, by decide, by decide⟩
  | num n =>
    by_cases hn : n < 0
    · exact ⟨'-', natChars n.natAbs, by simp [encode, intChars, hn], rfl, rfl⟩
    · obtain ⟨c, r, hc, hd⟩ := natChars_head n.natAbs
      obtain ⟨h1, h2⟩ := headTag_isDigit hd
      exact ⟨c, r, by simp [encode, intChars, hn, hc], by rw [h1]; rfl, h2⟩
  | str s => exact ⟨'"', escapeChars s.data ++ ['"'], rfl, rfl, rfl⟩
  | arr xs => exact ⟨'[', encodeItems xs ++ [']'], rfl, rfl, rfl⟩
  | obj kvs =>
    exact ⟨Char.ofNat 123, encodeFields kvs ++ [Char.ofNat 125], rfl, rfl, rfl⟩

theorem startChar_ne_break {c : Char} (h : startChar c = true) :
    c ≠ ',' ∧ c ≠ ']' ∧ c ≠ Char.ofNat 125 := by
  refine ⟨fun e => ?_, fun e => ?_, fun e => ?_⟩ <;>
    (rw [e] at h; exact absurd h (by decide))

theorem goodBreak_digitHead {l : List Char} (h : goodBreak l = true) :
    digitHeadB l = false := by
  cases l with
  | nil => rfl
  | cons c r =>
    simp only [goodBreak, Bool.or_eq_true, decide_eq_true_eq] at h
    rcases h with (rfl | rfl) | rfl <;> rfl

theorem encodeItems_cons (y : Json) (ys : List Json) :
    ∃ X, encodeItems (y :: ys) = encode y ++ X := by
  cases ys with
  | nil => exact ⟨[], by simp [encodeItems]⟩
  | cons z r => exact ⟨',' :: encodeItems (z :: r), rfl⟩

theorem encodeFields_cons (k : String) (v : Json) (r : List (String × Json)) :
    ∃ X, encodeFields ((k, v) :: r) = strChars k ++ ':' :: X := by
  cases r with
  | nil => exact ⟨encode v, rfl⟩
  | cons p r' => exact ⟨encode v ++ ',' :: encodeFields (p :: r'), by simp [encodeFields]⟩

mutual

/-- A serialized value read in a breaking context has one reading: equal
character streams force equal values and equal remainders. -/
theorem encode_ext (a b : Json) (s t : List Char)
    (h : encode a ++ s = encode b ++ t)
    (hs : goodBreak s = true) (ht : goodBreak t = true) : a = b ∧ s = t := by
  obtain ⟨ca, ra, hea, hta, hsa⟩ := encode_head a
  obtain ⟨cb, rb, heb, htb, hsb⟩ := encode_head b
  have htag : ctorTag a = ctorTag b := by
    rw [hea, heb] at h
    simp only [List.cons_append] at h
    injection h with h1 _
    rw [← hta, ← htb, h1]
  clear hea heb hta htb hsa hsb
  cases a <;> cases b <;> first
    | (revert htag; simp only [ctorTag]; intro htag; exact absurd htag (by omega))
    | skip
  case null.null => exact ⟨rfl, by simpa [encode] using h⟩
  case bool.bool =>
    rename_i ba bb
    cases ba <;> cases bb <;> simp only [encode, List.cons_append, List.cons.injEq] at h
    · exact ⟨rfl, h.2.2.2.2.2⟩
    · exact absurd h.1 (by decide)
    · exact absurd h.1 (by decide)
    · exact ⟨rfl, h.2.2.2.2⟩
  case num.num =>
    rename_i n m
    simp only [encode] at h
    obtain ⟨h1, h2⟩ := intChars_ext h (goodBreak_digitHead hs) (goodBreak_digitHead ht)
    exact ⟨by rw [h1], h2⟩
  case str.str =>
    rename_i x y
    simp only [encode] at h
    obtain ⟨h1, h2⟩ := strChars_ext h
    exact ⟨by rw [h1], h2⟩
  case arr.arr =>
    rename_i xs ys
    simp only [encode, List.cons_append, List.append_assoc, List.singleton_append,
      List.cons.injEq, true_and] at h
    obtain ⟨h1, h2⟩ := encodeItems_ext xs ys s t h
    exact ⟨by rw [h1], h2⟩
  case obj.obj =>
    rename_i kvs1 kvs2
    simp only [encode, List.cons_append, List.append_assoc, List.singleton_append,
      List.cons.injEq, true_and] at h
    obtain ⟨h1, h2⟩ := encodeFields_ext kvs1 kvs2 s t h
    exact ⟨by rw [h1], h2⟩

/-- One reading of a comma-separated element list closed by `]`. -/
theorem encodeItems_ext (xs ys : List Json) (s t : List Char)
    (h : encodeItems xs ++ ']' :: s = encodeItems ys ++ ']' :: t) : xs = ys ∧ s = t := by
  match xs, ys with
  | [], [] => simpa [encodeItems] using h
  | [], y :: ys' =>
    exfalso
    obtain ⟨X, hX⟩ := encodeItems_cons y ys'
    simp only [encodeItems, List.nil_append] at h
    rw [hX, List.append_assoc] at h
    obtain ⟨c, r, hc, -, hstart⟩ := encode_head y
    rw [hc] at h
    simp only [List.cons_append] at h
    injection h with h1 _
    exact absurd h1.symm (startChar_ne_break hstart).2.1
  | x :: xs', [] =>
    exfalso
    obtain ⟨X, hX⟩ := encodeItems_cons x xs'
    simp only [encodeItems, List.nil_append] at h
    rw [hX, List.append_assoc] at h
    obtain ⟨c, r, hc, -, hstart⟩ := encode_head x
    rw [hc] at h
    simp only [List.cons_append] at h
    injection h with h1 _
    exact absurd h1 (startChar_ne_break hstart).2.1
  | [x], [y] =>
    simp only [encodeItems] at h
    obtain ⟨h1, h2⟩ := encode_ext x y (']' :: s) (']' :: t) h rfl rfl
    injection h2 with _ h3
    exact ⟨by rw [h1], h3⟩
  | [x], y1 :: y2 :: r2 =>
    exfalso
    simp only [encodeItems, List.append_assoc, List.cons_append] at h
    obtain ⟨-, h2⟩ := encode_ext x y1 _ _ h rfl rfl
    injection h2 with h3 _
    exact absurd h3 (by decide)
  | x1 :: x2 :: r1, [y] =>
    exfalso
    simp only [encodeItems, List.append_assoc, List.cons_append] at h
    obtain ⟨-, h2⟩ := encode_ext x1 y _ _ h rfl rfl
    injection h2 with h3 _
    exact absurd h3 (by decide)
  | x1 :: x2 :: r1, y1 :: y2 :: r2 =>
    simp only [encodeItems, List.append_assoc, List.cons_append] at h
    obtain ⟨hxy, h2⟩ := encode_ext x1 y1 _ _ h rfl rfl
    injection h2 with _ h3
    obtain ⟨h4, h5⟩ := encodeItems_ext (x2 :: r1) (y2 :: r2) s t h3
    exact ⟨by rw [hxy, h4], h5⟩

/-- One reading of a comma-separated field list closed by the closing
brace. -/
theorem encodeFields_ext (kvs1 kvs2 : List (String × Json)) (s t : List Char)
    (h : encodeFields kvs1 ++ Char.ofNat 125 :: s = encodeFields kvs2 ++ Char.ofNat 125 :: t) :
    kvs1 = kvs2 ∧ s = t := by
  match kvs1, kvs2 with
  | [], [] => simpa [encodeFields] using h
  | [], (k, v) :: r =>
    exfalso
    obtain ⟨X, hX⟩ := encodeFields_cons k v r
    simp only [encodeFields, List.nil_append] at h
    rw [hX, List.append_assoc] at h
    simp only [strChars, List.cons_append] at h
    injection h with h1 _
    exact absurd h1 (by decide)
  | (k, v) :: r, [] =>
    exfalso
    obtain ⟨X, hX⟩ := encodeFields_cons k v r
    simp only [encodeFields, List.nil_append] at h
    rw [hX, List.append_assoc] at h
    simp only [strChars, List.cons_append] at h
    injection h with h1 _
    exact absurd h1 (by decide)
  | [(k1, v1)], [(k2, v2)] =>
    simp only [encodeFields, List.append_assoc, List.cons_append] at h
    obtain ⟨hk, h2⟩ := strChars_ext h
    injection h2 with _ h3
    obtain ⟨hv, h4⟩ := encode_ext v1 v2 _ _ h3 rfl rfl
    injection h4 with _ h5
    exact ⟨by rw [hk, hv], h5⟩
  | [(k1, v1)], (k2, v2) :: p2 :: r2 =>
    exfalso
    simp only [encodeFields, List.append_assoc, List.cons_append] at h
    obtain ⟨-, h2⟩ := strChars_ext h
    injection h2 with _ h3
    obtain ⟨-, h4⟩ := encode_ext v1 v2 _ _ h3 rfl rfl
    injection h4 with h5 _
    exact absurd h5 (by decide)
  | (k1, v1) :: p1 :: r1, [(k2, v2)] =>
    exfalso
    simp only [encodeFields, List.append_assoc, List.cons_append] at h
    obtain ⟨-, h2⟩ := strChars_ext h
    injection h2 with _ h3
    obtain ⟨-, h4⟩ := encode_ext v1 v2 _ _ h3 rfl rfl
    injection h4 with h5 _
    exact absurd h5 (by decide)
  | (k1, v1) :: p1 :: r1, (k2, v2) :: p2 :: r2 =>
    simp only [encodeFields, List.append_assoc, List.cons_append] at h
    obtain ⟨hk, h2⟩ := strChars_ext h
    injection h2 with _ h3
    obtain ⟨hv, h4⟩ := encode_ext v1 v2 _ _ h3 rfl rfl
    injection h4 with _ h5
    obtain ⟨h6, h7⟩ := encodeFields_ext (p1 :: r1) (p2 :: r2) s t h5
    exact ⟨by rw [hk, hv, h6], h7⟩

end

/-- The compact serialization is injective on JSON values. -/
theorem encode_inj {a b : Json} (h : encode a = encode b) : a = b :=
  (encode_ext a b [] [] (by simpa using h) rfl rfl).1

/-- `serde_json::to_string` is injective: equal serializations mean
structurally equal values. -/
theorem jsonToString_inj {a b : Json} (h : jsonToString a = jsonToString b) : a = b := by
  apply encode_inj
  simpa [jsonToString] using congrArg String.data h

mutual

/-- Boolean structural equality coincides with Lean equality. -/
theorem Json.beq_iff (a b : Json) : Json.beq a b = true ↔ a = b := by
  cases a <;> cases b <;> simp only [Json.beq] <;>
    simp [Json.beqItems_iff, Json.beqFields_iff]

/-- Element-list version of `Json.beq_iff`. -/
theorem Json.beqItems_iff (xs ys : List Json) : Json.beqItems xs ys = true ↔ xs = ys := by
  match xs, ys with
  | [], [] => simp [Json.beqItems]
  | [], _ :: _ => simp [Json.beqItems]
  | _ :: _, [] => simp [Json.beqItems]
  | a :: as, b :: bs =>
    simp [Json.beqItems, Json.beq_iff a b, Json.beqItems_iff as bs]

/-- Field-list version of `Json.beq_iff`. -/
theorem Json.beqFields_iff (kvs1 kvs2 : List (String × Json)) :
    Json.beqFields kvs1 kvs2 = true ↔ kvs1 = kvs2 := by
  match kvs1, kvs2 with
  | [], [] => simp [Json.beqFields]
  | [], _ :: _ => simp [Json.beqFields]
  | _ :: _, [] => simp [Json.beqFields]
  | (ka, va) :: as, (kb, vb) :: bs =>
    simp [Json.beqFields, Json.beq_iff va vb, Json.beqFields_iff as bs, and_assoc]

end

/-! ## Claim C8: the DHT write merge rule -/

/-- The serialization-marker membership test of the merge loop is the
structural membership test of the specification. -/
theorem marker_contains (acc : List Json) (item : Json) :
    (acc.map jsonToString).contains (jsonToString item) = containsJson acc item := by
  induction acc with
  | nil => rfl
  | cons x rest ih =>
    have hhead : ((jsonToString item == jsonToString x) : Bool) = Json.beq x item := by
      by_cases hx : x = item
      · subst hx
        simp [Json.beq_iff]
      · have h1 : (jsonToString item == jsonToString x) = false := by
          rw [beq_eq_false_iff_ne]
          intro hc
          exact hx (jsonToString_inj hc.symm)
        have h2 : Json.beq x item = false := by
          rw [← Bool.not_eq_true, Json.beq_iff]
          exact hx
        rw [h1, h2]
    calc (List.map jsonToString (x :: rest)).contains (jsonToString item)
        = ((jsonToString item == jsonToString x) ||
            (List.map jsonToString rest).contains (jsonToString item)) := by
          simp only [List.map_cons, List.contains_cons]
      _ = (Json.beq x item || containsJson rest item) := by rw [hhead, ih]
      _ = containsJson (x :: rest) item := by simp [containsJson]

/-- The merge loop of `store_dht_value` computes the specification's
structural union. -/
theorem mergeDhtArrays_spec (incoming : List Json) : ∀ acc : List Json,
    (incoming.foldl (fun (st : List Json × List String) item =>
        let marker := jsonToString item
        if st.2.contains marker then st else (st.1 ++ [item], st.2 ++ [marker]))
      (acc, acc.map jsonToString)).1
      = incoming.foldl (fun acc item => if containsJson acc item then acc else acc ++ [item]) acc := by
  induction incoming with
  | nil => intro acc; rfl
  | cons item rest ih =>
    intro acc
    simp only [List.foldl_cons]
    rw [show (acc.map jsonToString).contains (jsonToString item) = containsJson acc item from
      marker_contains acc item]
    cases hcc : containsJson acc item with
    | true =>
      simp only [hcc, if_true]
      exact ih acc
    | false =>
      simp only [hcc, Bool.false_eq_true, if_false]
      have hmap : (acc ++ [item]).map jsonToString
          = acc.map jsonToString ++ [jsonToString item] := by simp
      rw [← hmap]
      exact ih (acc ++ [item])

/-- `mergeDhtArrays` as the source writes it equals the specification's
merge. -/
theorem mergeDhtArrays_eq (existing incoming : List Json) :
    mergeDhtArrays existing incoming = mergeSpecArrays existing incoming := by
  unfold mergeDhtArrays mergeSpecArrays
  exact mergeDhtArrays_spec incoming existing

/-- Claim C8 (confirmed): on a DHT write, when the incoming value is a
JSON array and an array is already stored at the key, the stored result is
their union — the existing array's elements in order, then the new
elements in order of first appearance, with element identity being
structural JSON equality; in every other case (no stored value, stored
non-array, or incoming non-array) the incoming value overwrites the
binding.  Both the local `dht_store` path and the incoming `dht_store`
message path go through this function. -/
theorem claimC8 (store : List (String × Json)) (key : String) (value : Json) :
    (∀ newList existingList, value = Json.arr newList →
        alookup key store = some (Json.arr existingList) →
        storeDhtValue store key value
          = aset key (Json.arr (mergeSpecArrays existingList newList)) store) ∧
    (∀ newList, value = Json.arr newList →
        (∀ existingList, alookup key store ≠ some (Json.arr existingList)) →
        storeDhtValue store key value = aset key value store) ∧
    ((∀ newList, value ≠ Json.arr newList) →
        storeDhtValue store key value = aset key value store) := by
  refine ⟨?_, ?_, ?_⟩
  · intro newList existingList hv hl
    subst hv
    simp only [storeDhtValue, hl, mergeDhtArrays_eq]
  · intro newList hv hne
    subst hv
    cases hl : alookup key store with
    | none => simp only [storeDhtValue, hl]
    | some w =>
      cases w with
      | arr ex => exact absurd hl (hne ex)
      | null => simp only [storeDhtValue, hl]
      | bool b => simp only [storeDhtValue, hl]
      | num n => simp only [storeDhtValue, hl]
      | str s => simp only [storeDhtValue, hl]
      | obj kvs => simp only [storeDhtValue, hl]
  · intro hne
    cases value with
    | arr xs => exact absurd rfl (hne xs)
    | null => rfl
    | bool b => rfl
    | num n => rfl
    | str s => rfl
    | obj kvs => rfl

/-- Claim C8, witness: merging `["b","b","a"]` into a key storing `["a"]`
keeps `["a"]`'s order and appends only the first occurrence of `"b"`. -/
theorem claimC8_witness :
    storeDhtValue [("k", Json.arr [Json.str "a"])] "k"
        (Json.arr [Json.str "b", Json.str "b", Json.str "a"])
      = [("k", Json.arr [Json.str "a", Json.str "b"])] := by
  have h := (claimC8 [("k", Json.arr [Json.str "a"])] "k"
      (Json.arr [Json.str "b", Json.str "b", Json.str "a"])).1
    [Json.str "b", Json.str "b", Json.str "a"] [Json.str "a"] rfl rfl
  rw [h]
  rfl

/-! ## Association list lemmas -/

theorem alookup_aset_self (k : String) (v : α) (m : List (String × α)) :
    alookup k (aset k v m) = some v := by
  induction m with
  | nil => simp [aset, alookup]
  | cons p rest ih =>
    obtain ⟨k', v'⟩ := p
    by_cases hk : k' = k
    · simp [aset, hk, alookup]
    · simp [aset, hk, alookup, ih]

theorem alookup_aset_ne {k k' : String} (hne : k' ≠ k) (v : α) (m : List (String × α)) :
    alookup k (aset k' v m) = alookup k m := by
  induction m with
  | nil => simp [aset, alookup, hne]
  | cons p rest ih =>
    obtain ⟨k0, v0⟩ := p
    by_cases hk : k0 = k'
    · subst hk
      simp [aset, alookup, hne, ih]
    · simp [aset, hk, alookup, ih]

theorem mem_aset {p : String × α} {k : String} {v : α} {m : List (String × α)}
    (h : p ∈ aset k v m) : p = (k, v) ∨ p ∈ m := by
  induction m with
  | nil => simp [aset] at h; simp [h]
  | cons q rest ih =>
    obtain ⟨k0, v0⟩ := q
    by_cases hk : k0 = k
    · simp only [aset, hk, if_pos rfl] at h
      rcases List.mem_cons.mp h with h | h
      · exact Or.inl h
      · exact Or.inr (List.mem_cons_of_mem _ h)
    · simp only [aset, if_neg hk] at h
      rcases List.mem_cons.mp h with h | h
      · exact Or.inr (by simp [h])
      · rcases ih h with h | h
        · exact Or.inl h
        · exact Or.inr (List.mem_cons_of_mem _ h)

theorem mem_of_mem_aremove {p : String × α} {k : String} {m : List (String × α)}
    (h : p ∈ aremove k m) : p ∈ m := by
  induction m with
  | nil => simp [aremove] at h
  | cons q rest ih =>
    obtain ⟨k0, v0⟩ := q
    by_cases hk : k0 = k
    · simp only [aremove, if_pos hk] at h
      exact List.mem_cons_of_mem _ h
    · simp only [aremove, if_neg hk] at h
      rcases List.mem_cons.mp h with h | h
      · simp [h]
      · exact List.mem_cons_of_mem _ (ih h)

theorem not_mem_akeys_of_alookup_none {k : String} {m : List (String × α)}
    (h : alookup k m = none) : k ∉ akeys m := by
  induction m with
  | nil => simp [akeys]
  | cons p rest ih =>
    obtain ⟨k0, v0⟩ := p
    by_cases hk : k0 = k
    · simp [alookup, hk] at h
    · simp only [alookup, if_neg hk] at h
      simp [akeys] at ih ⊢
      exact ⟨fun e => hk e.symm, ih h⟩

theorem akeys_aset (k : String) (v : α) (m : List (String × α)) :
    akeys (aset k v m) = if (alookup k m).isSome then akeys m else akeys m ++ [k] := by
  induction m with
  | nil => simp [aset, alookup, akeys]
  | cons p rest ih =>
    obtain ⟨k0, v0⟩ := p
    by_cases hk : k0 = k
    · subst hk
      simp [aset, alookup, akeys]
    · simp only [aset, if_neg hk, alookup,
        if_neg (fun e => hk e)]
      simp only [akeys, List.map_cons] at ih ⊢
      rw [ih]
      split <;> simp

theorem nodup_akeys_aset {k : String} {v : α} {m : List (String × α)}
    (h : (akeys m).Nodup) : (akeys (aset k v m)).Nodup := by
  rw [akeys_aset]
  cases hl : alookup k m with
  | some w => simpa using h
  | none =>
    simp only [Option.isSome_none, Bool.false_eq_true, if_false]
    have := not_mem_akeys_of_alookup_none hl
    simp [List.nodup_append, h, this]

theorem nodup_akeys_aremove {k : String} {m : List (String × α)}
    (h : (akeys m).Nodup) : (akeys (aremove k m)).Nodup := by
  induction m with
  | nil => simp [aremove, akeys]
  | cons p rest ih =>
    obtain ⟨k0, v0⟩ := p
    simp only [akeys, List.map_cons, List.nodup_cons] at h
    by_cases hk : k0 = k
    · simpa [aremove, hk, akeys] using h.2
    · simp only [aremove, if_neg hk, akeys, List.map_cons, List.nodup_cons]
      refine ⟨fun hc => h.1 ?_, ih h.2⟩
      have : (k0, v0).1 ∈ akeys (aremove k rest) := hc
      obtain ⟨q, hq, hqe⟩ := List.mem_map.mp this
      exact List.mem_map.mpr ⟨q, mem_of_mem_aremove hq, hqe⟩

theorem sum_aset_some (f : α → Int) {k : String} (v : α) {v₀ : α} {m : List (String × α)}
    (h : alookup k m = some v₀) :
    ((aset k v m).map (fun p => f p.2)).sum = (m.map (fun p => f p.2)).sum - f v₀ + f v := by
  induction m with
  | nil => simp [alookup] at h
  | cons p rest ih =>
    obtain ⟨k0, v0⟩ := p
    by_cases hk : k0 = k
    · subst hk
      simp [alookup] at h
      subst h
      simp [aset]
      ring
    · simp only [alookup, if_neg hk] at h
      simp [aset, hk, ih h]
      ring

theorem sum_aset_none (f : α → Int) {k : String} (v : α) {m : List (String × α)}
    (h : alookup k m = none) :
    ((aset k v m).map (fun p => f p.2)).sum = (m.map (fun p => f p.2)).sum + f v := by
  induction m with
  | nil => simp [aset]
  | cons p rest ih =>
    obtain ⟨k0, v0⟩ := p
    by_cases hk : k0 = k
    · simp [alookup, hk] at h
    · simp only [alookup, if_neg hk] at h
      simp [aset, hk, ih h]
      ring

theorem sum_aremove_some (f : α → Int) {k : String} {v₀ : α} {m : List (String × α)}
    (h : alookup k m = some v₀) :
    ((aremove k m).map (fun p => f p.2)).sum = (m.map (fun p => f p.2)).sum - f v₀ := by
  induction m with
  | nil => simp [alookup] at h
  | cons p rest ih =>
    obtain ⟨k0, v0⟩ := p
    by_cases hk : k0 = k
    · subst hk
      simp [alookup] at h
      subst h
      simp [aremove]
    · simp only [alookup, if_neg hk] at h
      simp [aremove, hk, ih h]
      ring

theorem minted_append (l : List LedgerEntry) (e : LedgerEntry) :
    (((l ++ [e]).filter (fun x => x.entryType = "mint")).map (fun x => x.amount)).sum
      = ((l.filter (fun x => x.entryType = "mint")).map (fun x => x.amount)).sum +
          (if e.entryType = "mint" then e.amount else 0) := by
  rw [List.filter_append]
  split <;> simp_all

theorem alookup_mem {k : String} {v : α} {m : List (String × α)}
    (h : alookup k m = some v) : (k, v) ∈ m := by
  induction m with
  | nil => simp [alookup] at h
  | cons p rest ih =>
    obtain ⟨k0, v0⟩ := p
    by_cases hk : k0 = k
    · subst hk
      simp [alookup] at h
      simp [h]
    · simp only [alookup, if_neg hk] at h
      exact List.mem_cons_of_mem _ (ih h)

theorem forall_mem_aset {P : String × α → Prop} {k : String} {v : α} {m : List (String × α)}
    (hm : ∀ p ∈ m, P p) (hv : P (k, v)) : ∀ p ∈ aset k v m, P p := by
  intro p hp
  rcases mem_aset hp with rfl | hp
  · exact hv
  · exact hm p hp

theorem isSome_alookup_aset {k k' : String} {v : α} {m : List (String × α)}
    (h : (alookup k m).isSome) : (alookup k (aset k' v m)).isSome := by
  by_cases he : k' = k
  · subst he
    rw [alookup_aset_self]
    rfl
  · rw [alookup_aset_ne he]
    exact h

/-! ## Conservation of money (claim C1) -/

/-- The genesis-bootstrap check inside `transfer` is the identity on a
bootstrapped store. -/
theorem ensureGenesis_ready (H : String → String) (st : StoreSt) {gid : String} {ga : Account}
    (hgi : alookup "node_genesis" st.accountIndex = some gid)
    (hga : alookup gid st.accounts = some ga) :
    ensureGenesisAccount H st = (st, Except.ok ga) := by
  unfold ensureGenesisAccount getAccountIdByNode getAccount
  simp [hgi, hga]

/-- `append_ledger` leaves the accounts, escrows, and account index
unchanged, and changes the minted total only for `mint` entries. -/
theorem appendLedger_state (H : String → String) (st : StoreSt) (ty : String)
    (fa ta : Option String) (amt : Int) (meta : Json) :
    ((appendLedger H st ty fa ta amt meta).1).accounts = st.accounts ∧
    ((appendLedger H st ty fa ta amt meta).1).escrows = st.escrows ∧
    ((appendLedger H st ty fa ta amt meta).1).accountIndex = st.accountIndex ∧
    totalMinted (appendLedger H st ty fa ta amt meta).1
      = totalMinted st + (if ty = "mint" then amt else 0) := by
  refine ⟨rfl, rfl, rfl, ?_⟩
  unfold totalMinted appendLedger
  simp only
  rw [minted_append]

/-- `get_account` succeeds exactly on present account ids, returning the
stored row. -/
theorem getAccount_ok {st : StoreSt} {k : String} {a : Account} :
    getAccount st k = Except.ok a ↔ alookup k st.accounts = some a := by
  unfold getAccount
  cases h : alookup k st.accounts <;> simp

/-- Characterization of `transferCore`: success condition, no mutation on
failure, and the success state. -/
theorem transferCore_spec (H : String → String) (st : StoreSt) (f t : String) (amt : Int) :
    ((transferCore H st f t amt).2 = Except.ok () ↔
       ((∃ fa, alookup f st.accounts = some fa ∧ ¬ fa.balance < amt) ∧
        (∃ ta, alookup t st.accounts = some ta))) ∧
    ((transferCore H st f t amt).2 ≠ Except.ok () → (transferCore H st f t amt).1 = st) ∧
    (∀ fa ta, alookup f st.accounts = some fa → alookup t st.accounts = some ta →
       ¬ fa.balance < amt →
       (transferCore H st f t amt).1 =
         (appendLedger H (putAccount (putAccount st { fa with balance := fa.balance - amt })
             { ta with balance := ta.balance + amt }) "transfer" (some f) (some t) amt
           (Json.obj [])).1 ∧ (transferCore H st f t amt).2 = Except.ok ()) := by
  unfold transferCore getAccount
  cases hfa : alookup f st.accounts with
  | none =>
    simp only [hfa]
    refine ⟨by simp, fun _ => by trivial, ?_⟩
    intro fa ta hfa' _ _
    exact Option.noConfusion hfa'
  | some fromAccount =>
    simp only [hfa]
    cases hta : alookup t st.accounts with
    | none =>
      simp only [hta]
      refine ⟨by simp, fun _ => by trivial, ?_⟩
      intro fa ta _ hta' _
      exact Option.noConfusion hta'
    | some toAccount =>
      simp only [hta]
      by_cases hbal : fromAccount.balance < amt
      · simp only [if_pos hbal]
        refine ⟨?_, fun _ => by trivial, ?_⟩
        · constructor
          · intro hok
            exact absurd hok (by simp)
          · intro ⟨⟨fa, hfa', hle⟩, _⟩
            obtain rfl := Option.some.inj hfa'
            exact absurd hbal hle
        · intro fa ta hfa' _ hle
          obtain rfl := Option.some.inj hfa'
          exact absurd hbal hle
      · simp only [if_neg hbal]
        refine ⟨?_, ?_, ?_⟩
        · constructor
          · intro _
            exact ⟨⟨fromAccount, rfl, hbal⟩, ⟨toAccount, rfl⟩⟩
          · intro _
            trivial
        · intro hne
          exact absurd rfl hne
        · intro fa ta hfa' hta' _
          obtain rfl := Option.some.inj hfa'
          obtain rfl := Option.some.inj hta'
          exact ⟨rfl, trivial⟩

/-- Full characterization of `transfer` on a bootstrapped store: when it
succeeds, that failures leave the store unchanged, and what a success does
to the state. -/
theorem transfer_spec (H : String → String) (st : StoreSt) (f t : String) (amt : Int)
    (op : Option String) {gid : String} {ga : Account}
    (hgi : alookup "node_genesis" st.accountIndex = some gid)
    (hga : alookup gid st.accounts = some ga) :
    ((transfer H st f t amt op).2 = Except.ok () ↔
       (0 < amt ∧ (f = ga.accountId → st.genesisOperator ≠ none ∧ op = st.genesisOperator) ∧
        (∃ fa, alookup f st.accounts = some fa ∧ ¬ fa.balance < amt) ∧
        (∃ ta, alookup t st.accounts = some ta))) ∧
    ((transfer H st f t amt op).2 ≠ Except.ok () → (transfer H st f t amt op).1 = st) ∧
    (∀ fa ta, alookup f st.accounts = some fa → alookup t st.accounts = some ta →
       ¬ fa.balance < amt → (transfer H st f t amt op).2 = Except.ok () →
       (transfer H st f t amt op).1 =
         (appendLedger H
           (putAccount (putAccount st { fa with balance := fa.balance - amt })
             { ta with balance := ta.balance + amt })
           "transfer" (some f) (some t) amt (Json.obj [])).1) := by
  unfold transfer
  rw [ensureGenesis_ready H st hgi hga]
  by_cases ha : amt ≤ 0
  · simp only [if_pos ha]
    refine ⟨?_, fun _ => by trivial, fun fa ta _ _ _ hok => absurd hok (by simp)⟩
    constructor
    · intro hok
      exact absurd hok (by simp)
    · intro ⟨h0, _⟩
      exact absurd h0 (by omega)
  · simp only [if_neg ha]
    by_cases hf : f = ga.accountId
    · simp only [if_pos hf]
      cases hop : st.genesisOperator with
      | none =>
        refine ⟨?_, fun _ => by trivial, fun fa ta _ _ _ hok => absurd hok (by simp)⟩
        constructor
        · intro hok
          exact absurd hok (by simp)
        · intro ⟨_, hgo, _⟩
          exact absurd rfl (hgo hf).1
      | some operator =>
        by_cases hopeq : some operator ≠ op
        · simp only [if_pos hopeq]
          refine ⟨?_, fun _ => by trivial, fun fa ta _ _ _ hok => absurd hok (by simp)⟩
          constructor
          · intro hok
            exact absurd hok (by simp)
          · intro ⟨_, hgo, _⟩
            rw [(hgo hf).2] at hopeq
            exact absurd rfl hopeq
        · simp only [if_neg hopeq]
          push_neg at hopeq
          obtain ⟨hiff, hunch, heff⟩ := transferCore_spec H st f t amt
          refine ⟨?_, hunch, fun fa ta h1 h2 h3 _ => (heff fa ta h1 h2 h3).1⟩
          rw [hiff]
          constructor
          · intro ⟨hA, hB⟩
            exact ⟨by omega, fun _ => ⟨by simp, hopeq.symm⟩, hA, hB⟩
          · intro ⟨_, _, hA, hB⟩
            exact ⟨hA, hB⟩
    · simp only [if_neg hf]
      obtain ⟨hiff, hunch, heff⟩ := transferCore_spec H st f t amt
      refine ⟨?_, hunch, fun fa ta h1 h2 h3 _ => (heff fa ta h1 h2 h3).1⟩
      rw [hiff]
      constructor
      · intro ⟨hA, hB⟩
        exact ⟨by omega, fun e => absurd e hf, hA, hB⟩
      · intro ⟨_, _, hA, hB⟩
        exact ⟨hA, hB⟩

theorem exists_alookup_of_isSome {m : List (String × α)} {k : String}
    (h : (alookup k m).isSome) : ∃ v, alookup k m = some v :=
  Option.isSome_iff_exists.mp h

/-- `transfer` preserves the money invariant whenever the source and
destination accounts differ (the unrestricted statement is false, see the
conservation counterexample). -/
theorem transfer_moneyInv (H : String → String) {st : StoreSt} (f t : String) (amt : Int)
    (op : Option String) (hinv : moneyInv st) (hne : f ≠ t) :
    moneyInv (transfer H st f t amt op).1 := by
  obtain ⟨hcons, hkeyed, hnd, gid, ga, hgi, hga⟩ := id hinv
  obtain ⟨hiff, hunch, heff⟩ := transfer_spec H st f t amt op hgi hga
  by_cases hok : (transfer H st f t amt op).2 = Except.ok ()
  · obtain ⟨h0, hauth, ⟨fa, hfa, hbal⟩, ta, hta⟩ := hiff.mp hok
    have hstate := heff fa ta hfa hta hbal hok
    have hfaid : fa.accountId = f := hkeyed (f, fa) (alookup_mem hfa)
    have htaid : ta.accountId = t := hkeyed (t, ta) (alookup_mem hta)
    rw [hstate]
    have haccs :
        ((appendLedger H
            (putAccount (putAccount st { fa with balance := fa.balance - amt })
              { ta with balance := ta.balance + amt })
            "transfer" (some f) (some t) amt (Json.obj [])).1).accounts
          = aset t { ta with balance := ta.balance + amt }
              (aset f { fa with balance := fa.balance - amt } st.accounts) := by
      simp [appendLedger, putAccount, hfaid, htaid]
    have hl2 : alookup t (aset f { fa with balance := fa.balance - amt } st.accounts)
        = some ta := by
      rw [alookup_aset_ne hne]
      exact hta
    have hmint : totalMinted ((appendLedger H
        (putAccount (putAccount st { fa with balance := fa.balance - amt })
          { ta with balance := ta.balance + amt })
        "transfer" (some f) (some t) amt (Json.obj [])).1) = totalMinted st := by
      rw [(appendLedger_state H
        (putAccount (putAccount st { fa with balance := fa.balance - amt })
          { ta with balance := ta.balance + amt })
        "transfer" (some f) (some t) amt (Json.obj [])).2.2.2,
        if_neg (by decide)]
      have hz : totalMinted (putAccount (putAccount st { fa with balance := fa.balance - amt })
          { ta with balance := ta.balance + amt }) = totalMinted st := rfl
      rw [hz]
      ring
    have hbal1 : ((aset f { fa with balance := fa.balance - amt } st.accounts).map
          (fun p => p.2.balance)).sum
        = (st.accounts.map (fun p => p.2.balance)).sum - fa.balance + (fa.balance - amt) :=
      sum_aset_some (fun a => a.balance) _ hfa
    have hbal2 : ((aset t { ta with balance := ta.balance + amt }
          (aset f { fa with balance := fa.balance - amt } st.accounts)).map
          (fun p => p.2.balance)).sum
        = ((aset f { fa with balance := fa.balance - amt } st.accounts).map
            (fun p => p.2.balance)).sum - ta.balance + (ta.balance + amt) :=
      sum_aset_some (fun a => a.balance) _ hl2
    have hesc : totalEscrows ((appendLedger H
        (putAccount (putAccount st { fa with balance := fa.balance - amt })
          { ta with balance := ta.balance + amt })
        "transfer" (some f) (some t) amt (Json.obj [])).1) = totalEscrows st := rfl
    refine ⟨?_, ?_, ?_, gid, ?_⟩
    · unfold conserved totalBalances at hcons ⊢
      rw [haccs, hbal2, hbal1, hesc, hmint]
      omega
    · unfold accountsKeyed at hkeyed ⊢
      rw [haccs]
      refine forall_mem_aset (forall_mem_aset hkeyed ?_) ?_
      · exact hfaid
      · exact htaid
    · exact hnd
    · have hsome : (alookup gid st.accounts).isSome := by
        rw [hga]
        rfl
      have h2 := @isSome_alookup_aset _ gid f { fa with balance := fa.balance - amt }
        st.accounts hsome
      have h3 := @isSome_alookup_aset _ gid t { ta with balance := ta.balance + amt }
        (aset f { fa with balance := fa.balance - amt } st.accounts) h2
      obtain ⟨a, hsa⟩ := exists_alookup_of_isSome h3
      refine ⟨a, hgi, ?_⟩
      rw [haccs]
      exact hsa
  · rw [hunch hok]
    exact hinv

/-- `lock_escrow` either leaves the store unchanged (on any error) or, on
success, debits the payer, adds the escrow row, and appends an
`escrow_locked` ledger entry. -/
theorem lockEscrow_state (H : String → String) (st : StoreSt) (tid f : String) (amt : Int)
    (tok : String) :
    (lockEscrow H st tid f amt tok).1 = st ∨
    ∃ fromAccount, alookup f st.accounts = some fromAccount ∧ ¬ fromAccount.balance < amt ∧
      0 < amt ∧
      (lockEscrow H st tid f amt tok).1 =
        (appendLedger H
          { putAccount st { fromAccount with balance := fromAccount.balance - amt } with
              escrows := aset tid ⟨tid, f, amt, tok, st.nowIso⟩ st.escrows }
          "escrow_locked" (some f) none amt
          (Json.obj [("taskId", Json.str tid), ("token", Json.str tok)])).1 := by
  unfold lockEscrow getAccount
  by_cases ha : amt ≤ 0
  · simp only [if_pos ha]
    exact Or.inl trivial
  · simp only [if_neg ha]
    cases hfa : alookup f st.accounts with
    | none => exact Or.inl rfl
    | some fromAccount =>
      by_cases hbal : fromAccount.balance < amt
      · simp only [if_pos hbal]
        exact Or.inl trivial
      · simp only [if_neg hbal]
        exact Or.inr ⟨fromAccount, rfl, hbal, by omega, rfl⟩

/-- `release_escrow` either leaves the store unchanged (no escrow row, or
missing winner account) or credits the winner, removes the escrow row, and
appends an `escrow_released` ledger entry. -/
theorem releaseEscrow_state (H : String → String) (st : StoreSt) (tid w : String) :
    (releaseEscrow H st tid w).1 = st ∨
    ∃ escrow winner, alookup tid st.escrows = some escrow ∧
      alookup w st.accounts = some winner ∧
      (releaseEscrow H st tid w).1 =
        (appendLedger H
          { putAccount st { winner with balance := winner.balance + escrow.amount } with
              escrows := aremove tid st.escrows }
          "escrow_released" none (some w) escrow.amount
          (Json.obj [("taskId", Json.str tid), ("token", Json.str escrow.token)])).1 := by
  unfold releaseEscrow getAccount
  cases he : alookup tid st.escrows with
  | none => exact Or.inl rfl
  | some escrow =>
    cases hw : alookup w st.accounts with
    | none => exact Or.inl rfl
    | some winner => exact Or.inr ⟨escrow, winner, rfl, rfl, rfl⟩

/-- `lock_escrow` preserves the money invariant when no escrow row exists
yet for the task id (re-locking overwrites the row and destroys the old
funds, see the conservation counterexample discussion). -/
theorem lockEscrow_moneyInv (H : String → String) {st : StoreSt} (tid f : String) (amt : Int)
    (tok : String) (hinv : moneyInv st) (hfresh : alookup tid st.escrows = none) :
    moneyInv (lockEscrow H st tid f amt tok).1 := by
  obtain ⟨hcons, hkeyed, hnd, gid, ga, hgi, hga⟩ := id hinv
  rcases lockEscrow_state H st tid f amt tok with hs | ⟨fromAccount, hfa, hbal, h0, hs⟩
  · rw [hs]
    exact hinv
  · rw [hs]
    have hfaid : fromAccount.accountId = f := hkeyed (f, fromAccount) (alookup_mem hfa)
    have haccs : ((appendLedger H
        { putAccount st { fromAccount with balance := fromAccount.balance - amt } with
            escrows := aset tid ⟨tid, f, amt, tok, st.nowIso⟩ st.escrows }
        "escrow_locked" (some f) none amt
        (Json.obj [("taskId", Json.str tid), ("token", Json.str tok)])).1).accounts
        = aset f { fromAccount with balance := fromAccount.balance - amt } st.accounts := by
      rw [← hfaid]
      rfl
    have hescs : ((appendLedger H
        { putAccount st { fromAccount with balance := fromAccount.balance - amt } with
            escrows := aset tid ⟨tid, f, amt, tok, st.nowIso⟩ st.escrows }
        "escrow_locked" (some f) none amt
        (Json.obj [("taskId", Json.str tid), ("token", Json.str tok)])).1).escrows
        = aset tid ⟨tid, f, amt, tok, st.nowIso⟩ st.escrows := rfl
    have hbal1 : ((aset f { fromAccount with balance := fromAccount.balance - amt }
          st.accounts).map (fun p => p.2.balance)).sum
        = (st.accounts.map (fun p => p.2.balance)).sum - fromAccount.balance
            + (fromAccount.balance - amt) :=
      sum_aset_some (fun a => a.balance) _ hfa
    have hesc1 : ((aset tid (⟨tid, f, amt, tok, st.nowIso⟩ : Escrow) st.escrows).map
          (fun p => p.2.amount)).sum
        = (st.escrows.map (fun p => p.2.amount)).sum + amt :=
      sum_aset_none (fun e => e.amount) _ hfresh
    have hmint : totalMinted ((appendLedger H
        { putAccount st { fromAccount with balance := fromAccount.balance - amt } with
            escrows := aset tid ⟨tid, f, amt, tok, st.nowIso⟩ st.escrows }
        "escrow_locked" (some f) none amt
        (Json.obj [("taskId", Json.str tid), ("token", Json.str tok)])).1)
        = totalMinted st := by
      rw [(appendLedger_state H
        { putAccount st { fromAccount with balance := fromAccount.balance - amt } with
            escrows := aset tid ⟨tid, f, amt, tok, st.nowIso⟩ st.escrows }
        "escrow_locked" (some f) none amt
        (Json.obj [("taskId", Json.str tid), ("token", Json.str tok)])).2.2.2,
        if_neg (by decide)]
      have hz : totalMinted { putAccount st
            { fromAccount with balance := fromAccount.balance - amt } with
          escrows := aset tid (⟨tid, f, amt, tok, st.nowIso⟩ : Escrow) st.escrows }
          = totalMinted st := rfl
      rw [hz]
      ring
    refine ⟨?_, ?_, ?_, gid, ?_⟩
    · unfold conserved totalBalances totalEscrows at hcons ⊢
      rw [haccs, hescs, hbal1, hesc1, hmint]
      omega
    · unfold accountsKeyed at hkeyed ⊢
      rw [haccs]
      exact forall_mem_aset hkeyed hfaid
    · rw [hescs]
      exact nodup_akeys_aset hnd
    · have hsome : (alookup gid st.accounts).isSome := by
        rw [hga]
        rfl
      obtain ⟨a, hsa⟩ := exists_alookup_of_isSome
        (@isSome_alookup_aset _ gid f { fromAccount with balance := fromAccount.balance - amt }
          st.accounts hsome)
      refine ⟨a, hgi, ?_⟩
      rw [haccs]
      exact hsa

/-- `release_escrow` preserves the money invariant. -/
theorem releaseEscrow_moneyInv (H : String → String) {st : StoreSt} (tid w : String)
    (hinv : moneyInv st) : moneyInv (releaseEscrow H st tid w).1 := by
  obtain ⟨hcons, hkeyed, hnd, gid, ga, hgi, hga⟩ := id hinv
  rcases releaseEscrow_state H st tid w with hs | ⟨escrow, winner, he, hw, hs⟩
  · rw [hs]
    exact hinv
  · rw [hs]
    have hwid : winner.accountId = w := hkeyed (w, winner) (alookup_mem hw)
    have haccs : ((appendLedger H
        { putAccount st { winner with balance := winner.balance + escrow.amount } with
            escrows := aremove tid st.escrows }
        "escrow_released" none (some w) escrow.amount
        (Json.obj [("taskId", Json.str tid), ("token", Json.str escrow.token)])).1).accounts
        = aset w { winner with balance := winner.balance + escrow.amount } st.accounts := by
      rw [← hwid]
      rfl
    have hescs : ((appendLedger H
        { putAccount st { winner with balance := winner.balance + escrow.amount } with
            escrows := aremove tid st.escrows }
        "escrow_released" none (some w) escrow.amount
        (Json.obj [("taskId", Json.str tid), ("token", Json.str escrow.token)])).1).escrows
        = aremove tid st.escrows := rfl
    have hbal1 : ((aset w { winner with balance := winner.balance + escrow.amount }
          st.accounts).map (fun p => p.2.balance)).sum
        = (st.accounts.map (fun p => p.2.balance)).sum - winner.balance
            + (winner.balance + escrow.amount) :=
      sum_aset_some (fun a => a.balance) _ hw
    have hesc1 : ((aremove tid st.escrows).map (fun p => p.2.amount)).sum
        = (st.escrows.map (fun p => p.2.amount)).sum - escrow.amount :=
      sum_aremove_some (fun e => e.amount) he
    have hmint : totalMinted ((appendLedger H
        { putAccount st { winner with balance := winner.balance + escrow.amount } with
            escrows := aremove tid st.escrows }
        "escrow_released" none (some w) escrow.amount
        (Json.obj [("taskId", Json.str tid), ("token", Json.str escrow.token)])).1)
        = totalMinted st := by
      rw [(appendLedger_state H
        { putAccount st { winner with balance := winner.balance + escrow.amount } with
            escrows := aremove tid st.escrows }
        "escrow_released" none (some w) escrow.amount
        (Json.obj [("taskId", Json.str tid), ("token", Json.str escrow.token)])).2.2.2,
        if_neg (by decide)]
      have hz : totalMinted { putAccount st
            { winner with balance := winner.balance + escrow.amount } with
          escrows := aremove tid st.escrows } = totalMinted st := rfl
      rw [hz]
      ring
    refine ⟨?_, ?_, ?_, gid, ?_⟩
    · unfold conserved totalBalances totalEscrows at hcons ⊢
      rw [haccs, hescs, hbal1, hesc1, hmint]
      omega
    · unfold accountsKeyed at hkeyed ⊢
      rw [haccs]
      exact forall_mem_aset hkeyed hwid
    · rw [hescs]
      exact nodup_akeys_aremove hnd
    · have hsome : (alookup gid st.accounts).isSome := by
        rw [hga]
        rfl
      obtain ⟨a, hsa⟩ := exists_alookup_of_isSome
        (@isSome_alookup_aset _ gid w { winner with balance := winner.balance + escrow.amount }
          st.accounts hsome)
      refine ⟨a, hgi, ?_⟩
      rw [haccs]
      exact hsa

/-- One safe money operation preserves the money invariant. -/
theorem applyOp_moneyInv (H : String → String) (isAlnum : Char → Bool) {st : StoreSt}
    (op : StoreOp) (hinv : moneyInv st) (hm : isMoneyOp op = true)
    (hs : safeOp st op = true) : moneyInv (applyOp H isAlnum st op).1 := by
  cases op with
  | transferOp f t amt o =>
    exact transfer_moneyInv H f t amt o hinv (by simpa [safeOp] using hs)
  | lockEscrowOp tid f amt tok =>
    exact lockEscrow_moneyInv H tid f amt tok hinv
      (by simpa [safeOp, Option.isNone_iff_eq_none] using hs)
  | releaseEscrowOp tid w =>
    exact releaseEscrow_moneyInv H tid w hinv
  | ensureAccountOp n a => simp [isMoneyOp] at hm
  | importAccountOp n p => simp [isMoneyOp] at hm
  | storeCapsuleOp c => simp [isMoneyOp] at hm

/-- A sequence of safe money operations preserves the money invariant. -/
theorem runOps_moneyInv (H : String → String) (isAlnum : Char → Bool) {st : StoreSt}
    (ops : List StoreOp) (hinv : moneyInv st)
    (hsafe : safeOps H isAlnum st ops = true) : moneyInv (runOps H isAlnum st ops) := by
  induction ops generalizing st with
  | nil => exact hinv
  | cons op rest ih =>
    simp only [safeOps, Bool.and_eq_true] at hsafe
    obtain ⟨⟨hm, hs⟩, hrest⟩ := hsafe
    exact ih (applyOp_moneyInv H isAlnum op hinv hm hs) hrest

/-- The genesis-flagged `Store::open` establishes the money invariant:
the genesis account holds the whole minted supply, no escrows exist, and
the account index resolves `node_genesis`. -/
theorem openStore_moneyInv (H : String → String) (op : Option String) (supply ms : Int)
    (iso : String) (ids : List String) :
    moneyInv (openStore H true op supply ms iso ids) := by
  refine ⟨?_, ?_, ?_, ?_⟩
  · unfold conserved totalBalances totalEscrows totalMinted openStore ensureGenesisAccount
      getAccountIdByNode putAccount appendLedger ledgerHead
    simp [alookup, aset]
  · unfold accountsKeyed openStore ensureGenesisAccount getAccountIdByNode putAccount
      appendLedger ledgerHead
    simp [alookup, aset]
  · unfold openStore ensureGenesisAccount getAccountIdByNode putAccount appendLedger ledgerHead
    simp [alookup, aset, akeys]
  · refine ⟨"acct_genesis", ?_⟩
    unfold openStore ensureGenesisAccount getAccountIdByNode putAccount appendLedger ledgerHead
    simp [alookup, aset]

/-- C1 (amended): for every sequence of money operations (transfer,
lock_escrow, release_escrow) run after the genesis bootstrap, in which no
transfer is a self-transfer and no lock_escrow reuses a task id whose
escrow row still exists, the sum of all account balances plus the sum of
all escrowed amounts equals the total minted supply, and the escrow table
holds at most one row per task id.  (The unamended claim is refuted by
`claimC1_counterexample`: a successful self-transfer inflates the balance
total, and re-locking a task id overwrites the row, destroying the
previously escrowed funds.) -/
theorem claimC1 (H : String → String) (isAlnum : Char → Bool) (op : Option String)
    (supply ms : Int) (iso : String) (ids : List String) (ops : List StoreOp)
    (hsafe : safeOps H isAlnum (openStore H true op supply ms iso ids) ops = true) :
    totalBalances (runOps H isAlnum (openStore H true op supply ms iso ids) ops)
        + totalEscrows (runOps H isAlnum (openStore H true op supply ms iso ids) ops)
      = totalMinted (runOps H isAlnum (openStore H true op supply ms iso ids) ops)
    ∧ (akeys (runOps H isAlnum (openStore H true op supply ms iso ids) ops).escrows).Nodup := by
  have h := runOps_moneyInv H isAlnum ops (openStore_moneyInv H op supply ms iso ids) hsafe
  exact ⟨h.1, h.2.2.1⟩

/-- Witness for C1: a lock/release round trip on the bootstrapped store
satisfies the safety hypothesis, and conservation holds afterwards. -/
theorem claimC1_witness :
    safeOps (fun _ => "h") (fun _ => false)
        (openStore (fun _ => "h") true (some "opr") 1000000 0 "t" [])
        [StoreOp.lockEscrowOp "t1" "acct_genesis" 100 "tok",
         StoreOp.releaseEscrowOp "t1" "acct_genesis"] = true ∧
    (totalBalances (runOps (fun _ => "h") (fun _ => false)
          (openStore (fun _ => "h") true (some "opr") 1000000 0 "t" [])
          [StoreOp.lockEscrowOp "t1" "acct_genesis" 100 "tok",
           StoreOp.releaseEscrowOp "t1" "acct_genesis"])
        + totalEscrows (runOps (fun _ => "h") (fun _ => false)
          (openStore (fun _ => "h") true (some "opr") 1000000 0 "t" [])
          [StoreOp.lockEscrowOp "t1" "acct_genesis" 100 "tok",
           StoreOp.releaseEscrowOp "t1" "acct_genesis"])
      = totalMinted (runOps (fun _ => "h") (fun _ => false)
          (openStore (fun _ => "h") true (some "opr") 1000000 0 "t" [])
          [StoreOp.lockEscrowOp "t1" "acct_genesis" 100 "tok",
           StoreOp.releaseEscrowOp "t1" "acct_genesis"])
    ∧ (akeys (runOps (fun _ => "h") (fun _ => false)
          (openStore (fun _ => "h") true (some "opr") 1000000 0 "t" [])
          [StoreOp.lockEscrowOp "t1" "acct_genesis" 100 "tok",
           StoreOp.releaseEscrowOp "t1" "acct_genesis"]).escrows).Nodup) :=
  ⟨by decide, claimC1 (fun _ => "h") (fun _ => false) (some "opr") 1000000 0 "t" []
    [StoreOp.lockEscrowOp "t1" "acct_genesis" 100 "tok",
     StoreOp.releaseEscrowOp "t1" "acct_genesis"] (by decide)⟩

/-- Counterexample to the unamended C1: a self-transfer of 100 out of the
genesis account succeeds and leaves the balance total 100 above the minted
supply, because the store reads both rows before writing and the second
write overwrites the first. -/
theorem claimC1_counterexample :
    (applyOp (fun _ => "h") (fun _ => false)
        (openStore (fun _ => "h") true (some "opr") 1000000 0 "t" [])
        (StoreOp.transferOp "acct_genesis" "acct_genesis" 100 (some "opr"))).2 = true ∧
    totalBalances (applyOp (fun _ => "h") (fun _ => false)
        (openStore (fun _ => "h") true (some "opr") 1000000 0 "t" [])
        (StoreOp.transferOp "acct_genesis" "acct_genesis" 100 (some "opr"))).1
      + totalEscrows (applyOp (fun _ => "h") (fun _ => false)
        (openStore (fun _ => "h") true (some "opr") 1000000 0 "t" [])
        (StoreOp.transferOp "acct_genesis" "acct_genesis" 100 (some "opr"))).1
      ≠ totalMinted (applyOp (fun _ => "h") (fun _ => false)
        (openStore (fun _ => "h") true (some "opr") 1000000 0 "t" [])
        (StoreOp.transferOp "acct_genesis" "acct_genesis" 100 (some "opr"))).1 := by
  constructor
  · decide
  · decide

/-- C3 (amended): on a bootstrapped, well-keyed store, `transfer` succeeds
exactly when `0 < amount`, the source is the genesis account only with the
configured operator (transfers into it need none), the source account
exists with sufficient balance, and the destination account exists; and on
success with distinct source and destination it debits the source by
`amount`, credits the destination by `amount`, and appends one `transfer`
ledger entry.  (The unamended claim's effect clause fails for
self-transfers, see `claimC3_counterexample`: both reads happen before
both writes, so the debit is overwritten by the credit.) -/
theorem claimC3 (H : String → String) (st : StoreSt) (f t : String) (amt : Int)
    (op : Option String) {gid : String} {ga : Account}
    (hgi : alookup "node_genesis" st.accountIndex = some gid)
    (hga : alookup gid st.accounts = some ga)
    (hkeyed : accountsKeyed st) :
    ((transfer H st f t amt op).2 = Except.ok () ↔
       (0 < amt ∧ (f = ga.accountId → st.genesisOperator ≠ none ∧ op = st.genesisOperator) ∧
        (∃ fa, alookup f st.accounts = some fa ∧ ¬ fa.balance < amt) ∧
        (∃ ta, alookup t st.accounts = some ta))) ∧
    (∀ fa ta, f ≠ t → alookup f st.accounts = some fa → alookup t st.accounts = some ta →
       (transfer H st f t amt op).2 = Except.ok () →
       alookup f ((transfer H st f t amt op).1).accounts
           = some { fa with balance := fa.balance - amt } ∧
       alookup t ((transfer H st f t amt op).1).accounts
           = some { ta with balance := ta.balance + amt } ∧
       ∃ e, ((transfer H st f t amt op).1).ledger = st.ledger ++ [e] ∧
         e.entryType = "transfer" ∧ e.amount = amt ∧ e.fromA = some f ∧ e.toA = some t) := by
  obtain ⟨hiff, hunch, heff⟩ := transfer_spec H st f t amt op hgi hga
  refine ⟨hiff, ?_⟩
  intro fa ta hne hfa hta hok
  obtain ⟨h0, hauth, ⟨fa2, hfa2, hbal⟩, _⟩ := hiff.mp hok
  rw [hfa] at hfa2
  obtain rfl := Option.some.inj hfa2
  have hstate := heff fa ta hfa hta hbal hok
  rw [hstate]
  have hfaid : fa.accountId = f := hkeyed (f, fa) (alookup_mem hfa)
  have htaid : ta.accountId = t := hkeyed (t, ta) (alookup_mem hta)
  have haccs :
      ((appendLedger H
          (putAccount (putAccount st { fa with balance := fa.balance - amt })
            { ta with balance := ta.balance + amt })
          "transfer" (some f) (some t) amt (Json.obj [])).1).accounts
        = aset t { ta with balance := ta.balance + amt }
            (aset f { fa with balance := fa.balance - amt } st.accounts) := by
    simp [appendLedger, putAccount, hfaid, htaid]
  refine ⟨?_, ?_, ?_⟩
  · rw [haccs, alookup_aset_ne (Ne.symm hne), alookup_aset_self]
  · rw [haccs, alookup_aset_self]
  · exact ⟨_, rfl, rfl, rfl, rfl, rfl⟩

/-- Witness for C3: on the bootstrapped store with one imported account,
the hypotheses hold by computation and the characterization follows. -/
theorem claimC3_witness :
    accountsKeyed (importAccount (openStore (fun _ => "h") true (some "opr") 1000000 0 "t" []) "node_b"
        ⟨"acct_b", "node_b", "alg", "sh", "ti", none, 0⟩).1 ∧
    (((transfer (fun _ => "h") (importAccount (openStore (fun _ => "h") true (some "opr") 1000000 0 "t" []) "node_b"
        ⟨"acct_b", "node_b", "alg", "sh", "ti", none, 0⟩).1 "acct_genesis" "acct_b" 5 (some "opr")).2 = Except.ok () ↔
       ((0 : Int) < 5 ∧
        ("acct_genesis" = (⟨"acct_genesis", "node_genesis", "genesis", "h", "t", none, 1000000⟩ : Account).accountId →
          ((importAccount (openStore (fun _ => "h") true (some "opr") 1000000 0 "t" []) "node_b"
        ⟨"acct_b", "node_b", "alg", "sh", "ti", none, 0⟩).1).genesisOperator ≠ none ∧
          (some "opr") = ((importAccount (openStore (fun _ => "h") true (some "opr") 1000000 0 "t" []) "node_b"
        ⟨"acct_b", "node_b", "alg", "sh", "ti", none, 0⟩).1).genesisOperator) ∧
        (∃ fa, alookup "acct_genesis" ((importAccount (openStore (fun _ => "h") true (some "opr") 1000000 0 "t" []) "node_b"
        ⟨"acct_b", "node_b", "alg", "sh", "ti", none, 0⟩).1).accounts = some fa ∧ ¬ fa.balance < 5) ∧
        (∃ ta, alookup "acct_b" ((importAccount (openStore (fun _ => "h") true (some "opr") 1000000 0 "t" []) "node_b"
        ⟨"acct_b", "node_b", "alg", "sh", "ti", none, 0⟩).1).accounts = some ta))) ∧
    (∀ fa ta, "acct_genesis" ≠ "acct_b" →
       alookup "acct_genesis" ((importAccount (openStore (fun _ => "h") true (some "opr") 1000000 0 "t" []) "node_b"
        ⟨"acct_b", "node_b", "alg", "sh", "ti", none, 0⟩).1).accounts = some fa →
       alookup "acct_b" ((importAccount (openStore (fun _ => "h") true (some "opr") 1000000 0 "t" []) "node_b"
        ⟨"acct_b", "node_b", "alg", "sh", "ti", none, 0⟩).1).accounts = some ta →
       (transfer (fun _ => "h") (importAccount (openStore (fun _ => "h") true (some "opr") 1000000 0 "t" []) "node_b"
        ⟨"acct_b", "node_b", "alg", "sh", "ti", none, 0⟩).1 "acct_genesis" "acct_b" 5 (some "opr")).2 = Except.ok () →
       alookup "acct_genesis" ((transfer (fun _ => "h") (importAccount (openStore (fun _ => "h") true (some "opr") 1000000 0 "t" []) "node_b"
        ⟨"acct_b", "node_b", "alg", "sh", "ti", none, 0⟩).1 "acct_genesis" "acct_b" 5 (some "opr")).1).accounts
           = some { fa with balance := fa.balance - 5 } ∧
       alookup "acct_b" ((transfer (fun _ => "h") (importAccount (openStore (fun _ => "h") true (some "opr") 1000000 0 "t" []) "node_b"
        ⟨"acct_b", "node_b", "alg", "sh", "ti", none, 0⟩).1 "acct_genesis" "acct_b" 5 (some "opr")).1).accounts
           = some { ta with balance := ta.balance + 5 } ∧
       ∃ e, ((transfer (fun _ => "h") (importAccount (openStore (fun _ => "h") true (some "opr") 1000000 0 "t" []) "node_b"
        ⟨"acct_b", "node_b", "alg", "sh", "ti", none, 0⟩).1 "acct_genesis" "acct_b" 5 (some "opr")).1).ledger = ((importAccount (openStore (fun _ => "h") true (some "opr") 1000000 0 "t" []) "node_b"
        ⟨"acct_b", "node_b", "alg", "sh", "ti", none, 0⟩).1).ledger ++ [e] ∧
         e.entryType = "transfer" ∧ e.amount = 5 ∧ e.fromA = some "acct_genesis" ∧ e.toA = some "acct_b")) :=
  ⟨by unfold accountsKeyed; decide,
   @claimC3 (fun _ => "h") (importAccount (openStore (fun _ => "h") true (some "opr") 1000000 0 "t" []) "node_b"
        ⟨"acct_b", "node_b", "alg", "sh", "ti", none, 0⟩).1 "acct_genesis" "acct_b" 5 (some "opr") "acct_genesis"
     ⟨"acct_genesis", "node_genesis", "genesis", "h", "t", none, 1000000⟩
     (by decide) (by decide) (by unfold accountsKeyed; decide)⟩

/-- Counterexample to the unamended C3: a self-transfer of 100 out of the
genesis account succeeds, yet the source balance ends at 1000100 rather
than the claimed 1000000 - 100. -/
theorem claimC3_counterexample :
    (transfer (fun _ => "h") (openStore (fun _ => "h") true (some "opr") 1000000 0 "t" [])
        "acct_genesis" "acct_genesis" 100 (some "opr")).2 = Except.ok () ∧
    (alookup "acct_genesis"
        ((transfer (fun _ => "h") (openStore (fun _ => "h") true (some "opr") 1000000 0 "t" [])
          "acct_genesis" "acct_genesis" 100 (some "opr")).1).accounts).map (fun a => a.balance)
      = some 1000100 ∧
    (alookup "acct_genesis"
        (openStore (fun _ => "h") true (some "opr") 1000000 0 "t" []).accounts).map
        (fun a => a.balance)
      = some 1000000 := by
  refine ⟨rfl, ?_, ?_⟩
  · decide
  · decide

/-- On a store whose account index does not resolve `node_genesis`,
`ensure_genesis_account` creates and indexes `acct_genesis`, returns Ok,
and, when the ledger is empty, appends the mint entry for the genesis
supply and credits the account. -/
theorem ensureGenesis_miss (H : String → String) (st : StoreSt)
    (hmiss : alookup "node_genesis" st.accountIndex = none) :
    (∃ a, ensureGenesisAccount H st = ((ensureGenesisAccount H st).1, Except.ok a)) ∧
    alookup "node_genesis" ((ensureGenesisAccount H st).1).accountIndex = some "acct_genesis" ∧
    (∃ a, alookup "acct_genesis" ((ensureGenesisAccount H st).1).accounts = some a) ∧
    (st.ledger = [] →
      ∃ e rest, ((ensureGenesisAccount H st).1).ledger = e :: rest ∧
        e.entryType = "mint" ∧ e.amount = st.genesisSupply ∧
        e.accountId = some "acct_genesis" ∧
        ∃ a, alookup "acct_genesis" ((ensureGenesisAccount H st).1).accounts = some a ∧
          a.balance = 0 + st.genesisSupply) := by
  unfold ensureGenesisAccount getAccountIdByNode appendLedger ledgerHead putAccount
  simp only [hmiss]
  cases hl : st.ledger with
  | nil =>
    simp only [hl, List.isEmpty_nil, if_true, List.nil_append, List.dropLast_single]
    refine ⟨⟨_, rfl⟩, ?_, ⟨_, alookup_aset_self _ _ _⟩, ?_⟩
    · exact alookup_aset_self _ _ _
    · intro _
      exact ⟨_, [], rfl, rfl, rfl, rfl, _, alookup_aset_self _ _ _, rfl⟩
  | cons e0 rest0 =>
    simp only [hl, List.isEmpty_cons, if_false]
    refine ⟨⟨_, rfl⟩, ?_, ⟨_, alookup_aset_self _ _ _⟩, ?_⟩
    · exact alookup_aset_self _ _ _
    · intro h
      exact absurd h (by simp)

/-- `transferCore` never touches the account index, never removes an
account row, and only appends to the ledger. -/
theorem transferCore_effects (H : String → String) (st : StoreSt) (f t : String) (amt : Int) :
    ((transferCore H st f t amt).1).accountIndex = st.accountIndex ∧
    (∀ k, (alookup k st.accounts).isSome →
      (alookup k ((transferCore H st f t amt).1).accounts).isSome) ∧
    (∃ l, ((transferCore H st f t amt).1).ledger = st.ledger ++ l) := by
  unfold transferCore getAccount
  cases hfa : alookup f st.accounts with
  | none => exact ⟨rfl, fun k h => h, [], by simp⟩
  | some fromAccount =>
    cases hta : alookup t st.accounts with
    | none => exact ⟨rfl, fun k h => h, [], by simp⟩
    | some toAccount =>
      by_cases hbal : fromAccount.balance < amt
      · simp only [if_pos hbal]
        exact ⟨by trivial, fun k h => h, [], by simp⟩
      · simp only [if_neg hbal]
        refine ⟨by trivial, fun k h => ?_, ⟨_, rfl⟩⟩
        exact isSome_alookup_aset (isSome_alookup_aset h)

/-- C10: every `transfer` call with positive amount on a store whose
account index lacks `node_genesis` bootstraps the genesis account first:
afterwards the index resolves `node_genesis` to `acct_genesis`, that
account row exists, and if the ledger was empty its first entry is the
mint of the genesis supply credited to `acct_genesis`; and when the
transfer itself fails, the resulting store is exactly the bootstrapped
one, so the side effects persist. -/
theorem claimC10 (H : String → String) (st : StoreSt) (f t : String) (amt : Int)
    (op : Option String) (hmiss : alookup "node_genesis" st.accountIndex = none)
    (hamt : 0 < amt) :
    alookup "node_genesis" ((transfer H st f t amt op).1).accountIndex = some "acct_genesis" ∧
    (∃ a, alookup "acct_genesis" ((transfer H st f t amt op).1).accounts = some a) ∧
    ((transfer H st f t amt op).2 ≠ Except.ok () →
      (transfer H st f t amt op).1 = (ensureGenesisAccount H st).1) ∧
    (st.ledger = [] →
      ∃ e rest, ((transfer H st f t amt op).1).ledger = e :: rest ∧
        e.entryType = "mint" ∧ e.amount = st.genesisSupply ∧
        e.accountId = some "acct_genesis") := by
  obtain ⟨⟨ga, hge⟩, hidx, ⟨ag, hag⟩, hmint⟩ := ensureGenesis_miss H st hmiss
  unfold transfer
  rw [hge]
  simp only [if_neg (by omega : ¬ amt ≤ 0)]
  obtain ⟨hcidx, hcacc, l, hcl⟩ := transferCore_effects H (ensureGenesisAccount H st).1 f t amt
  obtain ⟨hciff, hcunch, hceff⟩ := transferCore_spec H (ensureGenesisAccount H st).1 f t amt
  have hcore :
      alookup "node_genesis"
          ((transferCore H (ensureGenesisAccount H st).1 f t amt).1).accountIndex
          = some "acct_genesis" ∧
      (∃ a, alookup "acct_genesis"
          ((transferCore H (ensureGenesisAccount H st).1 f t amt).1).accounts = some a) ∧
      ((transferCore H (ensureGenesisAccount H st).1 f t amt).2 ≠ Except.ok () →
        (transferCore H (ensureGenesisAccount H st).1 f t amt).1
          = (ensureGenesisAccount H st).1) ∧
      (st.ledger = [] →
        ∃ e rest,
          ((transferCore H (ensureGenesisAccount H st).1 f t amt).1).ledger = e :: rest ∧
          e.entryType = "mint" ∧ e.amount = st.genesisSupply ∧
          e.accountId = some "acct_genesis") := by
    refine ⟨?_, ?_, hcunch, ?_⟩
    · rw [hcidx]
      exact hidx
    · exact exists_alookup_of_isSome (hcacc "acct_genesis" (by rw [hag]; rfl))
    · intro hemp
      obtain ⟨e, rest, hl1, h1, h2, h3, _⟩ := hmint hemp
      refine ⟨e, rest ++ l, ?_, h1, h2, h3⟩
      rw [hcl, hl1]
      rfl
  by_cases hf : f = ga.accountId
  · simp only [if_pos hf]
    cases hop : ((ensureGenesisAccount H st).1).genesisOperator with
    | none =>
      refine ⟨hidx, ⟨ag, hag⟩, fun _ => by trivial, ?_⟩
      intro hemp
      obtain ⟨e, rest, hl1, h1, h2, h3, _⟩ := hmint hemp
      exact ⟨e, rest, hl1, h1, h2, h3⟩
    | some operator =>
      by_cases hopeq : some operator ≠ op
      · simp only [if_pos hopeq]
        refine ⟨hidx, ⟨ag, hag⟩, fun _ => by trivial, ?_⟩
        intro hemp
        obtain ⟨e, rest, hl1, h1, h2, h3, _⟩ := hmint hemp
        exact ⟨e, rest, hl1, h1, h2, h3⟩
      · simp only [if_neg hopeq]
        exact hcore
  · simp only [if_neg hf]
    exact hcore

/-- Witness for C10: a transfer between two unknown accounts on a fresh
non-genesis store fails, yet bootstraps the genesis account and mints the
supply. -/
theorem claimC10_witness :
    alookup "node_genesis" ((openStore (fun _ => "h") false none 500 0 "t" [])).accountIndex = none ∧ (0 : Int) < 1 ∧
    (alookup "node_genesis" ((transfer (fun _ => "h") (openStore (fun _ => "h") false none 500 0 "t" []) "a" "b" (1 : Int) (none : Option String)).1).accountIndex = some "acct_genesis" ∧
    (∃ a, alookup "acct_genesis" ((transfer (fun _ => "h") (openStore (fun _ => "h") false none 500 0 "t" []) "a" "b" (1 : Int) (none : Option String)).1).accounts = some a) ∧
    ((transfer (fun _ => "h") (openStore (fun _ => "h") false none 500 0 "t" []) "a" "b" (1 : Int) (none : Option String)).2 ≠ Except.ok () →
      (transfer (fun _ => "h") (openStore (fun _ => "h") false none 500 0 "t" []) "a" "b" (1 : Int) (none : Option String)).1 = (ensureGenesisAccount (fun _ => "h") (openStore (fun _ => "h") false none 500 0 "t" [])).1) ∧
    (((openStore (fun _ => "h") false none 500 0 "t" [])).ledger = [] →
      ∃ e rest, ((transfer (fun _ => "h") (openStore (fun _ => "h") false none 500 0 "t" []) "a" "b" (1 : Int) (none : Option String)).1).ledger = e :: rest ∧
        e.entryType = "mint" ∧ e.amount = ((openStore (fun _ => "h") false none 500 0 "t" [])).genesisSupply ∧
        e.accountId = some "acct_genesis")) :=
  ⟨rfl, by decide,
   claimC10 (fun _ => "h") (openStore (fun _ => "h") false none 500 0 "t" []) "a" "b" (1 : Int) (none : Option String) rfl (by decide)⟩

theorem aset_eq_of_alookup {k : String} {v : α} {m : List (String × α)}
    (h : alookup k m = some v) : aset k v m = m := by
  induction m with
  | nil => simp [alookup] at h
  | cons p rest ih =>
    obtain ⟨k0, v0⟩ := p
    by_cases hk : k0 = k
    · subst hk
      simp [alookup] at h
      simp [aset, h]
    · simp only [alookup, if_neg hk] at h
      simp [aset, hk, ih h]

/-- After one indexing step, the asset id is in the posting list of the
stepped token, and stays in any list it was already in. -/
theorem capIndexStep_mem (assetId : String) (acc : StoreSt) (tk0 tk : String)
    (h : tk = tk0 ∨ assetId ∈ getIndexedIds acc tk) :
    assetId ∈ getIndexedIds (capIndexStep assetId acc tk0) tk := by
  rcases h with rfl | h
  · unfold capIndexStep getIndexedIds
    rw [alookup_aset_self]
    by_cases hm : assetId ∈ (alookup tk acc.capsuleIndex).getD []
    · rw [if_pos hm]
      simpa using hm
    · rw [if_neg hm]
      simp
  · by_cases he : tk0 = tk
    · subst he
      unfold capIndexStep getIndexedIds
      rw [alookup_aset_self]
      by_cases hm : assetId ∈ (alookup tk0 acc.capsuleIndex).getD []
      · rw [if_pos hm]
        simpa using hm
      · rw [if_neg hm]
        simp
    · unfold capIndexStep getIndexedIds
      rw [alookup_aset_ne he]
      exact h

/-- Folding indexing steps over any token list keeps the asset id in any
posting list it was already in. -/
theorem foldl_capIndexStep_keep (assetId tk : String) (ts : List String) :
    ∀ acc : StoreSt, assetId ∈ getIndexedIds acc tk →
      assetId ∈ getIndexedIds (ts.foldl (capIndexStep assetId) acc) tk := by
  induction ts with
  | nil => exact fun acc h => h
  | cons t0 ts ih =>
    intro acc h
    exact ih _ (capIndexStep_mem assetId acc t0 tk (Or.inr h))

/-- Folding indexing steps over a token list puts the asset id in the
posting list of every token of the list. -/
theorem foldl_capIndexStep_mem (assetId : String) (ts : List String) :
    ∀ (acc : StoreSt) (tk : String), tk ∈ ts →
      assetId ∈ getIndexedIds (ts.foldl (capIndexStep assetId) acc) tk := by
  induction ts with
  | nil =>
    intro acc tk h
    exact absurd h (by simp)
  | cons t0 ts ih =>
    intro acc tk h
    rcases List.mem_cons.mp h with rfl | h
    · exact foldl_capIndexStep_keep assetId tk ts _
        (capIndexStep_mem assetId acc tk tk (Or.inl rfl))
    · exact ih _ tk h

/-- An indexing step whose token already lists the asset id is the
identity. -/
theorem capIndexStep_id (assetId : String) (acc : StoreSt) (tk : String)
    (h : assetId ∈ getIndexedIds acc tk) : capIndexStep assetId acc tk = acc := by
  simp only [capIndexStep]
  rw [if_pos h]
  unfold getIndexedIds at h ⊢
  cases hx : alookup tk acc.capsuleIndex with
  | none =>
    rw [hx] at h
    exact absurd h (by simp)
  | some l =>
    have hz : aset tk ((some l).getD []) acc.capsuleIndex = acc.capsuleIndex :=
      aset_eq_of_alookup hx
    rw [hz]

/-- Folding indexing steps over tokens whose posting lists already hold
the asset id is the identity. -/
theorem foldl_capIndexStep_id (assetId : String) (ts : List String) :
    ∀ acc : StoreSt, (∀ tk ∈ ts, assetId ∈ getIndexedIds acc tk) →
      ts.foldl (capIndexStep assetId) acc = acc := by
  induction ts with
  | nil => exact fun acc _ => rfl
  | cons t0 ts ih =>
    intro acc h
    rw [List.foldl_cons, capIndexStep_id assetId acc t0 (h t0 (by simp))]
    exact ih acc (fun tk htk => h tk (List.mem_cons_of_mem _ htk))

/-- An indexing step keeps every posting list duplicate-free. -/
theorem capIndexStep_nodup (assetId tk0 : String) (acc : StoreSt)
    (h : ∀ tk l, alookup tk acc.capsuleIndex = some l → l.Nodup) :
    ∀ tk l, alookup tk (capIndexStep assetId acc tk0).capsuleIndex = some l → l.Nodup := by
  intro tk l hl
  have hl2 : alookup tk (aset tk0
      (if assetId ∈ getIndexedIds acc tk0 then getIndexedIds acc tk0
       else getIndexedIds acc tk0 ++ [assetId]) acc.capsuleIndex) = some l := hl
  by_cases he : tk0 = tk
  · subst he
    rw [alookup_aset_self] at hl2
    obtain rfl := Option.some.inj hl2
    by_cases hm : assetId ∈ getIndexedIds acc tk0
    · rw [if_pos hm]
      unfold getIndexedIds
      cases hx : alookup tk0 acc.capsuleIndex with
      | none => simp
      | some l0 => simpa using h tk0 l0 hx
    · rw [if_neg hm]
      unfold getIndexedIds at hm ⊢
      cases hx : alookup tk0 acc.capsuleIndex with
      | none => simp
      | some l0 =>
        rw [hx] at hm
        simp only [Option.getD_some] at hm ⊢
        simp [List.nodup_append, h tk0 l0 hx, hm]
  · rw [alookup_aset_ne he] at hl2
    exact h tk l hl2

/-- Folding indexing steps keeps every posting list duplicate-free. -/
theorem foldl_capIndexStep_nodup (assetId : String) (ts : List String) :
    ∀ acc : StoreSt, (∀ tk l, alookup tk acc.capsuleIndex = some l → l.Nodup) →
      ∀ tk l, alookup tk ((ts.foldl (capIndexStep assetId) acc)).capsuleIndex = some l →
        l.Nodup := by
  induction ts with
  | nil => exact fun acc h => h
  | cons t0 ts ih =>
    intro acc h
    exact ih _ (capIndexStep_nodup assetId t0 acc h)

/-- Folding indexing steps never touches the capsule table. -/
theorem foldl_capIndexStep_capsules (assetId : String) (ts : List String) :
    ∀ acc : StoreSt, ((ts.foldl (capIndexStep assetId) acc)).capsules = acc.capsules := by
  induction ts with
  | nil => exact fun _ => rfl
  | cons t0 ts ih => exact fun acc => ih _

/-- C7: `store_capsule` is idempotent: a second call with the same capsule
returns the same asset id and the identical store; the capsule is stored
once under that asset id; and (given duplicate-free posting lists, which
every store reachable from `open` has) no posting list holds a duplicate
occurrence of any asset id afterwards. -/
theorem claimC7 (H : String → String) (isAlnum : Char → Bool) (st : StoreSt) (c : Json)
    (hnd : ∀ tk l, alookup tk st.capsuleIndex = some l → l.Nodup) :
    storeCapsule H isAlnum (storeCapsule H isAlnum st c).1 c = (storeCapsule H isAlnum st c) ∧
    (storeCapsule H isAlnum st c).2 = H (jsonToString c) ∧
    alookup (H (jsonToString c)) ((storeCapsule H isAlnum st c).1).capsules = some (jsonToString c) ∧
    (∀ tk l, alookup tk ((storeCapsule H isAlnum st c).1).capsuleIndex = some l → l.Nodup) := by
  have hcaps : ((storeCapsule H isAlnum st c).1).capsules = aset (H (jsonToString c)) (jsonToString c) st.capsules :=
    foldl_capIndexStep_capsules (H (jsonToString c)) (capsuleTokens isAlnum c)
      { st with capsules := aset (H (jsonToString c)) (jsonToString c) st.capsules }
  have hc1 : aset (H (jsonToString c)) (jsonToString c) ((storeCapsule H isAlnum st c).1).capsules = ((storeCapsule H isAlnum st c).1).capsules := by
    rw [hcaps]
    exact aset_eq_of_alookup (alookup_aset_self _ _ _)
  have hS2 : { (storeCapsule H isAlnum st c).1 with capsules := aset (H (jsonToString c)) (jsonToString c) ((storeCapsule H isAlnum st c).1).capsules } = (storeCapsule H isAlnum st c).1 := by
    rw [hc1]
  have hmem : ∀ tk ∈ (capsuleTokens isAlnum c), (H (jsonToString c)) ∈ getIndexedIds (storeCapsule H isAlnum st c).1 tk := by
    intro tk htk
    exact foldl_capIndexStep_mem (H (jsonToString c)) (capsuleTokens isAlnum c) _ tk htk
  have hidem : (capsuleTokens isAlnum c).foldl (capIndexStep (H (jsonToString c))) (storeCapsule H isAlnum st c).1 = (storeCapsule H isAlnum st c).1 :=
    foldl_capIndexStep_id _ _ _ hmem
  refine ⟨?_, rfl, ?_, ?_⟩
  · calc storeCapsule H isAlnum (storeCapsule H isAlnum st c).1 c
        = ((capsuleTokens isAlnum c).foldl (capIndexStep (H (jsonToString c)))
            { (storeCapsule H isAlnum st c).1 with capsules := aset (H (jsonToString c)) (jsonToString c) ((storeCapsule H isAlnum st c).1).capsules }, (H (jsonToString c))) := rfl
      _ = ((capsuleTokens isAlnum c).foldl (capIndexStep (H (jsonToString c))) (storeCapsule H isAlnum st c).1, (H (jsonToString c))) := by rw [hS2]
      _ = ((storeCapsule H isAlnum st c).1, (H (jsonToString c))) := by rw [hidem]
      _ = (storeCapsule H isAlnum st c) := rfl
  · rw [hcaps]
    exact alookup_aset_self _ _ _
  · exact foldl_capIndexStep_nodup (H (jsonToString c)) (capsuleTokens isAlnum c)
      { st with capsules := aset (H (jsonToString c)) (jsonToString c) st.capsules } hnd

/-- Witness for C7: storing a concrete capsule twice on the empty store is
idempotent, and the posting lists stay duplicate-free. -/
theorem claimC7_witness :
    storeCapsule (fun _ => "h") rustIsAlphanumericL1 (storeCapsule (fun _ => "h") rustIsAlphanumericL1 (openStore (fun _ => "h") false none 0 0 "t" []) (Json.obj [("content", Json.str "hello world"), ("tags", Json.arr [Json.str "X"])])).1 (Json.obj [("content", Json.str "hello world"), ("tags", Json.arr [Json.str "X"])]) = (storeCapsule (fun _ => "h") rustIsAlphanumericL1 (openStore (fun _ => "h") false none 0 0 "t" []) (Json.obj [("content", Json.str "hello world"), ("tags", Json.arr [Json.str "X"])])) ∧
    (storeCapsule (fun _ => "h") rustIsAlphanumericL1 (openStore (fun _ => "h") false none 0 0 "t" []) (Json.obj [("content", Json.str "hello world"), ("tags", Json.arr [Json.str "X"])])).2 = ((fun _ => "h") (jsonToString (Json.obj [("content", Json.str "hello world"), ("tags", Json.arr [Json.str "X"])]))) ∧
    alookup ((fun _ => "h") (jsonToString (Json.obj [("content", Json.str "hello world"), ("tags", Json.arr [Json.str "X"])]))) ((storeCapsule (fun _ => "h") rustIsAlphanumericL1 (openStore (fun _ => "h") false none 0 0 "t" []) (Json.obj [("content", Json.str "hello world"), ("tags", Json.arr [Json.str "X"])])).1).capsules = some (jsonToString (Json.obj [("content", Json.str "hello world"), ("tags", Json.arr [Json.str "X"])])) ∧
    (∀ tk l, alookup tk ((storeCapsule (fun _ => "h") rustIsAlphanumericL1 (openStore (fun _ => "h") false none 0 0 "t" []) (Json.obj [("content", Json.str "hello world"), ("tags", Json.arr [Json.str "X"])])).1).capsuleIndex = some l → l.Nodup) :=
  claimC7 (fun _ => "h") rustIsAlphanumericL1 (openStore (fun _ => "h") false none 0 0 "t" []) (Json.obj [("content", Json.str "hello world"), ("tags", Json.arr [Json.str "X"])]) (fun _ _ h => Option.noConfusion h)

theorem alookup_filter_some {p : String × α → Bool} {k : String} {v : α}
    {m : List (String × α)} (h : alookup k m = some v) (hp : p (k, v) = true) :
    alookup k (m.filter p) = some v := by
  induction m with
  | nil => simp [alookup] at h
  | cons q rest ih =>
    obtain ⟨k0, v0⟩ := q
    by_cases hk : k0 = k
    · subst hk
      simp [alookup] at h
      subst h
      simp [List.filter_cons, hp, alookup]
    · simp only [alookup, if_neg hk] at h
      rw [List.filter_cons]
      split
      · simp only [alookup, if_neg hk]
        exact ih h
      · exact ih h

theorem alookup_eq_none {k : String} {m : List (String × α)} :
    alookup k m = none ↔ k ∉ akeys m := by
  induction m with
  | nil => simp [alookup, akeys]
  | cons q rest ih =>
    obtain ⟨k0, v0⟩ := q
    unfold alookup akeys
    unfold akeys at ih
    by_cases hk : k0 = k
    · subst hk
      simp
    · simp only [if_neg hk, List.map_cons, List.mem_cons]
      rw [ih]
      constructor
      · intro h hc
        rcases hc with hc | hc
        · exact hk hc.symm
        · exact h hc
      · intro h hc
        exact h (Or.inr hc)

theorem alookup_filter_none {p : String × α → Bool} {k : String} {m : List (String × α)}
    (h : alookup k m = none) : alookup k (m.filter p) = none := by
  rw [alookup_eq_none] at h ⊢
  intro hmem
  obtain ⟨q, hq, hqe⟩ := List.mem_map.mp hmem
  exact h (List.mem_map.mpr ⟨q, List.mem_of_mem_filter hq, hqe⟩)

theorem alookup_drop_none {k : String} {m : List (String × α)} (n : Nat)
    (h : alookup k m = none) : alookup k (m.drop n) = none := by
  rw [alookup_eq_none] at h ⊢
  intro hmem
  obtain ⟨q, hq, hqe⟩ := List.mem_map.mp hmem
  exact h (List.mem_map.mpr ⟨q, List.mem_of_mem_drop hq, hqe⟩)

theorem length_aset_le (k : String) (v : α) (m : List (String × α)) :
    (aset k v m).length ≤ m.length + 1 := by
  induction m with
  | nil => simp [aset]
  | cons q rest ih =>
    obtain ⟨k0, v0⟩ := q
    by_cases hk : k0 = k
    · simp [aset, hk]
    · simp only [aset, if_neg hk, List.length_cons]
      omega

/-- When the retained list fits the cap, cleanup is just the TTL filter. -/
theorem cleanupSeenMessages_no_evict {seen : List (String × Int)} {now ttl : Int}
    {maxSeen : Nat} (h : (seen.filter (fun p => now - p.2 ≤ ttl)).length ≤ maxSeen) :
    cleanupSeenMessages seen now ttl maxSeen = seen.filter (fun p => now - p.2 ≤ ttl) := by
  simp only [cleanupSeenMessages]
  rw [Nat.sub_eq_zero_of_le h, List.drop_zero]

theorem cleanupSeenMessages_length (seen : List (String × Int)) (now ttl : Int)
    (maxSeen : Nat) : (cleanupSeenMessages seen now ttl maxSeen).length ≤ seen.length := by
  unfold cleanupSeenMessages
  calc ((seen.filter (fun p => now - p.2 ≤ ttl)).drop
          ((seen.filter (fun p => now - p.2 ≤ ttl)).length - maxSeen)).length
      ≤ (seen.filter (fun p => now - p.2 ≤ ttl)).length := by
        rw [List.length_drop]
        omega
    _ ≤ seen.length := List.length_filter_le _ _

/-- The dedup gate: shape of the updated seen table and of the verdict. -/
theorem shouldProcessMessage_shape (seen : List (String × Int)) (msg : WireMessage)
    (now dh : Int) :
    ((msg.messageId = none ∧ shouldProcessMessage seen msg now dh = (seen, true)) ∨
     (∃ mid, msg.messageId = some mid ∧ (alookup mid seen).isSome ∧
       shouldProcessMessage seen msg now dh = (seen, false)) ∨
     (∃ mid, msg.messageId = some mid ∧ alookup mid seen = none ∧
       (shouldProcessMessage seen msg now dh).1
         = cleanupSeenMessages (aset mid now seen) now 300000 10000)) := by
  cases hid : msg.messageId with
  | none =>
    refine Or.inl ⟨rfl, ?_⟩
    unfold shouldProcessMessage
    rw [hid]
  | some mid =>
    cases hl : alookup mid seen with
    | some t0 =>
      refine Or.inr (Or.inl ⟨mid, rfl, by rw [hl]; rfl, ?_⟩)
      unfold shouldProcessMessage
      rw [hid]
      simp only [hl, Option.isSome_some, if_true]
    | none =>
      refine Or.inr (Or.inr ⟨mid, rfl, hl, ?_⟩)
      unfold shouldProcessMessage
      rw [hid]
      simp only [hl, Option.isSome_none, Bool.false_eq_true, if_false]
      by_cases hh : msg.hopsLeft.getD dh < 0
      · rw [if_pos hh]
      · rw [if_neg hh]

/-- The handshake prefix does not touch the seen table or the hop
default. -/
theorem handshakeStep_fields (st : NodeSt) (msg : WireMessage) (now : Int) :
    ((handshakeStep st msg now).1).seen = st.seen ∧
    ((handshakeStep st msg now).1).defaultHops = st.defaultHops := by
  unfold handshakeStep
  repeat' split
  all_goals exact ⟨rfl, rfl⟩

/-- The relay tail returns the node state unchanged. -/
theorem dispatchRelay_state (σ : List String → List String) (st : NodeSt)
    (msg : WireMessage) (active : String) (replies : List WireMessage) :
    (dispatchRelay σ st msg active replies).1 = st := by
  unfold dispatchRelay
  by_cases h1 : shouldRelayMessage msg = true
  · rw [if_pos h1]
    by_cases h2 : msg.hopsLeft.getD st.defaultHops - 1 ≥ 0
    · simp only [if_pos h2]
    · simp only [if_neg h2]
  · rw [if_neg h1]

/-- The routing stage never changes the seen table. -/
theorem routeMessage_seen (h64 : String → Nat) (σ : List String → List String)
    (st2 : NodeSt) (active : String) (replies0 : List WireMessage)
    (msg : WireMessage) (now : Int) :
    ((routeMessage h64 σ st2 active replies0 msg now).1).seen = st2.seen := by
  unfold routeMessage
  by_cases h1 : msg.messageType = "ping"
  · rw [if_pos h1]
  · rw [if_neg h1]
    by_cases h2 : msg.messageType = "pong"
    · rw [if_pos h2]
      cases msg.messageId with
      | none => rfl
      | some pingId =>
        repeat' split
        all_goals rfl
    · rw [if_neg h2]
      by_cases h3 : msg.messageType = "query_response"
      · rw [if_pos h3]
        cases msg.requestId <;> rfl
      · rw [if_neg h3]
        by_cases h4 : msg.messageType = "dht_store"
        · rw [if_pos h4]
          cases (msg.payload.get "key").bind Json.asStr with
          | none => rfl
          | some key => cases msg.payload.get "value" <;> rfl
        · rw [if_neg h4]
          by_cases h5 : msg.messageType = "dht_find"
          · rw [if_pos h5]
            simp only []
            repeat' split
            all_goals rfl
          · rw [if_neg h5]
            by_cases h6 : msg.messageType = "dht_value"
            · rw [if_pos h6]
              repeat' split
              all_goals first
                | rfl
                | (rw [dispatchRelay_state])
            · rw [if_neg h6]
              rw [dispatchRelay_state]

/-- The core of the loop never changes the seen table except through the
dedup gate, and dispatches only when the gate says yes; a negative gate
verdict means no dispatch and no relay. -/
theorem processMessageCore_gate (h64 : String → Nat) (σ : List String → List String)
    (st1 : NodeSt) (active : String) (replies0 : List WireMessage)
    (msg : WireMessage) (now : Int) :
    ((processMessageCore h64 σ st1 active replies0 msg now).1).seen
        = (shouldProcessMessage st1.seen msg now st1.defaultHops).1 ∧
    ((processMessageCore h64 σ st1 active replies0 msg now).2.dispatched = true →
        (shouldProcessMessage st1.seen msg now st1.defaultHops).2 = true) ∧
    ((shouldProcessMessage st1.seen msg now st1.defaultHops).2 = false →
        (processMessageCore h64 σ st1 active replies0 msg now).2.dispatched = false ∧
        (processMessageCore h64 σ st1 active replies0 msg now).2.relayed = []) := by
  unfold processMessageCore
  by_cases hsp : (shouldProcessMessage st1.seen msg now st1.defaultHops).2 = true
  · rw [if_neg (by simp [hsp])]
    refine ⟨?_, fun _ => hsp, fun hfalse => absurd hsp (by simp [hfalse])⟩
    exact (routeMessage_seen h64 σ
      { st1 with seen := (shouldProcessMessage st1.seen msg now st1.defaultHops).1 }
      active replies0 msg now)
  · rw [if_pos (by simpa using hsp)]
    exact ⟨rfl, fun h => absurd h (by simp), fun _ => ⟨rfl, rfl⟩⟩

/-- The connection loop never changes the seen table except through the
dedup gate, and dispatches only when the gate says yes; a negative gate
verdict means no dispatch and no relay. -/
theorem processMessage_core (h64 : String → Nat) (σ : List String → List String)
    (st : NodeSt) (msg : WireMessage) (now : Int) :
    ((processMessage h64 σ st msg now).1).seen
        = (shouldProcessMessage st.seen msg now st.defaultHops).1 ∧
    ((processMessage h64 σ st msg now).2.dispatched = true →
        (shouldProcessMessage st.seen msg now st.defaultHops).2 = true) ∧
    ((shouldProcessMessage st.seen msg now st.defaultHops).2 = false →
        (processMessage h64 σ st msg now).2.dispatched = false ∧
        (processMessage h64 σ st msg now).2.relayed = []) := by
  obtain ⟨h1, h2⟩ := handshakeStep_fields st msg now
  have hg := processMessageCore_gate h64 σ (handshakeStep st msg now).1
    (handshakeStep st msg now).2.1 (handshakeStep st msg now).2.2 msg now
  rw [h1, h2] at hg
  exact hg

/-- One loop iteration grows the seen table by at most one entry. -/
theorem processMessage_seen_len (h64 : String → Nat) (σ : List String → List String)
    (st : NodeSt) (msg : WireMessage) (now : Int) :
    ((processMessage h64 σ st msg now).1).seen.length ≤ st.seen.length + 1 := by
  rw [(processMessage_core h64 σ st msg now).1]
  rcases shouldProcessMessage_shape st.seen msg now st.defaultHops with
    ⟨_, heq⟩ | ⟨mid, _, _, heq⟩ | ⟨mid, hmid, hnone, heq⟩
  · rw [heq]
    exact Nat.le_succ _
  · rw [heq]
    exact Nat.le_succ _
  · rw [heq]
    calc (cleanupSeenMessages (aset mid now st.seen) now 300000 10000).length
        ≤ (aset mid now st.seen).length := cleanupSeenMessages_length _ _ _ _
      _ ≤ st.seen.length + 1 := length_aset_le _ _ _

/-- A seen entry in the TTL window survives one loop iteration when the
table is below the cap, and a dispatched message never bears its id. -/
theorem processMessage_seen_persist (h64 : String → Nat) (σ : List String → List String)
    (st : NodeSt) (msg : WireMessage) (now : Int) {id : String} {t0 : Int}
    (hl : alookup id st.seen = some t0) (hwin : now - t0 ≤ 300000)
    (hlen : st.seen.length < 10000) :
    alookup id ((processMessage h64 σ st msg now).1).seen = some t0 ∧
    ((processMessage h64 σ st msg now).2.dispatched = true → msg.messageId ≠ some id) := by
  obtain ⟨hseen, hgate, _⟩ := processMessage_core h64 σ st msg now
  rw [hseen]
  rcases shouldProcessMessage_shape st.seen msg now st.defaultHops with
    ⟨hmid, heq⟩ | ⟨mid, hmid, hsome, heq⟩ | ⟨mid, hmid, hnone, heq⟩
  · rw [heq]
    exact ⟨hl, fun _ => by simp [hmid]⟩
  · refine ⟨by rw [heq]; exact hl, fun hd => ?_⟩
    have hcontra := hgate hd
    rw [heq] at hcontra
    exact absurd hcontra (by simp)
  · have hne : mid ≠ id := fun he => by
      rw [he, hl] at hnone
      exact Option.noConfusion hnone
    have h1 : alookup id (aset mid now st.seen) = some t0 := by
      rw [alookup_aset_ne hne]
      exact hl
    have hflen : ((aset mid now st.seen).filter
        (fun p => now - p.2 ≤ (300000 : Int))).length ≤ 10000 := by
      calc ((aset mid now st.seen).filter (fun p => now - p.2 ≤ (300000 : Int))).length
          ≤ (aset mid now st.seen).length := List.length_filter_le _ _
        _ ≤ st.seen.length + 1 := length_aset_le _ _ _
        _ ≤ 10000 := by omega
    refine ⟨?_, fun _ => ?_⟩
    · rw [heq, cleanupSeenMessages_no_evict hflen]
      exact alookup_filter_some h1 (by simpa using hwin)
    · rw [hmid]
      intro he
      exact hne (Option.some.inj he)

/-- A dispatched message with an id writes that id into the seen table;
an id already in the table forces a drop. -/
theorem processMessage_dispatch_id (h64 : String → Nat) (σ : List String → List String)
    (st : NodeSt) (msg : WireMessage) (now : Int) {id : String}
    (hmid : msg.messageId = some id) (hlen : st.seen.length < 10000) :
    ((processMessage h64 σ st msg now).2.dispatched = true →
      alookup id ((processMessage h64 σ st msg now).1).seen = some now) ∧
    ((alookup id st.seen).isSome →
      (processMessage h64 σ st msg now).2.dispatched = false ∧
      (processMessage h64 σ st msg now).2.relayed = []) := by
  obtain ⟨hseen, hgate, hdrop⟩ := processMessage_core h64 σ st msg now
  rcases shouldProcessMessage_shape st.seen msg now st.defaultHops with
    ⟨hno, heq⟩ | ⟨mid, hmid2, hsome, heq⟩ | ⟨mid, hmid2, hnone, heq⟩
  · rw [hmid] at hno
    exact Option.noConfusion hno
  · rw [hmid] at hmid2
    obtain rfl := Option.some.inj hmid2
    refine ⟨fun hd => ?_, fun _ => hdrop (by rw [heq])⟩
    have := hgate hd
    rw [heq] at this
    exact absurd this (by simp)
  · rw [hmid] at hmid2
    obtain rfl := Option.some.inj hmid2
    have hflen : ((aset id now st.seen).filter
        (fun p => now - p.2 ≤ (300000 : Int))).length ≤ 10000 := by
      calc ((aset id now st.seen).filter (fun p => now - p.2 ≤ (300000 : Int))).length
          ≤ (aset id now st.seen).length := List.length_filter_le _ _
        _ ≤ st.seen.length + 1 := length_aset_le _ _ _
        _ ≤ 10000 := by omega
    refine ⟨fun _ => ?_, fun hs => ?_⟩
    · rw [hseen, heq, cleanupSeenMessages_no_evict hflen]
      exact alookup_filter_some (alookup_aset_self _ _ _) (by simp)
    · rw [hnone] at hs
      exact absurd hs (by simp)

/-- Unfolding one step of the trace runner. -/
theorem processTrace_cons (h64 : String → Nat) (σ : List String → List String)
    (st : NodeSt) (m : WireMessage) (t : Int) (rest : List (WireMessage × Int)) :
    (processTrace h64 σ st ((m, t) :: rest)).2
      = (m, (processMessage h64 σ st m t).2.dispatched)
          :: (processTrace h64 σ (processMessage h64 σ st m t).1 rest).2 := rfl

/-- Counting dispatches of an id splits off the head. -/
theorem dispatchCount_cons (m : WireMessage) (d : Bool) (rest : List (WireMessage × Bool))
    (id : String) :
    dispatchCount ((m, d) :: rest) id
      = (if m.messageId = some id ∧ d = true then 1 else 0) + dispatchCount rest id := by
  by_cases h : m.messageId = some id ∧ d = true
  · simp [dispatchCount, List.filter_cons, h]
    omega
  · simp [dispatchCount, List.filter_cons, h]

/-- After an id is in the seen table, a trace whose times stay within the
TTL of the entry and whose length respects the cap never dispatches that
id again. -/
theorem processTrace_count_zero (h64 : String → Nat) (σ : List String → List String)
    (id : String) :
    ∀ (trace : List (WireMessage × Int)) (s : NodeSt) (t0 : Int),
      alookup id s.seen = some t0 →
      s.seen.length + trace.length ≤ 10000 →
      (∀ p ∈ trace, p.2 - t0 ≤ (300000 : Int)) →
      dispatchCount (processTrace h64 σ s trace).2 id = 0 := by
  intro trace
  induction trace with
  | nil =>
    intro s t0 _ _ _
    rfl
  | cons mt rest ih =>
    intro s t0 hl hlen hwin
    obtain ⟨m, t⟩ := mt
    have hlen1 : s.seen.length < 10000 := by
      simp only [List.length_cons] at hlen
      omega
    obtain ⟨hpers, hnot⟩ := processMessage_seen_persist h64 σ s m t hl
      (hwin (m, t) (by simp)) hlen1
    rw [processTrace_cons, dispatchCount_cons]
    have hrest : dispatchCount (processTrace h64 σ (processMessage h64 σ s m t).1 rest).2 id
        = 0 := by
      refine ih (processMessage h64 σ s m t).1 t0 hpers ?_ ?_
      · have := processMessage_seen_len h64 σ s m t
        simp only [List.length_cons] at hlen
        omega
      · intro p hp
        exact hwin p (List.mem_cons_of_mem _ hp)
    rw [hrest]
    have hcond : ¬(m.messageId = some id ∧ (processMessage h64 σ s m t).2.dispatched = true) := by
      intro hc
      exact hnot hc.2 hc.1
    rw [if_neg hcond]

/-- From any starting state, a trace whose times span at most the TTL and
whose length respects the cap dispatches each id at most once. -/
theorem processTrace_count_le_one (h64 : String → Nat) (σ : List String → List String)
    (id : String) :
    ∀ (trace : List (WireMessage × Int)) (s : NodeSt),
      s.seen.length + trace.length ≤ 10000 →
      (∀ p ∈ trace, ∀ q ∈ trace, p.2 - q.2 ≤ (300000 : Int)) →
      dispatchCount (processTrace h64 σ s trace).2 id ≤ 1 := by
  intro trace
  induction trace with
  | nil =>
    intro s _ _
    exact Nat.zero_le _
  | cons mt rest ih =>
    intro s hlen hwin
    obtain ⟨m, t⟩ := mt
    have hlen1 : s.seen.length < 10000 := by
      simp only [List.length_cons] at hlen
      omega
    have hlen2 : ((processMessage h64 σ s m t).1).seen.length + rest.length ≤ 10000 := by
      have := processMessage_seen_len h64 σ s m t
      simp only [List.length_cons] at hlen
      omega
    rw [processTrace_cons, dispatchCount_cons]
    by_cases hc : m.messageId = some id ∧ (processMessage h64 σ s m t).2.dispatched = true
    · rw [if_pos hc]
      have hafter := (processMessage_dispatch_id h64 σ s m t hc.1 hlen1).1 hc.2
      have hzero := processTrace_count_zero h64 σ id rest (processMessage h64 σ s m t).1 t
        hafter hlen2 ?_
      · omega
      · intro p hp
        exact hwin p (List.mem_cons_of_mem _ hp) (m, t) (by simp)
    · rw [if_neg hc]
      have hrest := ih (processMessage h64 σ s m t).1 hlen2 ?_
      · omega
      · intro p hp q hq
        exact hwin p (List.mem_cons_of_mem _ hp) q (List.mem_cons_of_mem _ hq)

/-- C4 (amended): a peer message bearing a message id already present in
the seen table is dropped: not dispatched and not relayed.  Consequently,
for traces whose timestamps span at most the 300000 ms TTL and whose
length stays within the 10000-entry cap, each message id is dispatched at
most once.  (The unamended at-most-once claim is refuted by
`claimC4_counterexample`: TTL pruning runs only when a new id is inserted,
so an expired entry can be evicted by an unrelated message and the same id
dispatched a second time.) -/
theorem claimC4 (h64 : String → Nat) (σ : List String → List String) (id : String) :
    (∀ (st : NodeSt) (msg : WireMessage) (now : Int), msg.messageId = some id →
      (alookup id st.seen).isSome →
      (processMessage h64 σ st msg now).2.dispatched = false ∧
      (processMessage h64 σ st msg now).2.relayed = []) ∧
    (∀ (trace : List (WireMessage × Int)) (st0 : NodeSt), st0.seen = [] →
      trace.length ≤ 10000 →
      (∀ p ∈ trace, ∀ q ∈ trace, p.2 - q.2 ≤ (300000 : Int)) →
      dispatchCount (processTrace h64 σ st0 trace).2 id ≤ 1) := by
  constructor
  · intro st msg now hmid hseen
    obtain ⟨hs, hgate, hdrop⟩ := processMessage_core h64 σ st msg now
    rcases shouldProcessMessage_shape st.seen msg now st.defaultHops with
      ⟨hno, _⟩ | ⟨mid, hm2, hs2, heq⟩ | ⟨mid, hm2, hn2, _⟩
    · rw [hmid] at hno
      exact Option.noConfusion hno
    · exact hdrop (by rw [heq])
    · rw [hmid] at hm2
      obtain rfl := Option.some.inj hm2
      rw [hn2] at hseen
      exact absurd hseen (by simp)
  · intro trace st0 hempty hlen hwin
    refine processTrace_count_le_one h64 σ id trace st0 ?_ hwin
    rw [hempty]
    simpa using hlen

/-- Witness for C4: a node that has seen `idA` drops a second `idA`
capsule, and a short in-window trace dispatches `idA` at most once. -/
theorem claimC4_witness :
    (alookup "idA" ({ mkNodeSt "n" 1 "rk" 8 3 6 with seen := [("idA", 0)] } : NodeSt).seen).isSome
      = true ∧
    ((processMessage (fun _ => 0) (fun l => l)
        { mkNodeSt "n" 1 "rk" 8 3 6 with seen := [("idA", 0)] }
        ⟨"capsule", Json.obj [], some "idA", some 2, none, none, none, none⟩ 5).2.dispatched
      = false ∧
     (processMessage (fun _ => 0) (fun l => l)
        { mkNodeSt "n" 1 "rk" 8 3 6 with seen := [("idA", 0)] }
        ⟨"capsule", Json.obj [], some "idA", some 2, none, none, none, none⟩ 5).2.relayed = []) ∧
    dispatchCount (processTrace (fun _ => 0) (fun l => l) (mkNodeSt "n" 1 "rk" 8 3 6)
        [(⟨"capsule", Json.obj [], some "idA", some 2, none, none, none, none⟩, 0),
         (⟨"capsule", Json.obj [], some "idA", some 2, none, none, none, none⟩, 100)]).2 "idA"
      ≤ 1 :=
  ⟨by decide,
   (claimC4 (fun _ => 0) (fun l => l) "idA").1
     { mkNodeSt "n" 1 "rk" 8 3 6 with seen := [("idA", 0)] }
     ⟨"capsule", Json.obj [], some "idA", some 2, none, none, none, none⟩ 5 rfl (by decide),
   (claimC4 (fun _ => 0) (fun l => l) "idA").2
     [(⟨"capsule", Json.obj [], some "idA", some 2, none, none, none, none⟩, 0),
      (⟨"capsule", Json.obj [], some "idA", some 2, none, none, none, none⟩, 100)]
     (mkNodeSt "n" 1 "rk" 8 3 6) rfl (by decide) (by decide)⟩

/-- Counterexample to the unamended C4: an expired `idA` entry is pruned
when the unrelated `idB` arrives, so `idA` is dispatched twice. -/
theorem claimC4_counterexample :
    dispatchCount (processTrace (fun _ => 0) (fun l => l) (mkNodeSt "node_me" 1 "rk" 8 3 6)
        [(⟨"capsule", Json.obj [], some "idA", some 2, none, none, none, none⟩, 0),
         (⟨"capsule", Json.obj [], some "idB", some 2, none, none, none, none⟩, 400000),
         (⟨"capsule", Json.obj [], some "idA", some 2, none, none, none, none⟩, 400000)]).2 "idA"
      = 2 := by
  decide

/-- C5 (amended): the constants are `task_fanout = 8`, `default_fanout =
6`, `task_hops = 4`, `default_hops = 3`; `broadcast` selects up to
`task_fanout` peers exactly for the four task message types and
`default_fanout` otherwise; `broadcast_task` stamps `hops_left =
task_hops` and `broadcast_capsule` `hops_left = default_hops`; a relay
decrements `hops_left` and drops the message when the result is negative —
but the relay fan-out is `task_fanout` only for messages of type exactly
"task": `task_bid`, `task_assigned` and `task_completed` relay with
`default_fanout`, contradicting the unamended claim (see
`claimC5_counterexample`). -/
theorem claimC5 (σ : List String → List String) :
    (∀ n p rk k a h, (mkNodeSt n p rk k a h).taskFanout = 8 ∧
      (mkNodeSt n p rk k a h).defaultFanout = 6 ∧
      (mkNodeSt n p rk k a h).taskHops = 4 ∧ (mkNodeSt n p rk k a h).defaultHops = 3) ∧
    (∀ (st : NodeSt) (msg : WireMessage) (ex : Option String) (fid : String) (now : Int),
      (broadcast σ st msg ex fid now).2
        = (selectPeersStatic σ st.peers
            (if msg.messageType = "task" || msg.messageType = "task_bid" ||
                msg.messageType = "task_assigned" || msg.messageType = "task_completed"
              then st.taskFanout else st.defaultFanout) ex).map
            (fun p => (p, (ensureMessageId fid msg).1))) ∧
    (∀ (st : NodeSt) (msg : WireMessage) (active : String) (replies : List WireMessage),
      shouldRelayMessage msg = true →
      ((0 ≤ msg.hopsLeft.getD st.defaultHops - 1 →
        (dispatchRelay σ st msg active replies).2.relayed
          = (selectPeersStatic σ st.peers
              (if msg.messageType = "task" then st.taskFanout else st.defaultFanout)
              (some active)).map
              (fun p => (p, { msg with hopsLeft := some (msg.hopsLeft.getD st.defaultHops - 1) }))) ∧
       (msg.hopsLeft.getD st.defaultHops - 1 < 0 →
        (dispatchRelay σ st msg active replies).2.relayed = []))) ∧
    (∀ (st : NodeSt) (task : Json) (fid : String) (now : Int),
      ∀ pm ∈ (broadcastTask σ st task fid now).2, pm.2.hopsLeft = some st.taskHops) ∧
    (∀ (st : NodeSt) (c : Json) (fid : String) (now : Int),
      ∀ pm ∈ (broadcastCapsule σ st c fid now).2, pm.2.hopsLeft = some st.defaultHops) := by
  refine ⟨fun n p rk k a h => ⟨rfl, rfl, rfl, rfl⟩, ?_, ?_, ?_, ?_⟩
  · intro st msg ex fid now
    cases hmi : msg.messageId with
    | some mid =>
      simp only [broadcast, ensureMessageId, hmi, markMessageSeen]
    | none =>
      simp only [broadcast, ensureMessageId, hmi, markMessageSeen]
  · intro st msg active replies hrel
    unfold dispatchRelay
    rw [if_pos hrel]
    constructor
    · intro h0
      simp only [if_pos (show msg.hopsLeft.getD st.defaultHops - 1 ≥ 0 from h0)]
    · intro hneg
      simp only [if_neg (show ¬ msg.hopsLeft.getD st.defaultHops - 1 ≥ 0 from by omega)]
  · intro st task fid now pm hpm
    simp only [broadcastTask, broadcast, ensureMessageId] at hpm
    obtain ⟨p, hp, rfl⟩ := List.mem_map.mp hpm
    rfl
  · intro st c fid now pm hpm
    simp only [broadcastCapsule, broadcast, ensureMessageId] at hpm
    obtain ⟨p, hp, rfl⟩ := List.mem_map.mp hpm
    rfl

/-- Witness for C5: the constants, a concrete `task_bid` relay equation
with its hop budget, and the hop stamps of a one-peer broadcast. -/
theorem claimC5_witness :
    ((mkNodeSt "n" 1 "rk" 8 3 6).taskFanout = 8 ∧
     (mkNodeSt "n" 1 "rk" 8 3 6).defaultFanout = 6 ∧
     (mkNodeSt "n" 1 "rk" 8 3 6).taskHops = 4 ∧ (mkNodeSt "n" 1 "rk" 8 3 6).defaultHops = 3) ∧
    ((broadcast (fun l : List String => l) (mkNodeSt "node_me" 1 "addr" 8 3 6) (⟨"task_bid", Json.obj [], some "idB", some 2, none, none, none, none⟩ : WireMessage) none "fid" 5).2
      = (selectPeersStatic (fun l : List String => l) ((mkNodeSt "node_me" 1 "addr" 8 3 6)).peers
          (if (⟨"task_bid", Json.obj [], some "idB", some 2, none, none, none, none⟩ : WireMessage).messageType = "task" || (⟨"task_bid", Json.obj [], some "idB", some 2, none, none, none, none⟩ : WireMessage).messageType = "task_bid" ||
              (⟨"task_bid", Json.obj [], some "idB", some 2, none, none, none, none⟩ : WireMessage).messageType = "task_assigned" || (⟨"task_bid", Json.obj [], some "idB", some 2, none, none, none, none⟩ : WireMessage).messageType = "task_completed"
            then ((mkNodeSt "node_me" 1 "addr" 8 3 6)).taskFanout else ((mkNodeSt "node_me" 1 "addr" 8 3 6)).defaultFanout) none).map
          (fun p => (p, (ensureMessageId "fid" (⟨"task_bid", Json.obj [], some "idB", some 2, none, none, none, none⟩ : WireMessage)).1))) ∧
    ((dispatchRelay (fun l : List String => l) (mkNodeSt "node_me" 1 "addr" 8 3 6) (⟨"task_bid", Json.obj [], some "idB", some 2, none, none, none, none⟩ : WireMessage) "node_s" []).2.relayed
      = (selectPeersStatic (fun l : List String => l) ((mkNodeSt "node_me" 1 "addr" 8 3 6)).peers
          (if (⟨"task_bid", Json.obj [], some "idB", some 2, none, none, none, none⟩ : WireMessage).messageType = "task" then ((mkNodeSt "node_me" 1 "addr" 8 3 6)).taskFanout else ((mkNodeSt "node_me" 1 "addr" 8 3 6)).defaultFanout)
          (some "node_s")).map
          (fun p => (p, { (⟨"task_bid", Json.obj [], some "idB", some 2, none, none, none, none⟩ : WireMessage) with hopsLeft := some ((⟨"task_bid", Json.obj [], some "idB", some 2, none, none, none, none⟩ : WireMessage).hopsLeft.getD ((mkNodeSt "node_me" 1 "addr" 8 3 6)).defaultHops - 1) }))) ∧
    (("node_a", ⟨"task", Json.null, some "fid", some 4, none, none, none, some 5⟩) : String × WireMessage).2.hopsLeft = some (({ mkNodeSt "node_me" 1 "addr" 8 3 6 with peers := [("node_a", ⟨some 1, "x"⟩)] } : NodeSt)).taskHops ∧
    (("node_a", ⟨"capsule", Json.null, some "fid", some 3, none, none, none, some 5⟩) : String × WireMessage).2.hopsLeft = some (({ mkNodeSt "node_me" 1 "addr" 8 3 6 with peers := [("node_a", ⟨some 1, "x"⟩)] } : NodeSt)).defaultHops :=
  ⟨(claimC5 (fun l : List String => l)).1 "n" 1 "rk" 8 3 6,
   (claimC5 (fun l : List String => l)).2.1 (mkNodeSt "node_me" 1 "addr" 8 3 6) (⟨"task_bid", Json.obj [], some "idB", some 2, none, none, none, none⟩ : WireMessage) none "fid" 5,
   ((claimC5 (fun l : List String => l)).2.2.1 (mkNodeSt "node_me" 1 "addr" 8 3 6) (⟨"task_bid", Json.obj [], some "idB", some 2, none, none, none, none⟩ : WireMessage) "node_s" [] (by decide)).1 (by decide),
   (claimC5 (fun l : List String => l)).2.2.2.1 ({ mkNodeSt "node_me" 1 "addr" 8 3 6 with peers := [("node_a", ⟨some 1, "x"⟩)] } : NodeSt) Json.null "fid" 5 (("node_a", ⟨"task", Json.null, some "fid", some 4, none, none, none, some 5⟩) : String × WireMessage) (List.Mem.head _),
   (claimC5 (fun l : List String => l)).2.2.2.2 ({ mkNodeSt "node_me" 1 "addr" 8 3 6 with peers := [("node_a", ⟨some 1, "x"⟩)] } : NodeSt) Json.null "fid" 5 (("node_a", ⟨"capsule", Json.null, some "fid", some 3, none, none, none, some 5⟩) : String × WireMessage) (List.Mem.head _)⟩

/-- Counterexample to the unamended C5: with ten peers available, a
relayed `task_bid` goes to only 6 peers while a relayed `task` goes to 8 —
the task fan-out is not applied to the other three task message types on
relay. -/
theorem claimC5_counterexample :
    (processMessage (fun _ => 0) (fun l : List String => l)
        { mkNodeSt "node_me" 1 "addr_s" 8 3 6 with
            peers := [("node_s", ⟨some 99, "s"⟩), ("node_p0", ⟨some 0, "a"⟩), ("node_p1", ⟨some 1, "a"⟩),
       ("node_p2", ⟨some 2, "a"⟩), ("node_p3", ⟨some 3, "a"⟩), ("node_p4", ⟨some 4, "a"⟩),
       ("node_p5", ⟨some 5, "a"⟩), ("node_p6", ⟨some 6, "a"⟩), ("node_p7", ⟨some 7, "a"⟩),
       ("node_p8", ⟨some 8, "a"⟩)],
            peerId := some "node_s" }
        ⟨"task_bid", Json.obj [], some "idB", some 2, none, none, none, none⟩ 5).2.relayed.length
      = 6 ∧
    (processMessage (fun _ => 0) (fun l : List String => l)
        { mkNodeSt "node_me" 1 "addr_s" 8 3 6 with
            peers := [("node_s", ⟨some 99, "s"⟩), ("node_p0", ⟨some 0, "a"⟩), ("node_p1", ⟨some 1, "a"⟩),
       ("node_p2", ⟨some 2, "a"⟩), ("node_p3", ⟨some 3, "a"⟩), ("node_p4", ⟨some 4, "a"⟩),
       ("node_p5", ⟨some 5, "a"⟩), ("node_p6", ⟨some 6, "a"⟩), ("node_p7", ⟨some 7, "a"⟩),
       ("node_p8", ⟨some 8, "a"⟩)],
            peerId := some "node_s" }
        ⟨"task", Json.obj [], some "idC", some 2, none, none, none, none⟩ 5).2.relayed.length
      = 8 := by
  constructor
  · decide
  · decide

/-- `ensure_account` fails only with "Account not found". -/
theorem ensureAccount_error (H : String → String) (st : StoreSt) (n a e : String)
    (h : (ensureAccount H st n a).2 = Except.error e) : e = "Account not found" := by
  unfold ensureAccount getAccountIdByNode getAccount at h
  cases hidx : alookup n st.accountIndex with
  | none =>
    simp only [hidx] at h
    exact Except.noConfusion h
  | some accountId =>
    simp only [hidx] at h
    cases hacc : alookup accountId st.accounts with
    | none =>
      simp only [hacc] at h
      exact (Except.error.inj h).symm
    | some acct =>
      simp only [hacc] at h
      exact Except.noConfusion h

/-- `release_escrow` fails only with "Account not found". -/
theorem releaseEscrow_error (H : String → String) (st : StoreSt) (tid w e : String)
    (h : (releaseEscrow H st tid w).2 = Except.error e) : e = "Account not found" := by
  unfold releaseEscrow getAccount at h
  cases hesc : alookup tid st.escrows with
  | none =>
    simp only [hesc] at h
    exact Except.noConfusion h
  | some escrow =>
    simp only [hesc] at h
    cases hacc : alookup w st.accounts with
    | none =>
      simp only [hacc] at h
      exact (Except.error.inj h).symm
    | some acct =>
      simp only [hacc] at h
      exact Except.noConfusion h

/-- Any error out of `submit_solution` is the missing-task error, the
status error, or a store-level "Account not found". -/
theorem submitSolution_error_shape (H : String → String) (st : BazaarSt) (taskId : String)
    (solution : Json) (solver : String) :
    ∀ e, (submitSolution H st taskId solution solver).2 = Except.error e →
      (e = "Task not found" ∧ alookup taskId st.tasks = none) ∨
      (e = "Task is not open" ∧ ∃ task, alookup taskId st.tasks = some task ∧
        task.status ≠ "open" ∧ task.status ≠ "assigned") ∨
      e = "Account not found" := by
  intro e herr
  unfold submitSolution at herr
  cases ht : alookup taskId st.tasks with
  | none =>
    simp only [ht] at herr
    exact Or.inl ⟨(Except.error.inj herr).symm, rfl⟩
  | some task =>
    simp only [ht] at herr
    by_cases hstat : task.status ≠ "open" ∧ task.status ≠ "assigned"
    · rw [if_pos hstat] at herr
      exact Or.inr (Or.inl ⟨(Except.error.inj herr).symm, task, rfl, hstat⟩)
    · rw [if_neg hstat] at herr
      by_cases hdone : st.completedTasks.contains taskId = true
      · rw [if_pos hdone] at herr
        exact Except.noConfusion herr
      · rw [if_neg hdone] at herr
        by_cases hval : ¬ validateSolution task solution = true
        · rw [if_pos hval] at herr
          exact Except.noConfusion herr
        · rw [if_neg hval] at herr
          try simp only [] at herr
          cases hea : ensureAccount H st.store solver "gep-lite-v1" with
          | mk store1 res1 =>
            rw [hea] at herr
            cases res1 with
            | error e2 =>
              have he2 : e2 = "Account not found" :=
                ensureAccount_error H st.store solver "gep-lite-v1" e2 (by rw [hea])
              refine Or.inr (Or.inr ?_)
              rw [← Except.error.inj herr]
              exact he2
            | ok wa =>
              try simp only [] at herr
              cases hre : releaseEscrow H store1 taskId wa.accountId with
              | mk store2 res2 =>
                rw [hre] at herr
                cases res2 with
                | error e2 =>
                  have he2 : e2 = "Account not found" :=
                    releaseEscrow_error H store1 taskId wa.accountId e2 (by rw [hre])
                  refine Or.inr (Or.inr ?_)
                  rw [← Except.error.inj herr]
                  exact he2
                | ok reward => exact Except.noConfusion herr

/-- C6 (amended): `submit_solution` returns the hard error "Task not
found" exactly when the task is missing and "Task is not open" exactly
when its status is outside \x7bopen, assigned\x7d; on an eligible task it
returns the soft already-completed failure when the task is in the
completed set and the soft invalid-solution failure when validation
fails; validity is key presence — a `code` or `description` key,
possibly empty, and for `code`-typed tasks a length > 10 only when the
submitted `code` is a string (contradicting the non-empty /
always-length-checked reading of the unamended claim, see
`claimC6_counterexample`); otherwise it marks the task completed with
winner and completion time, and, when the store calls go through,
releases the escrow to the ensured winner account and returns the
released reward. -/
theorem claimC6 (H : String → String) (st : BazaarSt) (taskId : String) (solution : Json)
    (solver : String) :
    ((submitSolution H st taskId solution solver).2 = Except.error "Task not found" ↔
      alookup taskId st.tasks = none) ∧
    (∀ task, alookup taskId st.tasks = some task →
      ((submitSolution H st taskId solution solver).2 = Except.error "Task is not open" ↔
        (task.status ≠ "open" ∧ task.status ≠ "assigned"))) ∧
    (∀ task, validateSolution task solution = true ↔
      (((solution.get "code").isSome ∨ (solution.get "description").isSome) ∧
       (task.taskType = some "code" →
         ∀ code, (solution.get "code").bind Json.asStr = some code →
           code.utf8ByteSize > 10))) ∧
    (∀ task, alookup taskId st.tasks = some task →
      ¬(task.status ≠ "open" ∧ task.status ≠ "assigned") →
      ((st.completedTasks.contains taskId = true →
        submitSolution H st taskId solution solver
          = (st, Except.ok (Json.obj [("reason", Json.str "Task already completed"),
              ("success", Json.bool false)]))) ∧
       (st.completedTasks.contains taskId = false →
        validateSolution task solution = false →
        submitSolution H st taskId solution solver
          = (st, Except.ok (Json.obj [("reason", Json.str "Invalid solution"),
              ("success", Json.bool false)]))) ∧
       (st.completedTasks.contains taskId = false →
        validateSolution task solution = true →
        ∀ store1 wa store2 reward,
          ensureAccount H st.store solver "gep-lite-v1" = (store1, Except.ok wa) →
          releaseEscrow H store1 taskId wa.accountId = (store2, Except.ok reward) →
          submitSolution H st taskId solution solver
            = ({ { st with
               completedTasks := st.completedTasks ++ [taskId]
               tasks := aset taskId
                 { task with
                   status := "completed"
                   winner := some solver
                   completedAt := some st.store.nowIso } st.tasks } with store := store2 },
               Except.ok (Json.obj [("reward", Json.num reward), ("success", Json.bool true),
                 ("winner", Json.bool true)]))))) := by
  refine ⟨?_, ?_, ?_, ?_⟩
  · constructor
    · intro herr
      rcases submitSolution_error_shape H st taskId solution solver _ herr with
        ⟨_, hn⟩ | ⟨he, _⟩ | he
      · exact hn
      · exact absurd he (by decide)
      · exact absurd he (by decide)
    · intro hn
      unfold submitSolution
      rw [hn]
  · intro task ht
    constructor
    · intro herr
      rcases submitSolution_error_shape H st taskId solution solver _ herr with
        ⟨he, _⟩ | ⟨_, task2, ht2, hs2⟩ | he
      · exact absurd he (by decide)
      · rw [ht] at ht2
        obtain rfl := Option.some.inj ht2
        exact hs2
      · exact absurd he (by decide)
    · intro hstat
      unfold submitSolution
      simp only [ht]
      rw [if_pos hstat]
  · intro task
    unfold validateSolution
    by_cases hb : ((solution.get "code").isNone && (solution.get "description").isNone) = true
    · rw [if_pos hb]
      simp only [Bool.and_eq_true] at hb
      constructor
      · intro hfalse
        exact Bool.noConfusion hfalse
      · intro ⟨hpres, _⟩
        rcases hpres with hp | hp
        · rw [Option.isSome_iff_ne_none] at hp
          exact (hp (Option.isNone_iff_eq_none.mp hb.1)).elim
        · rw [Option.isSome_iff_ne_none] at hp
          exact (hp (Option.isNone_iff_eq_none.mp hb.2)).elim
    · rw [if_neg hb]
      have hpres : (solution.get "code").isSome = true ∨
          (solution.get "description").isSome = true := by
        simp only [Bool.and_eq_true, not_and_or] at hb
        rcases hb with hb | hb
        · left
          cases hcc : solution.get "code" <;> simp_all
        · right
          cases hcc : solution.get "description" <;> simp_all
      cases htt : task.taskType with
      | none =>
        constructor
        · intro _
          exact ⟨hpres, fun hc => absurd (htt ▸ hc) (by simp [htt])⟩
        · intro _
          rfl
      | some tt =>
        by_cases htc : tt = "code"
        · subst htc
          try simp only []
          rw [if_pos trivial]
          cases hcd : (solution.get "code").bind Json.asStr with
          | some code =>
            constructor
            · intro hgt
              refine ⟨hpres, fun _ c hc => ?_⟩
              obtain rfl := Option.some.inj hc
              simpa using hgt
            · intro ⟨_, himp⟩
              have hlen := himp trivial code rfl
              simpa using hlen
          | none =>
            constructor
            · intro _
              exact ⟨hpres, fun _ c hc => Option.noConfusion hc⟩
            · intro _
              rfl
        · try simp only []
          rw [if_neg htc]
          constructor
          · intro _
            refine ⟨hpres, fun hcode => ?_⟩
            exact absurd (Option.some.inj hcode) htc
          · intro _
            rfl
  · intro task ht hstat
    refine ⟨?_, ?_, ?_⟩
    · intro hdone
      unfold submitSolution
      simp only [ht]
      rw [if_neg hstat, if_pos hdone]
    · intro hdone hval
      unfold submitSolution
      simp only [ht]
      rw [if_neg hstat, if_neg (by simp only [hdone]; simp), if_pos (by simp [hval])]
    · intro hdone hval store1 wa store2 reward hea hre
      unfold submitSolution
      simp only [ht]
      rw [if_neg hstat, if_neg (by simp only [hdone]; simp), if_neg (by simp [hval])]
      try simp only []
      rw [hea]
      try simp only []
      rw [hre]

/-- Witness for C6: on an open task already in the completed set, the
status iff, the validity characterization, and the soft already-completed
result all hold by computation. -/
theorem claimC6_witness :
    ((submitSolution (fun _ => "h") (⟨"n", openStore (fun _ => "h") false none 0 0 "ti" [], [("t1", (⟨"t1", "d", none, ⟨5, "CLAW"⟩, [], "p", "open", [], [], "", none, none, none, none, none⟩ : Task))], ["t1"]⟩ : BazaarSt) "t1" (Json.obj []) "node_w").2
        = Except.error "Task is not open" ↔
      (((⟨"t1", "d", none, ⟨5, "CLAW"⟩, [], "p", "open", [], [], "", none, none, none, none, none⟩ : Task)).status ≠ "open" ∧ ((⟨"t1", "d", none, ⟨5, "CLAW"⟩, [], "p", "open", [], [], "", none, none, none, none, none⟩ : Task)).status ≠ "assigned")) ∧
    (validateSolution (⟨"t1", "d", none, ⟨5, "CLAW"⟩, [], "p", "open", [], [], "", none, none, none, none, none⟩ : Task) (Json.obj []) = true ↔
      ((((Json.obj []).get "code").isSome ∨ ((Json.obj []).get "description").isSome) ∧
       (((⟨"t1", "d", none, ⟨5, "CLAW"⟩, [], "p", "open", [], [], "", none, none, none, none, none⟩ : Task)).taskType = some "code" →
         ∀ code, ((Json.obj []).get "code").bind Json.asStr = some code →
           code.utf8ByteSize > 10))) ∧
    submitSolution (fun _ => "h") (⟨"n", openStore (fun _ => "h") false none 0 0 "ti" [], [("t1", (⟨"t1", "d", none, ⟨5, "CLAW"⟩, [], "p", "open", [], [], "", none, none, none, none, none⟩ : Task))], ["t1"]⟩ : BazaarSt) "t1" (Json.obj []) "node_w"
      = ((⟨"n", openStore (fun _ => "h") false none 0 0 "ti" [], [("t1", (⟨"t1", "d", none, ⟨5, "CLAW"⟩, [], "p", "open", [], [], "", none, none, none, none, none⟩ : Task))], ["t1"]⟩ : BazaarSt), Except.ok (Json.obj [("reason", Json.str "Task already completed"),
          ("success", Json.bool false)])) :=
  ⟨(claimC6 (fun _ => "h") (⟨"n", openStore (fun _ => "h") false none 0 0 "ti" [], [("t1", (⟨"t1", "d", none, ⟨5, "CLAW"⟩, [], "p", "open", [], [], "", none, none, none, none, none⟩ : Task))], ["t1"]⟩ : BazaarSt) "t1" (Json.obj []) "node_w").2.1 (⟨"t1", "d", none, ⟨5, "CLAW"⟩, [], "p", "open", [], [], "", none, none, none, none, none⟩ : Task) rfl,
   (claimC6 (fun _ => "h") (⟨"n", openStore (fun _ => "h") false none 0 0 "ti" [], [("t1", (⟨"t1", "d", none, ⟨5, "CLAW"⟩, [], "p", "open", [], [], "", none, none, none, none, none⟩ : Task))], ["t1"]⟩ : BazaarSt) "t1" (Json.obj []) "node_w").2.2.1 (⟨"t1", "d", none, ⟨5, "CLAW"⟩, [], "p", "open", [], [], "", none, none, none, none, none⟩ : Task),
   ((claimC6 (fun _ => "h") (⟨"n", openStore (fun _ => "h") false none 0 0 "ti" [], [("t1", (⟨"t1", "d", none, ⟨5, "CLAW"⟩, [], "p", "open", [], [], "", none, none, none, none, none⟩ : Task))], ["t1"]⟩ : BazaarSt) "t1" (Json.obj []) "node_w").2.2.2 (⟨"t1", "d", none, ⟨5, "CLAW"⟩, [], "p", "open", [], [], "", none, none, none, none, none⟩ : Task) rfl (by decide)).1 rfl⟩

/-- Counterexample to the unamended C6: on a `code`-typed task, a solution
whose only content is an empty `description` — no code at all — passes
validation and completes the task with a success result. -/
theorem claimC6_counterexample :
    validateSolution (⟨"t1", "d", some "code", ⟨100, "CLAW"⟩, [], "node_p", "open", [], [], "", none, none, none, none, none⟩ : Task) (Json.obj [("description", Json.str "")]) = true ∧
    (submitSolution (fun _ => "h") (⟨"node_me", openStore (fun _ => "h") false none 0 0 "ti" ["w1"], [("t1", (⟨"t1", "d", some "code", ⟨100, "CLAW"⟩, [], "node_p", "open", [], [], "", none, none, none, none, none⟩ : Task))], []⟩ : BazaarSt) "t1"
        (Json.obj [("description", Json.str "")]) "node_w").2
      = Except.ok (Json.obj [("reward", Json.num 0), ("success", Json.bool true),
          ("winner", Json.bool true)]) :=
  ⟨rfl, rfl⟩

/-- Extending a valid chain segment with a correctly linked entry. -/
theorem chainFromB_append (H : String → String) :
    ∀ (l : List LedgerEntry) (idx : Nat) (ph : String) (e : LedgerEntry),
      chainFromB H idx ph l = true →
      e.index = (match l.getLast? with | some x => x.index + 1 | none => idx) →
      e.prevHash = (match l.getLast? with | some x => x.hash | none => ph) →
      e.hash = H (jsonToString (entryPayload e)) →
      chainFromB H idx ph (l ++ [e]) = true := by
  intro l
  induction l with
  | nil =>
    intro idx ph e _ hidx hph hh
    simp only [List.getLast?_nil] at hidx hph
    simp [chainFromB, hidx, hph, hh]
  | cons x rest ih =>
    intro idx ph e hc hidx hph hh
    simp only [chainFromB, Bool.and_eq_true, decide_eq_true_eq] at hc
    obtain ⟨⟨⟨h1, h2⟩, h3⟩, h4⟩ := hc
    cases rest with
    | nil =>
      simp only [List.getLast?_singleton] at hidx hph
      simp [chainFromB, hidx, hph, hh, h1, h2, h3]
    | cons y r =>
      rw [List.getLast?_cons_cons] at hidx hph
      have hrec := ih (idx + 1) x.hash e h4 hidx hph hh
      simp only [List.cons_append, chainFromB, Bool.and_eq_true, decide_eq_true_eq] at hrec ⊢
      exact ⟨⟨⟨h1, h2⟩, h3⟩, hrec⟩

/-- `append_ledger` preserves the ledger chain invariant. -/
theorem appendLedger_chain (H : String → String) (st : StoreSt) (ty : String)
    (fa ta : Option String) (amt : Int) (meta : Json)
    (h : ledgerChainOk H st.ledger = true) :
    ledgerChainOk H ((appendLedger H st ty fa ta amt meta).1).ledger = true := by
  unfold ledgerChainOk at h ⊢
  unfold appendLedger ledgerHead
  refine chainFromB_append H st.ledger 0 "" _ h ?_ ?_ ?_
  · cases st.ledger.getLast? <;> rfl
  · cases st.ledger.getLast? <;> rfl
  · rfl

/-- The genesis bootstrap preserves the ledger chain invariant: the mint
entry is hashed over the eight-field canonical payload, which the
post-hash `account_id` assignment does not touch. -/
theorem ensureGenesis_chain (H : String → String) (st : StoreSt)
    (h : ledgerChainOk H st.ledger = true) :
    ledgerChainOk H ((ensureGenesisAccount H st).1).ledger = true := by
  unfold ensureGenesisAccount getAccountIdByNode
  cases hgi : alookup "node_genesis" st.accountIndex with
  | some gid => exact h
  | none =>
    simp only [hgi]
    by_cases hemp : st.ledger.isEmpty = true
    · have hnil : st.ledger = [] := by
        cases hl : st.ledger
        · rfl
        · rw [hl] at hemp
          exact absurd hemp (by simp)
      rw [if_pos (by simpa [putAccount] using hemp)]
      simp only [putAccount, appendLedger, ledgerHead, hnil]
      simp [ledgerChainOk, chainFromB, entryPayload]
    · rw [if_neg (by simpa [putAccount] using hemp)]
      exact h

/-- `transferCore` preserves the ledger chain invariant. -/
theorem transferCore_chain (H : String → String) (st : StoreSt) (f t : String) (amt : Int)
    (h : ledgerChainOk H st.ledger = true) :
    ledgerChainOk H ((transferCore H st f t amt).1).ledger = true := by
  unfold transferCore getAccount
  cases hfa : alookup f st.accounts with
  | none => exact h
  | some fromAccount =>
    simp only [hfa]
    cases hta : alookup t st.accounts with
    | none => exact h
    | some toAccount =>
      simp only [hta]
      by_cases hbal : fromAccount.balance < amt
      · simp only [if_pos hbal]
        exact h
      · simp only [if_neg hbal]
        exact appendLedger_chain H
          (putAccount (putAccount st { fromAccount with balance := fromAccount.balance - amt })
            { toAccount with balance := toAccount.balance + amt })
          "transfer" (some f) (some t) amt (Json.obj []) h

/-- `transfer` preserves the ledger chain invariant. -/
theorem transfer_chain (H : String → String) (st : StoreSt) (f t : String) (amt : Int)
    (op : Option String) (h : ledgerChainOk H st.ledger = true) :
    ledgerChainOk H ((transfer H st f t amt op).1).ledger = true := by
  unfold transfer
  by_cases ha : amt ≤ 0
  · rw [if_pos ha]
    exact h
  · rw [if_neg ha]
    have hg := ensureGenesis_chain H st h
    cases hge : ensureGenesisAccount H st with
    | mk st1 res =>
      rw [hge] at hg
      cases res with
      | error e => exact hg
      | ok ga =>
        simp only []
        by_cases hf : f = ga.accountId
        · rw [if_pos hf]
          cases hop : st1.genesisOperator with
          | none => exact hg
          | some operator =>
            try simp only []
            by_cases hopeq : some operator ≠ op
            · rw [if_pos hopeq]
              exact hg
            · rw [if_neg hopeq]
              exact transferCore_chain H st1 f t amt hg
        · rw [if_neg hf]
          exact transferCore_chain H st1 f t amt hg

/-- `lock_escrow` preserves the ledger chain invariant. -/
theorem lockEscrow_chain (H : String → String) (st : StoreSt) (tid f : String) (amt : Int)
    (tok : String) (h : ledgerChainOk H st.ledger = true) :
    ledgerChainOk H ((lockEscrow H st tid f amt tok).1).ledger = true := by
  rcases lockEscrow_state H st tid f amt tok with hs | ⟨fromAccount, hfa, hbal, h0, hs⟩
  · rw [hs]
    exact h
  · rw [hs]
    exact appendLedger_chain H _ "escrow_locked" (some f) none amt _ h

/-- `release_escrow` preserves the ledger chain invariant. -/
theorem releaseEscrow_chain (H : String → String) (st : StoreSt) (tid w : String)
    (h : ledgerChainOk H st.ledger = true) :
    ledgerChainOk H ((releaseEscrow H st tid w).1).ledger = true := by
  rcases releaseEscrow_state H st tid w with hs | ⟨escrow, winner, he, hw, hs⟩
  · rw [hs]
    exact h
  · rw [hs]
    exact appendLedger_chain H _ "escrow_released" none (some w) escrow.amount _ h

/-- `ensure_account` never touches the ledger. -/
theorem ensureAccount_ledger (H : String → String) (st : StoreSt) (n a : String) :
    ((ensureAccount H st n a).1).ledger = st.ledger := by
  unfold ensureAccount getAccountIdByNode
  cases hidx : alookup n st.accountIndex with
  | none => rfl
  | some accountId => rfl

/-- Capsule indexing never touches the ledger. -/
theorem foldl_capIndexStep_ledger (assetId : String) (ts : List String) :
    ∀ acc : StoreSt, ((ts.foldl (capIndexStep assetId) acc)).ledger = acc.ledger := by
  induction ts with
  | nil => exact fun _ => rfl
  | cons t0 ts ih => exact fun acc => ih _

/-- Every store operation preserves the ledger chain invariant. -/
theorem applyOp_chain (H : String → String) (isAlnum : Char → Bool) (st : StoreSt)
    (op : StoreOp) (h : ledgerChainOk H st.ledger = true) :
    ledgerChainOk H ((applyOp H isAlnum st op).1).ledger = true := by
  cases op with
  | ensureAccountOp n a =>
    have hz := ensureAccount_ledger H st n a
    simp only [applyOp]
    rw [hz]
    exact h
  | importAccountOp n p => exact h
  | transferOp f t amt o => exact transfer_chain H st f t amt o h
  | lockEscrowOp tid f amt tok => exact lockEscrow_chain H st tid f amt tok h
  | releaseEscrowOp tid w => exact releaseEscrow_chain H st tid w h
  | storeCapsuleOp c =>
    have hz := foldl_capIndexStep_ledger (H (jsonToString c)) (capsuleTokens isAlnum c)
      { st with capsules := aset (H (jsonToString c)) (jsonToString c) st.capsules }
    simp only [applyOp, storeCapsule, indexCapsule]
    rw [hz]
    exact h

/-- Any sequence of store operations preserves the ledger chain
invariant. -/
theorem runOps_chain (H : String → String) (isAlnum : Char → Bool) :
    ∀ (ops : List StoreOp) (st : StoreSt), ledgerChainOk H st.ledger = true →
      ledgerChainOk H (runOps H isAlnum st ops).ledger = true := by
  intro ops
  induction ops with
  | nil => exact fun st h => h
  | cons op rest ih => exact fun st h => ih _ (applyOp_chain H isAlnum st op h)

/-- `Store::open` establishes the ledger chain invariant. -/
theorem openStore_chain (H : String → String) (g : Bool) (op : Option String)
    (supply ms : Int) (iso : String) (ids : List String) :
    ledgerChainOk H (openStore H g op supply ms iso ids).ledger = true := by
  unfold openStore
  cases g with
  | false => rfl
  | true =>
    simp only [if_pos rfl]
    exact ensureGenesis_chain H _ rfl

/-- C2: in every store reachable from `Store::open` by any sequence of
store operations, the ledger satisfies the hash-chain invariant: indices
are dense from 0, each prev_hash equals the previous hash (the empty
string at index 0), and each stored hash is `H` of the canonical JSON
serialization of the entry without its hash field (the eight-field
payload of the specification, which never carries `account_id` or
`node_id` — so the genesis mint entry, whose `account_id` is assigned
after hashing, still verifies). -/
theorem claimC2 (H : String → String) (isAlnum : Char → Bool) (g : Bool) (op : Option String)
    (supply ms : Int) (iso : String) (ids : List String) (ops : List StoreOp) :
    ledgerChainOk H (runOps H isAlnum (openStore H g op supply ms iso ids) ops).ledger = true :=
  runOps_chain H isAlnum ops _ (openStore_chain H g op supply ms iso ids)

end Mesh